import Mathlib

/-!
Vector display: stroke tessellation and frame ring.

A shallow embedding of `src/Vector/vector_display.c`.

Conventions of the embedding.

* C `float` and `double` values are elements of a linearly ordered field `R`
  with a floor function (exact arithmetic, no rounding).  Concrete evaluation
  is done at `R = ℚ`.
* `atan2`, `sin`, `cos` and the constant `M_PI` come from `<math.h>`, which is
  not part of the repository: they are the fields of a `Libm R` parameter.
* Heap blocks are lists whose length is the allocated number of elements.
  An access outside a block is the fault `out_of_bounds`; `abort()` is the
  fault `abort`; an integer division by zero is the fault `div_by_zero`.
  Allocation itself is assumed to succeed.
* Element counts and capacities (`size_t`, `int`, `GLuint`) are natural
  numbers; the OpenGL object handles and the GL calls that only touch GPU
  state are left out, the draw calls of `update` are returned as a list.
* Statements in exact real arithmetic take `R = ℝ` and a `Libm ℝ` that
  satisfies `is_real_libm`: `M_PI = π`, the real sine and cosine, and
  `atan2 y x = arg (x + y i)`.
* Division is the division of the field; what C computes when a floating
  divisor is zero (an infinity or a NaN) is not represented.
-/

namespace VectorDisplay

/-- Faults that end the execution of an operation. -/
inductive Fault where
  | abort
  | out_of_bounds
  | div_by_zero
  deriving DecidableEq, Repr

/-- The part of `<math.h>` used by the display: `M_PI`, `atan2`, `sin`, `cos`. -/
structure Libm (R : Type) [LinearOrderedField R] where
  M_PI : R
  M_PI_pos : 0 < M_PI
  atan2 : R → R → R
  sin : R → R
  cos : R → R

/-- Committed vertex, `point_t` in the source. -/
structure point_t (R : Type) where
  x : R
  y : R
  z : R
  r : R
  g : R
  b : R
  a : R
  u : R
  v : R
  deriving DecidableEq, Repr

/-- Pending path point, `pending_point_t` in the source. -/
structure pending_point_t (R : Type) where
  x : R
  y : R
  deriving DecidableEq, Repr

/-- The display object, `struct vector_display` in the source (without the GL handles). -/
structure vector_display (R : Type) where
  width : R
  height : R
  steps : Nat
  decay : R
  r : R
  g : R
  b : R
  a : R
  cpoints : Nat
  npoints : Nat
  points : List (point_t R)
  pending_cpoints : Nat
  pending_npoints : Nat
  pending_points : List (pending_point_t R)
  step : Nat
  buffernpoints : List Nat
  did_setup : Bool
  initial_decay : R
  thickness : R

section Defs

variable {R : Type} [LinearOrderedField R] [FloorRing R]

def MAX_STEPS : Nat := 300

def DEFAULT_STEPS : Nat := 10

def DEFAULT_DECAY : R := 8 / 10

def DEFAULT_INITIAL_DECAY : R := 4 / 100

def DEFAULT_THICKNESS : R := 80

def TEXTURE_SIZE : R := 128

def HALF_TEXTURE_SIZE : R := 64

def FLT_EPSILON : R := 1 / 8388608

/-- A zero-filled `point_t`, as `calloc` leaves it. -/
def point_zero : point_t R := ⟨0, 0, 0, 0, 0, 0, 0, 0, 0⟩

/-- A zero-filled `pending_point_t`, as `calloc` leaves it. -/
def pending_zero : pending_point_t R := ⟨0, 0⟩

/-- Read of element `i` of a heap block. -/
def rd {α : Type} (xs : List α) (i : Nat) : Except Fault α :=
  match xs[i]? with
  | some v => .ok v
  | none => .error Fault.out_of_bounds

/-- Write of element `i` of a heap block. -/
def wr {α : Type} (xs : List α) (i : Nat) (v : α) : Except Fault (List α) :=
  if i < xs.length then .ok (xs.set i v) else .error Fault.out_of_bounds

/-- The floats of a block of `point_t`, in memory order (nine per element). -/
def floats_of_points : List (point_t R) → List R
  | [] => []
  | p :: ps => p.x :: p.y :: p.z :: p.r :: p.g :: p.b :: p.a :: p.u :: p.v :: floats_of_points ps

/-- The first `n` elements of a block of `pending_point_t` read from raw floats (two per element). -/
def pending_of_floats : Nat → List R → List (pending_point_t R)
  | 0, _ => []
  | n + 1, x :: y :: rest => ⟨x, y⟩ :: pending_of_floats n rest
  | _ + 1, _ => []

/-- Source: `vector_display_new` (lines 81-102). -/
def vector_display_new (width height : R) : vector_display R :=
  { width := width
    height := height
    steps := DEFAULT_STEPS
    decay := DEFAULT_DECAY
    r := 1
    g := 1
    b := 1
    a := 1
    cpoints := 60
    npoints := 0
    points := List.replicate 60 point_zero
    pending_cpoints := 60
    pending_npoints := 0
    pending_points := List.replicate 60 pending_zero
    step := 0
    buffernpoints := List.replicate DEFAULT_STEPS 0
    did_setup := false
    initial_decay := DEFAULT_INITIAL_DECAY
    thickness := DEFAULT_THICKNESS }

/-- Source: `vector_display_set_initial_decay` (lines 104-108). -/
def vector_display_set_initial_decay (self : vector_display R) (initial_decay : R) :
    Int × vector_display R :=
  if initial_decay < 0 ∨ initial_decay ≥ 1 then (-1, self)
  else (0, { self with initial_decay := initial_decay })

/-- Source: `vector_display_set_thickness` (lines 110-114). -/
def vector_display_set_thickness (self : vector_display R) (thickness : R) :
    Int × vector_display R :=
  if thickness ≤ 0 then (-1, self)
  else (0, { self with thickness := thickness })

/-- Source: `vector_display_clear` (lines 116-119). -/
def vector_display_clear (self : vector_display R) : Int × vector_display R :=
  (0, { self with npoints := 0 })

/-- Source: `vector_display_set_color` (lines 121-126). -/
def vector_display_set_color (self : vector_display R) (r g b : R) : Int × vector_display R :=
  (0, { self with r := r, g := g, b := b })

/-- Source: `ensure_pending_points` (lines 128-136).  The new block is zero-filled and twice
as large; `memcpy` then copies `sizeof(pending_point_t) * pending_npoints` bytes, that is
`2 * pending_npoints` floats, out of `self->points`, the committed vertex block. -/
def ensure_pending_points (self : vector_display R) (npoints : Nat) :
    Except Fault (vector_display R) :=
  if self.pending_cpoints < npoints then
    let src := floats_of_points self.points
    if 2 * self.pending_npoints ≤ src.length ∧ self.pending_npoints ≤ self.pending_cpoints * 2 then
      let copied := pending_of_floats self.pending_npoints src
      .ok { self with
              pending_cpoints := self.pending_cpoints * 2
              pending_points :=
                copied ++ List.replicate (self.pending_cpoints * 2 - self.pending_npoints)
                  pending_zero }
    else .error Fault.out_of_bounds
  else .ok self

/-- Source: `ensure_points` (lines 138-146). -/
def ensure_points (self : vector_display R) (npoints : Nat) : Except Fault (vector_display R) :=
  if self.cpoints < npoints then
    if self.npoints ≤ self.points.length ∧ self.npoints ≤ self.cpoints * 2 then
      .ok { self with
              cpoints := self.cpoints * 2
              points :=
                self.points.take self.npoints ++
                  List.replicate (self.cpoints * 2 - self.npoints) point_zero }
    else .error Fault.out_of_bounds
  else .ok self

/-- Source: `append_texpoint` (lines 148-160). -/
def append_texpoint (self : vector_display R) (x y u v : R) : Except Fault (vector_display R) :=
  match ensure_points self (self.npoints + 1) with
  | .error e => .error e
  | .ok s =>
    match wr s.points s.npoints
        { x := x + 1 / 2
          y := y + 1 / 2
          z := 10000
          r := s.r
          g := s.g
          b := s.b
          a := s.a
          u := u / TEXTURE_SIZE
          v := 1 - v / TEXTURE_SIZE } with
    | .error e => .error e
    | .ok pts => .ok { s with points := pts, npoints := s.npoints + 1 }

/-- Source: `vector_display_begin_draw` (lines 162-172). -/
def vector_display_begin_draw (self : vector_display R) (x y : R) :
    Except Fault (Int × vector_display R) :=
  if self.pending_npoints ≠ 0 then .error Fault.abort
  else
    match ensure_pending_points self (self.pending_npoints + 1) with
    | .error e => .error e
    | .ok s =>
      match wr s.pending_points s.pending_npoints ⟨x, y⟩ with
      | .error e => .error e
      | .ok pts => .ok (0, { s with pending_points := pts, pending_npoints := s.pending_npoints + 1 })

/-- Source: `vector_display_draw_to` (lines 174-180). -/
def vector_display_draw_to (self : vector_display R) (x y : R) :
    Except Fault (Int × vector_display R) :=
  match ensure_pending_points self (self.pending_npoints + 1) with
  | .error e => .error e
  | .ok s =>
    match wr s.pending_points s.pending_npoints ⟨x, y⟩ with
    | .error e => .error e
    | .ok pts => .ok (0, { s with pending_points := pts, pending_npoints := s.pending_npoints + 1 })

end Defs

/-- Arguments of one call of `append_texpoint`: position and raw texture coordinates. -/
structure texpoint (R : Type) where
  x : R
  y : R
  u : R
  v : R
  deriving DecidableEq, Repr

/-- The calls of `append_texpoint` made for one segment by `vector_display_end_draw`,
grouped as the source groups them and listed in the order they are made. -/
structure segment_calls (R : Type) where
  corner : List (texpoint R)
  line : List (texpoint R)
  endcap : List (texpoint R)
  startcap : List (texpoint R)

/-- One draw call issued by `vector_display_update`: the ring slot, the value of the
`alpha` uniform and the vertex count given to `glDrawArrays`. -/
structure draw_call (R : Type) where
  slot : Nat
  alpha : R
  count : Nat
  deriving DecidableEq, Repr

/-- Source: `while (ad > M_PI + FLT_EPSILON) ad -= M_PI;` (lines 246 and 317). -/
def norm_down {R : Type} [LinearOrderedField R] [FloorRing R] (m : Libm R) (ad : R) : R :=
  if m.M_PI + FLT_EPSILON < ad then norm_down m (ad - m.M_PI) else ad
termination_by Int.toNat ⌈(ad - (m.M_PI + FLT_EPSILON)) / m.M_PI⌉
decreasing_by
  rename_i h
  have hpi := m.M_PI_pos
  have hx : 0 < (ad - (m.M_PI + FLT_EPSILON)) / m.M_PI := div_pos (by linarith) hpi
  have e : (ad - m.M_PI - (m.M_PI + FLT_EPSILON)) / m.M_PI
      = (ad - (m.M_PI + FLT_EPSILON)) / m.M_PI - 1 := by
    field_simp
    ring
  rw [e, Int.ceil_sub_one]
  have := Int.ceil_pos.mpr hx
  omega

/-- Source: `while (ad < 0 - FLT_EPSILON) ad += M_PI;` (lines 247 and 318). -/
def norm_up {R : Type} [LinearOrderedField R] [FloorRing R] (m : Libm R) (ad : R) : R :=
  if ad < 0 - FLT_EPSILON then norm_up m (ad + m.M_PI) else ad
termination_by Int.toNat ⌈(0 - FLT_EPSILON - ad) / m.M_PI⌉
decreasing_by
  rename_i h
  have hpi := m.M_PI_pos
  have hx : 0 < (0 - FLT_EPSILON - ad) / m.M_PI := div_pos (by linarith) hpi
  have e : (0 - FLT_EPSILON - (ad + m.M_PI)) / m.M_PI
      = (0 - FLT_EPSILON - ad) / m.M_PI - 1 := by
    field_simp
    ring
  rw [e, Int.ceil_sub_one]
  have := Int.ceil_pos.mpr hx
  omega

section Tess

variable {R : Type} [LinearOrderedField R] [FloorRing R]

/-- Conversion of a floating value to `int`: truncation toward zero.  A value outside the
range of `int` is undefined behaviour in C; the embedding truncates it exactly. -/
def c_int (d : R) : Int := if 0 ≤ d then ⌊d⌋ else ⌈d⌉

/-- The `abs` of `<stdlib.h>` applied to a floating value: the argument is converted to
`int` first. -/
def c_abs (d : R) : Int := |c_int d|

/-- Source: lines 245-248 and 316-319, the shortening for a joint of angle difference `ad`. -/
def shorten_of (m : Libm R) (cr ad0 : R) : R :=
  let ad := norm_up m (norm_down m ad0)
  (cr * m.sin (ad / 2)) / m.cos (ad / 2)

/-- Source: lines 274-285, the three intermediate fan angles `(a0, a1, a2)`. -/
def fan_angles (m : Libm R) (a pa : R) : R × R × R :=
  let a1 := (a + pa) / 2
  let a1 := if ((c_abs (a1 - a) : Int) : R) > m.M_PI / 2 then a1 + m.M_PI else a1
  let a0 := (a1 + pa) / 2
  let a0 := if ((c_abs (a0 - a1) : Int) : R) > m.M_PI / 2 then a0 + m.M_PI else a0
  let a2 := (a1 + a) / 2
  let a2 := if ((c_abs (a2 - a1) : Int) : R) > m.M_PI / 2 then a2 + m.M_PI else a2
  (a0, a1, a2)

/-- Source: lines 287-305, "draw corner": four fan triangles around `(cxr, cyr)`. -/
def corner_calls (m : Libm R) (t cr cxr cyr fr pa a0 a1 a2 a : R) : List (texpoint R) :=
  let trmult : R := 1
  let tradj : R := 3 / 2
  let vc : R := HALF_TEXTURE_SIZE - ((trmult * cr + tradj) / t * HALF_TEXTURE_SIZE)
  [ ⟨cxr, cyr, HALF_TEXTURE_SIZE, vc⟩,
    ⟨cxr + fr * m.sin pa, cyr - fr * m.cos pa, HALF_TEXTURE_SIZE, TEXTURE_SIZE⟩,
    ⟨cxr + fr * m.sin a0, cyr - fr * m.cos a0, HALF_TEXTURE_SIZE, TEXTURE_SIZE⟩,
    ⟨cxr, cyr, HALF_TEXTURE_SIZE, vc⟩,
    ⟨cxr + fr * m.sin a0, cyr - fr * m.cos a0, HALF_TEXTURE_SIZE, TEXTURE_SIZE⟩,
    ⟨cxr + fr * m.sin a1, cyr - fr * m.cos a1, HALF_TEXTURE_SIZE, TEXTURE_SIZE⟩,
    ⟨cxr, cyr, HALF_TEXTURE_SIZE, vc⟩,
    ⟨cxr + fr * m.sin a1, cyr - fr * m.cos a1, HALF_TEXTURE_SIZE, TEXTURE_SIZE⟩,
    ⟨cxr + fr * m.sin a2, cyr - fr * m.cos a2, HALF_TEXTURE_SIZE, TEXTURE_SIZE⟩,
    ⟨cxr, cyr, HALF_TEXTURE_SIZE, vc⟩,
    ⟨cxr + fr * m.sin a2, cyr - fr * m.cos a2, HALF_TEXTURE_SIZE, TEXTURE_SIZE⟩,
    ⟨cxr + fr * m.sin a, cyr - fr * m.cos a, HALF_TEXTURE_SIZE, TEXTURE_SIZE⟩ ]

/-- Source: lines 329-335, "draw the line": two body triangles. -/
def line_calls (xl0 yl0 xr0 yr0 xl1 yl1 xr1 yr1 : R) : List (texpoint R) :=
  [ ⟨xr1, yr1, HALF_TEXTURE_SIZE, TEXTURE_SIZE⟩,
    ⟨xr0, yr0, HALF_TEXTURE_SIZE, TEXTURE_SIZE⟩,
    ⟨xl1, yl1, HALF_TEXTURE_SIZE, 0⟩,
    ⟨xl1, yl1, HALF_TEXTURE_SIZE, 0⟩,
    ⟨xr0, yr0, HALF_TEXTURE_SIZE, TEXTURE_SIZE⟩,
    ⟨xl0, yl0, HALF_TEXTURE_SIZE, 0⟩ ]

/-- Source: lines 349-361 (and 451-458 of `vector_display_draw`), the cap at the far end. -/
def endcap_calls (t sin_a cos_a xl1 yl1 xr1 yr1 : R) : List (texpoint R) :=
  let xlt1 := xl1 + t * cos_a
  let ylt1 := yl1 + t * sin_a
  let xrt1 := xr1 + t * cos_a
  let yrt1 := yr1 + t * sin_a
  [ ⟨xlt1, ylt1, 0, 0⟩,
    ⟨xl1, yl1, 0, HALF_TEXTURE_SIZE⟩,
    ⟨xr1, yr1, TEXTURE_SIZE, HALF_TEXTURE_SIZE⟩,
    ⟨xlt1, ylt1, 0, 0⟩,
    ⟨xr1, yr1, TEXTURE_SIZE, HALF_TEXTURE_SIZE⟩,
    ⟨xrt1, yrt1, TEXTURE_SIZE, 0⟩ ]

/-- Source: lines 363-375 (and 442-449 of `vector_display_draw`), the cap at the near end. -/
def startcap_calls (t sin_a cos_a xl0 yl0 xr0 yr0 : R) : List (texpoint R) :=
  let xlt0 := xl0 - t * cos_a
  let ylt0 := yl0 - t * sin_a
  let xrt0 := xr0 - t * cos_a
  let yrt0 := yr0 - t * sin_a
  [ ⟨xlt0, ylt0, 0, 0⟩,
    ⟨xl0, yl0, 0, HALF_TEXTURE_SIZE⟩,
    ⟨xr0, yr0, TEXTURE_SIZE, HALF_TEXTURE_SIZE⟩,
    ⟨xlt0, ylt0, 0, 0⟩,
    ⟨xr0, yr0, TEXTURE_SIZE, HALF_TEXTURE_SIZE⟩,
    ⟨xrt0, yrt0, TEXTURE_SIZE, 0⟩ ]

/-- Source: the body of the `for` loop of `vector_display_end_draw` (lines 202-375) once the
four pending points `pp = P[pi]`, `p0 = P[i-1]`, `p1 = P[i]`, `pn = P[ni]` have been read. -/
def segment_geometry (m : Libm R) (t : R) (has_prev_connect has_next_connect : Bool)
    (pp p0 p1 pn : pending_point_t R) : segment_calls R :=
  -- precomputed info for prev line
  let px0 := pp.x
  let py0 := pp.y
  let px1 := p0.x
  let py1 := p0.y
  let pa := m.atan2 (py1 - py0) (px1 - px0)
  let pa := if pa < 0 then pa + 2 * m.M_PI else pa
  -- precomputed info for current line
  let x0 := p0.x
  let y0 := p0.y
  let x1 := p1.x
  let y1 := p1.y
  let a := m.atan2 (y1 - y0) (x1 - x0)
  let sin_a := m.sin a
  let cos_a := m.cos a
  -- precomputed info for next line
  let nx0 := p1.x
  let ny0 := p1.y
  let nx1 := pn.x
  let ny1 := pn.y
  let na := m.atan2 (ny1 - ny0) (nx1 - nx0)
  -- location of the line in render space
  let xl0 := x0 + t * sin_a
  let yl0 := y0 - t * cos_a
  let xr0 := x0 - t * sin_a
  let yr0 := y0 + t * cos_a
  let xl1 := x1 + t * sin_a
  let yl1 := y1 - t * cos_a
  let xr1 := x1 - t * sin_a
  let yr1 := y1 + t * cos_a
  let cr : R := 8
  -- if (has_prev_connect)
  let shorten := shorten_of m cr (a - pa)
  let xl0 := if has_prev_connect then xl0 + shorten * cos_a else xl0
  let yl0 := if has_prev_connect then yl0 + shorten * sin_a else yl0
  let xr0 := if has_prev_connect then xr0 + shorten * cos_a else xr0
  let yr0 := if has_prev_connect then yr0 + shorten * sin_a else yr0
  let x0 := if has_prev_connect then x0 + shorten * cos_a else x0
  let y0 := if has_prev_connect then y0 + shorten * sin_a else y0
  let cxr := x0 - cr * sin_a
  let cyr := y0 + cr * cos_a
  let fr := t + cr
  let a012 := fan_angles m a pa
  let corner :=
    if has_prev_connect then corner_calls m t cr cxr cyr fr pa a012.1 a012.2.1 a012.2.2 a
    else []
  -- if (has_next_connect)
  let shorten := shorten_of m cr (na - a)
  let xl1 := if has_next_connect then xl1 - shorten * cos_a else xl1
  let yl1 := if has_next_connect then yl1 - shorten * sin_a else yl1
  let xr1 := if has_next_connect then xr1 - shorten * cos_a else xr1
  let yr1 := if has_next_connect then yr1 - shorten * sin_a else yr1
  -- (the source also moves x1 and y1 here; they are not read afterwards)
  -- draw the line
  let line := line_calls xl0 yl0 xr0 yr0 xl1 yl1 xr1 yr1
  -- if (!has_next_connect) draw endcap
  let endcap := if has_next_connect then [] else endcap_calls t sin_a cos_a xl1 yl1 xr1 yr1
  -- if (!has_prev_connect) draw startcap
  let startcap := if has_prev_connect then [] else startcap_calls t sin_a cos_a xl0 yl0 xr0 yr0
  { corner := corner, line := line, endcap := endcap, startcap := startcap }

/-- The calls of one segment in the order the source makes them: corner fan, line body,
end cap, start cap. -/
def segment_calls.all (c : segment_calls R) : List (texpoint R) :=
  c.corner ++ c.line ++ c.endcap ++ c.startcap

/-- A run of `append_texpoint` calls, in order. -/
def append_texpoints (self : vector_display R) : List (texpoint R) →
    Except Fault (vector_display R)
  | [] => .ok self
  | c :: cs =>
    match append_texpoint self c.x c.y c.u c.v with
    | .error e => .error e
    | .ok s => append_texpoints s cs

/-- Source: lines 191-192, the closed-path test on the first and last pending points. -/
def first_last_same (f l : pending_point_t R) : Bool :=
  decide (((c_abs (f.x - l.x) : Int) : R) < 1 / 10) &&
    decide (((c_abs (f.y - l.y) : Int) : R) < 1 / 10)

/-- Source: one iteration `i` of the `for` loop of `vector_display_end_draw` (lines 195-375). -/
def end_draw_segment (m : Libm R) (t : R) (fls : Bool) (self : vector_display R) (i : Nat) :
    Except Fault (vector_display R) :=
  let is_first := decide (i = 1)
  let is_last := decide (i = self.pending_npoints - 1)
  let has_prev_connect := !is_first || (is_first && fls)
  let has_next_connect := !is_last || (is_last && fls)
  let pi := if i = 1 then self.pending_npoints - 2 else i - 2
  let ni := if i + 1 ≠ self.pending_npoints then i + 1 else 1
  match rd self.pending_points pi, rd self.pending_points (i - 1),
      rd self.pending_points i, rd self.pending_points ni with
  | .ok pp, .ok p0, .ok p1, .ok pn =>
    append_texpoints self
      (segment_geometry m t has_prev_connect has_next_connect pp p0 p1 pn).all
  | _, _, _, _ => .error Fault.out_of_bounds

/-- Source: the `for (i = 1; i < self->pending_npoints; i++)` loop (line 194). -/
def end_draw_loop (m : Libm R) (t : R) (fls : Bool) (self : vector_display R) :
    List Nat → Except Fault (vector_display R)
  | [] => .ok self
  | i :: is =>
    match end_draw_segment m t fls self i with
    | .error e => .error e
    | .ok s => end_draw_loop m t fls s is

/-- Source: `vector_display_end_draw` (lines 182-381). -/
def vector_display_end_draw (m : Libm R) (self : vector_display R) :
    Except Fault (Int × vector_display R) :=
  if self.pending_npoints < 2 then .ok (0, { self with pending_npoints := 0 })
  else
    let t := self.thickness
    match rd self.pending_points 0, rd self.pending_points (self.pending_npoints - 1) with
    | .ok f, .ok l =>
      match end_draw_loop m t (first_last_same f l) self
          (List.range' 1 (self.pending_npoints - 1)) with
      | .error e => .error e
      | .ok s => .ok (0, { s with pending_npoints := 0 })
    | _, _ => .error Fault.out_of_bounds

/-- Source: the calls of `append_texpoint` made by `vector_display_draw` (lines 384-458). -/
def draw_calls (m : Libm R) (t x0 y0 x1 y1 : R) : List (texpoint R) :=
  let a := m.atan2 (y1 - y0) (x1 - x0)
  let sin_a := m.sin a
  let cos_a := m.cos a
  let xl0 := x0 + t * sin_a
  let yl0 := y0 - t * cos_a
  let xr0 := x0 - t * sin_a
  let yr0 := y0 + t * cos_a
  let xl1 := x1 + t * sin_a
  let yl1 := y1 - t * cos_a
  let xr1 := x1 - t * sin_a
  let yr1 := y1 + t * cos_a
  -- left side, right side
  [ ⟨x1, y1, HALF_TEXTURE_SIZE, HALF_TEXTURE_SIZE⟩,
    ⟨x0, y0, HALF_TEXTURE_SIZE, HALF_TEXTURE_SIZE⟩,
    ⟨xl1, yl1, 0, HALF_TEXTURE_SIZE⟩,
    ⟨xl0, yl0, 0, HALF_TEXTURE_SIZE⟩,
    ⟨x0, y0, HALF_TEXTURE_SIZE, HALF_TEXTURE_SIZE⟩,
    ⟨xl1, yl1, 0, HALF_TEXTURE_SIZE⟩,
    ⟨x0, y0, HALF_TEXTURE_SIZE, HALF_TEXTURE_SIZE⟩,
    ⟨x1, y1, HALF_TEXTURE_SIZE, HALF_TEXTURE_SIZE⟩,
    ⟨xr1, yr1, TEXTURE_SIZE, HALF_TEXTURE_SIZE⟩,
    ⟨x0, y0, HALF_TEXTURE_SIZE, HALF_TEXTURE_SIZE⟩,
    ⟨xr1, yr1, TEXTURE_SIZE, HALF_TEXTURE_SIZE⟩,
    ⟨xr0, yr0, TEXTURE_SIZE, HALF_TEXTURE_SIZE⟩ ]
    -- 0 endcap
    ++ startcap_calls t sin_a cos_a xl0 yl0 xr0 yr0
    -- 1 endcap
    ++ endcap_calls t sin_a cos_a xl1 yl1 xr1 yr1

/-- Source: `vector_display_draw` (lines 383-461). -/
def vector_display_draw (m : Libm R) (self : vector_display R) (x0 y0 x1 y1 : R) :
    Except Fault (Int × vector_display R) :=
  match append_texpoints self (draw_calls m self.thickness x0 y0 x1 y1) with
  | .error e => .error e
  | .ok s => .ok (0, s)

/-- Source: `vector_display_set_steps` (lines 463-478). -/
def vector_display_set_steps (self : vector_display R) (steps : Int) : Int × vector_display R :=
  if steps < 0 ∨ steps > (MAX_STEPS : Int) then (-1, self)
  else
    (0, { self with
            step := 0
            steps := steps.toNat
            buffernpoints := List.replicate steps.toNat 0 })

/-- Source: `vector_display_set_decay` (lines 480-484). -/
def vector_display_set_decay (self : vector_display R) (decay : R) : Int × vector_display R :=
  if decay < 0 ∨ decay ≥ 1 then (-1, self)
  else (0, { self with decay := decay })

/-- Source: lines 673-680, the alpha of the slot drawn at distance `stepi` behind the cursor. -/
def update_alpha (self : vector_display R) (stepi : Nat) : R :=
  if stepi = 0 then 1
  else if stepi = 1 then self.initial_decay
  else self.decay ^ (stepi - 1) * self.initial_decay

/-- Source: the draw loop of `vector_display_update` (lines 664-692), over the values of
`loopvar` still to come. -/
def update_draw_loop (self : vector_display R) : List Nat → Except Fault (List (draw_call R))
  | [] => .ok []
  | loopvar :: rest =>
    let stepi := self.steps - loopvar - 1
    let i := (self.step + self.steps - stepi) % self.steps
    match rd self.buffernpoints i with
    | .error e => .error e
    | .ok cnt =>
      match update_draw_loop self rest with
      | .error e => .error e
      | .ok calls =>
        if cnt = 0 then .ok calls
        else .ok (⟨i, update_alpha self stepi, cnt⟩ :: calls)

/-- Source: `vector_display_update` (lines 625-706): the new state and the draw calls issued,
in order. -/
def vector_display_update (self : vector_display R) :
    Except Fault (Int × vector_display R × List (draw_call R)) :=
  if self.steps = 0 then .error Fault.div_by_zero
  else
    let step := (self.step + 1) % self.steps
    match wr self.buffernpoints step self.npoints with
    | .error e => .error e
    | .ok bn =>
      let s := { self with step := step, buffernpoints := bn }
      match update_draw_loop s (List.range s.steps) with
      | .error e => .error e
      | .ok calls => .ok (0, s, calls)


/-- The calls `draw_to(x1,y1); ...; draw_to(xk,yk)`, in order. -/
def draw_to_all (self : vector_display R) : List (pending_point_t R) →
    Except Fault (vector_display R)
  | [] => .ok self
  | p :: ps =>
    match vector_display_draw_to self p.x p.y with
    | .error e => .error e
    | .ok (_, s) => draw_to_all s ps

/-- The calls `begin(x0,y0); draw_to(x1,y1); ...; draw_to(xk,yk)`, in order. -/
def begin_draw_to (self : vector_display R) : List (pending_point_t R) →
    Except Fault (vector_display R)
  | [] => .ok self
  | p :: ps =>
    match vector_display_begin_draw self p.x p.y with
    | .error e => .error e
    | .ok (_, s) => draw_to_all s ps

/-- The calls `begin(x0,y0); draw_to(x1,y1); ...; draw_to(xk,yk); end()`, in order. -/
def draw_path (m : Libm R) (self : vector_display R) (ps : List (pending_point_t R)) :
    Except Fault (vector_display R) :=
  match begin_draw_to self ps with
  | .error e => .error e
  | .ok s =>
    match vector_display_end_draw m s with
    | .error e => .error e
    | .ok (_, s2) => .ok s2

/-- The calls `clear(); begin(x0,y0); draw_to(x1,y1); ...; draw_to(xk,yk); end()`. -/
def clear_draw_path (m : Libm R) (self : vector_display R) (ps : List (pending_point_t R)) :
    Except Fault (vector_display R) :=
  draw_path m (vector_display_clear self).2 ps

end Tess

/-- A rational stand-in for `<math.h>` used for concrete evaluation.  It is exact for
segments that point along the positive x axis: `atan2(0, dx) = 0` for `dx > 0`,
`sin 0 = 0` and `cos 0 = 1`; `M_PI` is the approximation `355/113`. -/
def libm_x_axis : Libm ℚ :=
  { M_PI := 355 / 113
    M_PI_pos := by norm_num
    atan2 := fun _ _ => 0
    sin := fun _ => 0
    cos := fun _ => 1 }

/-- The committed vertices: the first `npoints` elements of the vertex block. -/
def committed {R : Type} (self : vector_display R) : List (point_t R) :=
  self.points.take self.npoints

/-- The pending path: the first `pending_npoints` elements of the pending block. -/
def pending_path {R : Type} (self : vector_display R) : List (pending_point_t R) :=
  self.pending_points.take self.pending_npoints

section Specs

variable {R : Type} [LinearOrderedField R] [FloorRing R]

/-- The vertex that `append_texpoint` stores for the call `c` while the current colour of
the display is that of `self`. -/
def vertex_of (self : vector_display R) (c : texpoint R) : point_t R :=
  { x := c.x + 1 / 2
    y := c.y + 1 / 2
    z := 10000
    r := self.r
    g := self.g
    b := self.b
    a := self.a
    u := c.u / TEXTURE_SIZE
    v := 1 - c.v / TEXTURE_SIZE }

/-- Consistency of the two growable blocks with their recorded capacities and counts: each
block has as many elements as its capacity says, holds no more entries than that, and the
capacity is at least the initial 60 (it only ever doubles). -/
def buffers_ok (self : vector_display R) : Prop :=
  self.points.length = self.cpoints ∧ self.npoints ≤ self.cpoints ∧ 60 ≤ self.cpoints ∧
    self.pending_points.length = self.pending_cpoints ∧
    self.pending_npoints ≤ self.pending_cpoints ∧ 60 ≤ self.pending_cpoints

instance buffers_ok_decidable (self : vector_display R) : Decidable (buffers_ok self) := by
  unfold buffers_ok
  infer_instance


/-- The state `s2` differs from `s1` only in the committed vertex block, whose contents are
those of `s1` followed by `vs`. -/
def appended (s1 s2 : vector_display R) (vs : List (point_t R)) : Prop :=
  s2 = { s1 with cpoints := s2.cpoints, points := s2.points, npoints := s1.npoints + vs.length } ∧
    s2.points.length = s2.cpoints ∧ s2.npoints ≤ s2.cpoints ∧ s1.cpoints ≤ s2.cpoints ∧
    committed s2 = committed s1 ++ vs


/-- The calls made for segment `i` of the pending path `P` (all of its points), given the
closed-path flag: the loop body of `vector_display_end_draw` with its four reads done on `P`. -/
def segment_of_path (m : Libm R) (t : R) (fls : Bool) (P : List (pending_point_t R)) (i : Nat) :
    segment_calls R :=
  let is_first := decide (i = 1)
  let is_last := decide (i = P.length - 1)
  let has_prev_connect := !is_first || (is_first && fls)
  let has_next_connect := !is_last || (is_last && fls)
  let pi := if i = 1 then P.length - 2 else i - 2
  let ni := if i + 1 ≠ P.length then i + 1 else 1
  segment_geometry m t has_prev_connect has_next_connect (P.getD pi pending_zero)
    (P.getD (i - 1) pending_zero) (P.getD i pending_zero) (P.getD ni pending_zero)

/-- The closed-path flag of the pending path `P`. -/
def path_closed (P : List (pending_point_t R)) : Bool :=
  first_last_same (P.getD 0 pending_zero) (P.getD (P.length - 1) pending_zero)

/-- The calls made by `vector_display_end_draw` for the pending path `P`, one entry per
segment `i = 1, ..., P.length - 1`. -/
def tessellation (m : Libm R) (t : R) (P : List (pending_point_t R)) : List (segment_calls R) :=
  (List.range' 1 (P.length - 1)).map (segment_of_path m t (path_closed P) P)

/-- All calls of a list of segments, in order. -/
def all_calls (segs : List (segment_calls R)) : List (texpoint R) :=
  (segs.map segment_calls.all).flatten


/-- The state `s2` differs from `s1` only in the contents of the pending block, which keeps
its size and holds the pending path of `s1` followed by `ps`. -/
def pended (s1 s2 : vector_display R) (ps : List (pending_point_t R)) : Prop :=
  s2 = { s1 with pending_points := s2.pending_points,
                 pending_npoints := s1.pending_npoints + ps.length } ∧
    s2.pending_points.length = s1.pending_points.length ∧
    pending_path s2 = pending_path s1 ++ ps


/-- The start cap of the unshortened segment `(x0,y0) → (x1,y1)`: the calls of
`startcap_calls` at the left and right offsets of `(x0,y0)`. -/
def segment_startcap (m : Libm R) (t x0 y0 x1 y1 : R) : List (texpoint R) :=
  startcap_calls t (m.sin (m.atan2 (y1 - y0) (x1 - x0))) (m.cos (m.atan2 (y1 - y0) (x1 - x0)))
    (x0 + t * m.sin (m.atan2 (y1 - y0) (x1 - x0)))
    (y0 - t * m.cos (m.atan2 (y1 - y0) (x1 - x0)))
    (x0 - t * m.sin (m.atan2 (y1 - y0) (x1 - x0)))
    (y0 + t * m.cos (m.atan2 (y1 - y0) (x1 - x0)))

/-- The end cap of the unshortened segment `(x0,y0) → (x1,y1)`: the calls of `endcap_calls`
at the left and right offsets of `(x1,y1)`. -/
def segment_endcap (m : Libm R) (t x0 y0 x1 y1 : R) : List (texpoint R) :=
  endcap_calls t (m.sin (m.atan2 (y1 - y0) (x1 - x0))) (m.cos (m.atan2 (y1 - y0) (x1 - x0)))
    (x1 + t * m.sin (m.atan2 (y1 - y0) (x1 - x0)))
    (y1 - t * m.cos (m.atan2 (y1 - y0) (x1 - x0)))
    (x1 - t * m.sin (m.atan2 (y1 - y0) (x1 - x0)))
    (y1 + t * m.cos (m.atan2 (y1 - y0) (x1 - x0)))

/-- The calls of `append_texpoint` made by `vector_display_end_draw` in the state `self`:
none for a pending path of fewer than two points, the tessellation of the path otherwise. -/
def end_calls (m : Libm R) (self : vector_display R) : List (texpoint R) :=
  if self.pending_npoints < 2 then []
  else all_calls (tessellation m self.thickness (pending_path self))

/-- The calls `update(); ...; update()`, `k` times: `k` ticks of the frame ring. -/
def update_ticks : Nat → vector_display R → Except Fault (vector_display R)
  | 0, self => .ok self
  | k + 1, self =>
    match vector_display_update self with
    | .error e => .error e
    | .ok (_, s, _) => update_ticks k s

/-- Consistency of the frame ring: it has `steps ≥ 1` slots, one recorded count per slot,
and the write cursor is one of the slots. -/
def ring_ok (self : vector_display R) : Prop :=
  1 ≤ self.steps ∧ self.buffernpoints.length = self.steps ∧ self.step < self.steps

instance ring_ok_decidable (self : vector_display R) : Decidable (ring_ok self) := by
  unfold ring_ok
  infer_instance

/-- Source: lines 208-209 and 217, the direction angles `(pa, a)` of the previous segment
`pp → p0` and of the current segment `p0 → p1`, as `vector_display_end_draw` computes them:
`pa` is moved into `[0, 2π)`, `a` is left as `atan2` returns it. -/
def joint_angles (m : Libm R) (pp p0 p1 : pending_point_t R) : R × R :=
  let pa := m.atan2 (p0.y - pp.y) (p0.x - pp.x)
  let pa := if pa < 0 then pa + 2 * m.M_PI else pa
  let a := m.atan2 (p1.y - p0.y) (p1.x - p0.x)
  (pa, a)

/-- The exact `<math.h>` over the real numbers: `M_PI` is `π`, `sin` and `cos` are the real
sine and cosine and `atan2 y x` is the argument of `x + y i` (so `atan2 0 0 = 0`). -/
def is_real_libm (m : Libm ℝ) : Prop :=
  m.M_PI = Real.pi ∧ (∀ y x : ℝ, m.atan2 y x = Complex.arg ⟨x, y⟩) ∧
    (∀ a : ℝ, m.sin a = Real.sin a) ∧ ∀ a : ℝ, m.cos a = Real.cos a

/-- The point `p` lies at perpendicular distance `d` from the line through `c0` and `c1`. -/
def at_distance (p c0 c1 : point_t ℝ) (d : ℝ) : Prop :=
  |(p.x - c0.x) * (c1.y - c0.y) - (p.y - c0.y) * (c1.x - c0.x)| /
    Real.sqrt ((c1.x - c0.x) ^ 2 + (c1.y - c0.y) ^ 2) = d

/-- One call of the public interface on an existing display, with its arguments: the
setters, `clear`, `begin_draw`, `draw_to`, `end_draw`, `draw` and `update`. -/
inductive public_call (R : Type) where
  | set_initial_decay (initial_decay : R)
  | set_thickness (thickness : R)
  | set_color (r g b : R)
  | set_steps (steps : Int)
  | set_decay (decay : R)
  | clear
  | begin_draw (x y : R)
  | draw_to (x y : R)
  | end_draw
  | draw (x0 y0 x1 y1 : R)
  | update

/-- The state a public call leaves; a call that aborts or reads outside a block leaves
none. -/
def run_call (m : Libm R) (self : vector_display R) : public_call R →
    Except Fault (vector_display R)
  | .set_initial_decay d => .ok (vector_display_set_initial_decay self d).2
  | .set_thickness t => .ok (vector_display_set_thickness self t).2
  | .set_color r g b => .ok (vector_display_set_color self r g b).2
  | .set_steps n => .ok (vector_display_set_steps self n).2
  | .set_decay d => .ok (vector_display_set_decay self d).2
  | .clear => .ok (vector_display_clear self).2
  | .begin_draw x y =>
    match vector_display_begin_draw self x y with
    | .error e => .error e
    | .ok (_, s) => .ok s
  | .draw_to x y =>
    match vector_display_draw_to self x y with
    | .error e => .error e
    | .ok (_, s) => .ok s
  | .end_draw =>
    match vector_display_end_draw m self with
    | .error e => .error e
    | .ok (_, s) => .ok s
  | .draw x0 y0 x1 y1 =>
    match vector_display_draw m self x0 y0 x1 y1 with
    | .error e => .error e
    | .ok (_, s) => .ok s
  | .update =>
    match vector_display_update self with
    | .error e => .error e
    | .ok (_, s, _) => .ok s

/-- The state after a sequence of public calls, made in order. -/
def run_calls (m : Libm R) (self : vector_display R) : List (public_call R) →
    Except Fault (vector_display R)
  | [] => .ok self
  | c :: cs =>
    match run_call m self c with
    | .error e => .error e
    | .ok s => run_calls m s cs

/-- The committed vertex count a public call leaves, as a function of the state before:
`clear` empties the buffer, `draw` adds 24 vertices, `end_draw` adds 18 per segment of a
pending path of at least two points, every other call leaves the count. -/
def npoints_after (self : vector_display R) : public_call R → Nat
  | .clear => 0
  | .draw _ _ _ _ => self.npoints + 24
  | .end_draw =>
    if self.pending_npoints < 2 then self.npoints
    else self.npoints + 18 * (self.pending_npoints - 1)
  | _ => self.npoints

end Specs

section Examples

/-- A display just created by `vector_display_new(100, 100)`. -/
def display_new : vector_display ℚ := vector_display_new 100 100

/-- The display `display_new` after `begin(0,0); draw_to(10,0); draw_to(10,10)`. -/
def display_corner : vector_display ℚ :=
  { display_new with
      pending_npoints := 3
      pending_points := [⟨0, 0⟩, ⟨10, 0⟩, ⟨10, 10⟩] ++ List.replicate 57 pending_zero }

/-- The display `display_new` after `begin(0,0); draw_to(10,0); draw_to(10,10); draw_to(0,0)`,
a closed triangle. -/
def display_triangle : vector_display ℚ :=
  { display_new with
      pending_npoints := 4
      pending_points :=
        [⟨0, 0⟩, ⟨10, 0⟩, ⟨10, 10⟩, ⟨0, 0⟩] ++ List.replicate 56 pending_zero }

/-- A path of 61 points: one more than the initial capacity of the pending block. -/
def path_61 : List (pending_point_t ℚ) := List.replicate 60 ⟨3, 7⟩ ++ [⟨61, 7⟩]

/-- The display `display_new` after `begin(3,7)`, 59 times `draw_to(3,7)` and `draw_to(61,7)`:
the pending block has been doubled once. -/
def display_grown : vector_display ℚ :=
  { display_new with
      pending_cpoints := 120
      pending_npoints := 61
      pending_points :=
        List.replicate 60 pending_zero ++ [⟨61, 7⟩] ++ List.replicate 59 pending_zero }

/-- A closed path of 61 points that starts and ends at `(5,5)`. -/
def path_loop_61 : List (pending_point_t ℚ) :=
  ⟨5, 5⟩ :: (List.replicate 59 ⟨15, 5⟩ ++ [⟨5, 5⟩])

/-- The display `display_new` after `clear()` and the submission of `path_loop_61`. -/
def display_loop_grown : vector_display ℚ :=
  { display_new with
      pending_cpoints := 120
      pending_npoints := 61
      pending_points :=
        List.replicate 60 pending_zero ++ [⟨5, 5⟩] ++ List.replicate 59 pending_zero }

/-- The closed triangle of `display_triangle` with the thickness set to 1. -/
def display_thin_triangle : vector_display ℚ :=
  (vector_display_set_thickness display_triangle 1).2

/-- The display `display_new` after `begin(0,0); draw_to(10,0); draw_to(10,10);
draw_to(1/2,0)`: the last point is 0.5 away from the first. -/
def display_near_closed : vector_display ℚ :=
  { display_new with
      pending_npoints := 4
      pending_points :=
        [⟨0, 0⟩, ⟨10, 0⟩, ⟨10, 10⟩, ⟨1 / 2, 0⟩] ++ List.replicate 56 pending_zero }

/-- A ring of three slots with the cursor at slot 0, holding the recorded counts 0, 0 and 18,
on a display with 24 committed vertices: the ring and the counts reached by `set_steps(3);
update();` an open two-point path, `update(); clear(); update(); draw(...)`.  The contents
of the vertex block, which `update` does not read, are left zero. -/
def display_ring : vector_display ℚ :=
  { display_new with
      steps := 3
      step := 0
      buffernpoints := [0, 0, 18]
      npoints := 24 }

end Examples

section Lemmas

set_option linter.unusedSectionVars false

variable {R : Type} [LinearOrderedField R] [FloorRing R]

theorem take_succ_set {α : Type} (l : List α) (n : Nat) (v : α) (h : n < l.length) :
    (l.set n v).take (n + 1) = l.take n ++ [v] := by
  induction l generalizing n with
  | nil => simp at h
  | cons a l ih =>
    cases n with
    | zero => simp
    | succ k =>
      simp only [List.length_cons, Nat.add_lt_add_iff_right] at h
      simp [ih k h]

theorem appended_refl (s : vector_display R) (h1 : s.points.length = s.cpoints)
    (h2 : s.npoints ≤ s.cpoints) : appended s s [] := by
  refine ⟨?_, h1, h2, Nat.le_refl _, by simp⟩
  simp

theorem appended_trans {s1 s2 s3 : vector_display R} {vs ws : List (point_t R)}
    (h12 : appended s1 s2 vs) (h23 : appended s2 s3 ws) : appended s1 s3 (vs ++ ws) := by
  obtain ⟨e12, -, -, p2, c12⟩ := h12
  obtain ⟨e23, l3, n3, p3, c23⟩ := h23
  refine ⟨?_, l3, n3, Nat.le_trans p2 p3, ?_⟩
  · rw [e23, e12]
    simp [Nat.add_assoc]
  · rw [c23, c12, List.append_assoc]

theorem append_texpoint_spec (s : vector_display R) (x y u v : R)
    (h1 : s.points.length = s.cpoints) (h2 : s.npoints ≤ s.cpoints) (h3 : 0 < s.cpoints) :
    ∃ s2, append_texpoint s x y u v = .ok s2 ∧ appended s s2 [vertex_of s ⟨x, y, u, v⟩] := by
  unfold append_texpoint ensure_points
  by_cases hg : s.cpoints < s.npoints + 1
  · have hn : s.npoints = s.cpoints := by omega
    have hlen : s.npoints ≤ s.points.length ∧ s.npoints ≤ s.cpoints * 2 := by omega
    simp only [hg, hlen, and_self, if_true]
    have hw : s.npoints <
        (List.take s.npoints s.points ++
          List.replicate (s.cpoints * 2 - s.npoints) (point_zero : point_t R)).length := by
      simp
      omega
    simp only [wr, hw, if_true]
    refine ⟨_, rfl, ?_, ?_, ?_, ?_, ?_⟩
    · simp
    · simp
      omega
    · simp
      omega
    · simp
      omega
    · simp only [committed]
      rw [take_succ_set _ _ _ hw, List.take_left' (by simp; omega)]
      simp [vertex_of]
  · have hw : s.npoints < s.points.length := by omega
    simp only [hg, if_false, wr, hw, if_true]
    refine ⟨_, rfl, ?_, ?_, ?_, ?_, ?_⟩
    · simp
    · simp
      omega
    · simp
      omega
    · simp
    · simp only [committed]
      rw [take_succ_set _ _ _ hw]
      simp [vertex_of]

theorem append_texpoints_spec (cs : List (texpoint R)) (s : vector_display R)
    (h1 : s.points.length = s.cpoints) (h2 : s.npoints ≤ s.cpoints) (h3 : 0 < s.cpoints) :
    ∃ s2, append_texpoints s cs = .ok s2 ∧ appended s s2 (cs.map (vertex_of s)) := by
  induction cs generalizing s with
  | nil => exact ⟨s, rfl, appended_refl s h1 h2⟩
  | cons c cs ih =>
    obtain ⟨s1, e1, a1⟩ := append_texpoint_spec s c.x c.y c.u c.v h1 h2 h3
    obtain ⟨s2, e2, a2⟩ := ih s1 a1.2.1 a1.2.2.1 (Nat.lt_of_lt_of_le h3 a1.2.2.2.1)
    refine ⟨s2, ?_, ?_⟩
    · simp only [append_texpoints, e1, e2]
    · have hv : vertex_of s1 = vertex_of s := by
        funext c
        rw [a1.1]
        rfl
      rw [hv] at a2
      have := appended_trans a1 a2
      simpa using this


theorem appended_frame {s1 s2 : vector_display R} {vs : List (point_t R)}
    (h : appended s1 s2 vs) :
    s2.pending_points = s1.pending_points ∧ s2.pending_npoints = s1.pending_npoints ∧
      s2.pending_cpoints = s1.pending_cpoints ∧ s2.thickness = s1.thickness ∧
      vertex_of s2 = vertex_of s1 ∧ s2.npoints = s1.npoints + vs.length := by
  obtain ⟨e, -⟩ := h
  refine ⟨?_, ?_, ?_, ?_, ?_, ?_⟩
  · rw [e]
  · rw [e]
  · rw [e]
  · rw [e]
  · funext c
    rw [e]
    rfl
  · rw [e]

theorem rd_take {α : Type} (l : List α) (n i : Nat) (d : α) (hi : i < n) (hn : n ≤ l.length) :
    rd l i = .ok ((l.take n).getD i d) := by
  have h1 : i < l.length := by omega
  simp [rd, List.getElem?_take, hi, List.getElem?_eq_getElem h1]

theorem end_draw_segment_eq (m : Libm R) (t : R) (fls : Bool) (s : vector_display R) (i : Nat)
    (hn : s.pending_npoints ≤ s.pending_points.length) (h2 : 2 ≤ s.pending_npoints)
    (hi1 : 1 ≤ i) (hi2 : i < s.pending_npoints) :
    end_draw_segment m t fls s i =
      append_texpoints s (segment_of_path m t fls (pending_path s) i).all := by
  have hlen : (pending_path s).length = s.pending_npoints := by
    simp [pending_path, hn]
  unfold end_draw_segment segment_of_path
  rw [hlen]
  simp only []
  rw [rd_take s.pending_points s.pending_npoints _ pending_zero (by split <;> omega) hn,
    rd_take s.pending_points s.pending_npoints (i - 1) pending_zero (by omega) hn,
    rd_take s.pending_points s.pending_npoints i pending_zero hi2 hn,
    rd_take s.pending_points s.pending_npoints _ pending_zero (by split <;> omega) hn]
  rfl

theorem end_draw_loop_spec (m : Libm R) (t : R) (fls : Bool) (P : List (pending_point_t R))
    (js : List Nat) (s : vector_display R)
    (h1 : s.points.length = s.cpoints) (h2 : s.npoints ≤ s.cpoints) (h3 : 0 < s.cpoints)
    (hP : pending_path s = P) (hn : s.pending_npoints ≤ s.pending_points.length)
    (hn2 : 2 ≤ s.pending_npoints) (hjs : ∀ i ∈ js, 1 ≤ i ∧ i < s.pending_npoints) :
    ∃ s2, end_draw_loop m t fls s js = .ok s2 ∧
      appended s s2 ((all_calls (js.map (segment_of_path m t fls P))).map (vertex_of s)) := by
  induction js generalizing s with
  | nil => exact ⟨s, rfl, by simpa [all_calls] using appended_refl s h1 h2⟩
  | cons i js ih =>
    have hi := hjs i (List.mem_cons_self _ _)
    obtain ⟨s1, e1, a1⟩ :=
      append_texpoints_spec (segment_of_path m t fls P i).all s h1 h2 h3
    have f1 := appended_frame a1
    obtain ⟨s2, e2, a2⟩ := ih s1 a1.2.1 a1.2.2.1 (Nat.lt_of_lt_of_le h3 a1.2.2.2.1)
      (by simp only [pending_path, f1.1, f1.2.1]; exact hP)
      (by rw [f1.1, f1.2.1]; exact hn) (by rw [f1.2.1]; exact hn2)
      (by
        intro j hj
        rw [f1.2.1]
        exact hjs j (List.mem_cons_of_mem _ hj))
    refine ⟨s2, ?_, ?_⟩
    · simp only [end_draw_loop]
      rw [end_draw_segment_eq m t fls s i hn hn2 hi.1 hi.2, hP, e1]
      exact e2
    · rw [f1.2.2.2.2.1] at a2
      have := appended_trans a1 a2
      simpa [all_calls] using this

/-- What `vector_display_end_draw` does on a pending path of at least two points: it returns
0, empties the pending path and appends the vertices of the tessellation of the path. -/
theorem end_draw_spec (m : Libm R) (s : vector_display R) (hs : buffers_ok s)
    (hn2 : 2 ≤ s.pending_npoints) :
    ∃ s1, appended s s1
        ((all_calls (tessellation m s.thickness (pending_path s))).map (vertex_of s)) ∧
      vector_display_end_draw m s = .ok (0, { s1 with pending_npoints := 0 }) := by
  obtain ⟨h1, h2, h3, h4, h5, -⟩ := hs
  have hn : s.pending_npoints ≤ s.pending_points.length := by omega
  have hlen : (pending_path s).length = s.pending_npoints := by
    simp [pending_path, hn]
  obtain ⟨s1, e1, a1⟩ := end_draw_loop_spec m s.thickness (path_closed (pending_path s))
    (pending_path s) (List.range' 1 (s.pending_npoints - 1)) s h1 h2 (by omega) rfl hn hn2
    (by
      intro i hi
      rw [List.mem_range'_1] at hi
      omega)
  refine ⟨s1, ?_, ?_⟩
  · simpa [tessellation, hlen] using a1
  · unfold vector_display_end_draw
    have hlt : ¬ s.pending_npoints < 2 := by omega
    simp only [hlt, if_false]
    rw [rd_take s.pending_points s.pending_npoints 0 pending_zero (by omega) hn,
      rd_take s.pending_points s.pending_npoints _ pending_zero (by omega) hn]
    simp only []
    have e : first_last_same ((List.take s.pending_npoints s.pending_points).getD 0 pending_zero)
        ((List.take s.pending_npoints s.pending_points).getD (s.pending_npoints - 1) pending_zero)
        = path_closed (pending_path s) := by
      simp only [path_closed, hlen]
      rfl
    rw [e, e1]


theorem begin_draw_empty (s : vector_display R) (x y : R) (hs : buffers_ok s)
    (h0 : s.pending_npoints = 0) :
    vector_display_begin_draw s x y =
      .ok (0, { s with pending_points := s.pending_points.set 0 ⟨x, y⟩, pending_npoints := 1 }) := by
  obtain ⟨-, -, -, h4, -, h6⟩ := hs
  have hc : ¬ s.pending_cpoints < 0 + 1 := by omega
  have hw : 0 < s.pending_points.length := by omega
  simp [vector_display_begin_draw, ensure_pending_points, h0, hc, wr, hw]

theorem draw_to_room (s : vector_display R) (x y : R)
    (h4 : s.pending_points.length = s.pending_cpoints)
    (h : s.pending_npoints < s.pending_cpoints) :
    vector_display_draw_to s x y =
      .ok (0, { s with pending_points := s.pending_points.set s.pending_npoints ⟨x, y⟩,
                       pending_npoints := s.pending_npoints + 1 }) := by
  have hc : ¬ s.pending_cpoints < s.pending_npoints + 1 := by omega
  have hw : s.pending_npoints < s.pending_points.length := by omega
  simp [vector_display_draw_to, ensure_pending_points, hc, wr, hw]

theorem pended_step (s : vector_display R) (p : pending_point_t R)
    (h : s.pending_npoints < s.pending_points.length) :
    pended s { s with pending_points := s.pending_points.set s.pending_npoints p,
                      pending_npoints := s.pending_npoints + 1 } [p] := by
  refine ⟨by simp, by simp, ?_⟩
  simp only [pending_path]
  exact take_succ_set _ _ _ h

theorem pended_trans {s1 s2 s3 : vector_display R} {ps qs : List (pending_point_t R)}
    (h12 : pended s1 s2 ps) (h23 : pended s2 s3 qs) : pended s1 s3 (ps ++ qs) := by
  obtain ⟨e12, l12, c12⟩ := h12
  obtain ⟨e23, l23, c23⟩ := h23
  refine ⟨?_, by rw [l23, l12], by rw [c23, c12, List.append_assoc]⟩
  rw [e23, e12]
  simp [Nat.add_assoc]

theorem pended_frame {s1 s2 : vector_display R} {ps : List (pending_point_t R)}
    (h : pended s1 s2 ps) :
    s2.points = s1.points ∧ s2.npoints = s1.npoints ∧ s2.cpoints = s1.cpoints ∧
      s2.pending_cpoints = s1.pending_cpoints ∧ s2.thickness = s1.thickness ∧
      vertex_of s2 = vertex_of s1 ∧ s2.pending_npoints = s1.pending_npoints + ps.length := by
  obtain ⟨e, -⟩ := h
  refine ⟨?_, ?_, ?_, ?_, ?_, ?_, ?_⟩
  · rw [e]
  · rw [e]
  · rw [e]
  · rw [e]
  · rw [e]
  · funext c
    rw [e]
    rfl
  · rw [e]

theorem draw_to_all_room (ps : List (pending_point_t R)) (s : vector_display R)
    (h4 : s.pending_points.length = s.pending_cpoints)
    (h : s.pending_npoints + ps.length ≤ s.pending_cpoints) :
    ∃ s2, draw_to_all s ps = .ok s2 ∧ pended s s2 ps := by
  induction ps generalizing s with
  | nil =>
    refine ⟨s, rfl, by simp, rfl, by simp⟩
  | cons p ps ih =>
    simp only [List.length_cons] at h
    have e1 := draw_to_room s p.x p.y h4 (by omega)
    have a1 := pended_step s p (by omega)
    obtain ⟨s2, e2, a2⟩ := ih
      { s with pending_points := s.pending_points.set s.pending_npoints p,
               pending_npoints := s.pending_npoints + 1 }
      (by simpa using h4) (by simp only []; omega)
    refine ⟨s2, ?_, ?_⟩
    · simp only [draw_to_all, e1]
      exact e2
    · have := pended_trans a1 a2
      simpa using this

theorem begin_draw_to_room (p : pending_point_t R) (ps : List (pending_point_t R))
    (s : vector_display R) (hs : buffers_ok s) (h0 : s.pending_npoints = 0)
    (h : ps.length + 1 ≤ s.pending_cpoints) :
    ∃ s2, begin_draw_to s (p :: ps) = .ok s2 ∧ pended s s2 (p :: ps) := by
  have e1 := begin_draw_empty s p.x p.y hs h0
  obtain ⟨-, -, -, h4, -, h6⟩ := hs
  have a1 := pended_step s p (by omega)
  rw [h0] at a1
  obtain ⟨s2, e2, a2⟩ := draw_to_all_room ps
    { s with pending_points := s.pending_points.set 0 p, pending_npoints := 0 + 1 }
    (by simpa using h4) (by simp only []; omega)
  refine ⟨s2, ?_, ?_⟩
  · simp only [begin_draw_to, e1]
    exact e2
  · have := pended_trans a1 a2
    simpa using this


theorem segment_geometry_lengths (m : Libm R) (t : R) (hp hn : Bool)
    (pp p0 p1 pn : pending_point_t R) :
    (segment_geometry m t hp hn pp p0 p1 pn).corner.length = (if hp then 12 else 0) ∧
      (segment_geometry m t hp hn pp p0 p1 pn).line.length = 6 ∧
      (segment_geometry m t hp hn pp p0 p1 pn).endcap.length = (if hn then 0 else 6) ∧
      (segment_geometry m t hp hn pp p0 p1 pn).startcap.length = (if hp then 0 else 6) := by
  cases hp <;> cases hn <;>
    simp [segment_geometry, corner_calls, line_calls, endcap_calls, startcap_calls]

/-- Vertex counts of the four groups of segment `i` of a path of `P.length` points. -/
theorem segment_of_path_lengths (m : Libm R) (t : R) (fls : Bool)
    (P : List (pending_point_t R)) (i : Nat) :
    (segment_of_path m t fls P i).corner.length = (if i = 1 ∧ fls = false then 0 else 12) ∧
      (segment_of_path m t fls P i).line.length = 6 ∧
      (segment_of_path m t fls P i).endcap.length =
        (if i = P.length - 1 ∧ fls = false then 6 else 0) ∧
      (segment_of_path m t fls P i).startcap.length =
        (if i = 1 ∧ fls = false then 6 else 0) := by
  unfold segment_of_path
  simp only []
  refine ⟨?_, ?_, ?_, ?_⟩
  · rw [(segment_geometry_lengths m t _ _ _ _ _ _).1]
    by_cases h : i = 1 <;> cases fls <;> simp [h]
  · rw [(segment_geometry_lengths m t _ _ _ _ _ _).2.1]
  · rw [(segment_geometry_lengths m t _ _ _ _ _ _).2.2.1]
    by_cases h : i = P.length - 1 <;> cases fls <;> simp [h]
  · rw [(segment_geometry_lengths m t _ _ _ _ _ _).2.2.2]
    by_cases h : i = 1 <;> cases fls <;> simp [h]

theorem segment_of_path_all_length (m : Libm R) (t : R) (fls : Bool)
    (P : List (pending_point_t R)) (i : Nat) :
    (segment_of_path m t fls P i).all.length =
      18 + (if i = P.length - 1 ∧ fls = false then 6 else 0) -
        (if i = 1 ∧ fls = false then 6 else 0) := by
  obtain ⟨h1, h2, h3, h4⟩ := segment_of_path_lengths m t fls P i
  simp only [segment_calls.all, List.length_append, h1, h2, h3, h4]
  split_ifs <;> omega

theorem tessellation_length (m : Libm R) (t : R) (P : List (pending_point_t R)) :
    (tessellation m t P).length = P.length - 1 := by
  simp [tessellation]

theorem tessellation_get (m : Libm R) (t : R) (P : List (pending_point_t R)) (j : Nat)
    (hj : j < P.length - 1) :
    (tessellation m t P)[j]? = some (segment_of_path m t (path_closed P) P (j + 1)) := by
  simp only [tessellation, List.getElem?_map]
  rw [List.getElem?_range' _ _ hj]
  simp [Nat.add_comm]

/-- Sum over the segments `a, ..., a + k - 1` of a path whose last segment is `K`. -/
theorem sum_segment_lengths (f : Nat → Nat) (K c : Nat) (k a : Nat) (ha : 1 ≤ a)
    (hK : a + k = K + 1)
    (hf : ∀ i, f i = 18 + (if i = K then c else 0) - (if i = 1 then c else 0)) (hc : c ≤ 18) :
    ((List.range' a k).map f).sum =
      if k = 0 then 0 else 18 * k + c - (if a = 1 then c else 0) := by
  induction k generalizing a with
  | zero => simp
  | succ k ih =>
    rw [List.range'_succ, List.map_cons, List.sum_cons, ih (a + 1) (by omega) (by omega), hf a]
    have hk1 : ¬ k + 1 = 0 := by omega
    have ha1 : ¬ a + 1 = 1 := by omega
    rw [if_neg hk1, if_neg ha1]
    by_cases hk : k = 0
    · have haK : a = K := by omega
      rw [if_pos hk, if_pos haK]
      by_cases h1 : a = 1
      · rw [if_pos h1]
        omega
      · rw [if_neg h1]
        omega
    · have haK : ¬ a = K := by omega
      rw [if_neg hk, if_neg haK]
      by_cases h1 : a = 1
      · rw [if_pos h1]
        omega
      · rw [if_neg h1]
        omega

theorem all_calls_length (m : Libm R) (t : R) (P : List (pending_point_t R))
    (hP : 2 ≤ P.length) : (all_calls (tessellation m t P)).length = 18 * (P.length - 1) := by
  simp only [all_calls, tessellation, List.length_flatten, List.map_map]
  have h := sum_segment_lengths
    (List.length ∘ segment_calls.all ∘ segment_of_path m t (path_closed P) P)
    (P.length - 1) (if path_closed P = false then 6 else 0) (P.length - 1) 1 (Nat.le_refl 1)
    (by omega)
    (by
      intro i
      simp only [Function.comp]
      rw [segment_of_path_all_length]
      cases path_closed P <;> simp)
    (by split_ifs <;> omega)
  rw [h]
  have : ¬ P.length - 1 = 0 := by omega
  simp only [this, if_false, if_true]
  omega


theorem c_int_eq_zero_iff (d : R) : c_int d = 0 ↔ -1 < d ∧ d < 1 := by
  unfold c_int
  by_cases h : 0 ≤ d
  · rw [if_pos h, Int.floor_eq_zero_iff]
    constructor
    · rintro ⟨-, h2⟩
      exact ⟨by linarith, h2⟩
    · rintro ⟨-, h2⟩
      exact ⟨h, h2⟩
  · rw [if_neg h, Int.ceil_eq_zero_iff]
    push_neg at h
    constructor
    · rintro ⟨h1, -⟩
      exact ⟨h1, by linarith⟩
    · rintro ⟨h1, -⟩
      exact ⟨h1, le_of_lt h⟩

/-- The test `abs(d) < 0.1` of the source holds exactly when `|d| < 1`. -/
theorem c_abs_lt_tenth_iff (d : R) : ((c_abs d : Int) : R) < 1 / 10 ↔ |d| < 1 := by
  have h0 : (0 : Int) ≤ c_abs d := abs_nonneg _
  rw [abs_lt, ← c_int_eq_zero_iff]
  constructor
  · intro h
    have h1 : ((c_abs d : Int) : R) < 1 := lt_trans h (by norm_num)
    have h2 : c_abs d < 1 := by exact_mod_cast h1
    have h3 : c_abs d = 0 := by omega
    exact abs_eq_zero.mp h3
  · intro h
    have h3 : c_abs d = 0 := by
      unfold c_abs
      rw [h]
      rfl
    rw [h3]
    norm_num

theorem first_last_same_iff (f l : pending_point_t R) :
    first_last_same f l = true ↔ |f.x - l.x| < 1 ∧ |f.y - l.y| < 1 := by
  simp only [first_last_same, Bool.and_eq_true, decide_eq_true_eq, c_abs_lt_tenth_iff]


theorem buffers_ok_of_pended {s1 s2 : vector_display R} {ps : List (pending_point_t R)}
    (hs : buffers_ok s1) (h : pended s1 s2 ps)
    (hc : s1.pending_npoints + ps.length ≤ s1.pending_cpoints) : buffers_ok s2 := by
  obtain ⟨h1, h2, h3, h4, h5, h6⟩ := hs
  obtain ⟨f1, f2, f3, f4, -, -, f7⟩ := pended_frame h
  refine ⟨by rw [f1, f3]; exact h1, by rw [f2, f3]; exact h2, by rw [f3]; exact h3, ?_, ?_, ?_⟩
  · rw [h.2.1, f4]
    exact h4
  · rw [f7, f4]
    exact hc
  · rw [f4]
    exact h6

theorem first_last_same_false (f l : pending_point_t R) (h : 1 ≤ |f.x - l.x| ∨ 1 ≤ |f.y - l.y|) :
    first_last_same f l = false := by
  rw [Bool.eq_false_iff]
  intro hc
  rw [first_last_same_iff] at hc
  rcases h with h | h
  · exact absurd hc.1 (not_lt.mpr h)
  · exact absurd hc.2 (not_lt.mpr h)

theorem first_last_same_true (f l : pending_point_t R) (hx : |f.x - l.x| < 1 / 10)
    (hy : |f.y - l.y| < 1 / 10) : first_last_same f l = true := by
  rw [first_last_same_iff]
  exact ⟨lt_trans hx (by norm_num), lt_trans hy (by norm_num)⟩

/-- The tessellation of an open path, group by group. -/
theorem end_draw_open (m : Libm R) (s : vector_display R) (hs : buffers_ok s)
    (hn2 : 2 ≤ s.pending_npoints) (ho : path_closed (pending_path s) = false) :
    ∃ s1, vector_display_end_draw m s = .ok (0, { s1 with pending_npoints := 0 }) ∧
      appended s s1
        ((all_calls (tessellation m s.thickness (pending_path s))).map (vertex_of s)) ∧
      (tessellation m s.thickness (pending_path s)).length = s.pending_npoints - 1 ∧
      (∀ (j : Nat) (seg : segment_calls R),
        (tessellation m s.thickness (pending_path s))[j]? = some seg →
        seg.line.length = 6 ∧ seg.corner.length = (if j = 0 then 0 else 12) ∧
        seg.startcap.length = (if j = 0 then 6 else 0) ∧
        seg.endcap.length = (if j + 2 = s.pending_npoints then 6 else 0)) ∧
      s1.npoints = s.npoints +
        3 * (2 * (s.pending_npoints - 1) + 4 * (s.pending_npoints - 2) + 4) := by
  obtain ⟨s1, a1, e1⟩ := end_draw_spec m s hs hn2
  have hlen : (pending_path s).length = s.pending_npoints := by
    have := hs.2.2.2.1
    have := hs.2.2.2.2.1
    simp only [pending_path, List.length_take]
    omega
  refine ⟨s1, e1, a1, ?_, ?_, ?_⟩
  · rw [tessellation_length, hlen]
  · intro j seg hj
    have hjlt : j < (pending_path s).length - 1 := by
      have := (List.getElem?_eq_some.mp hj).1
      rwa [tessellation_length] at this
    rw [tessellation_get m _ _ j hjlt, ho] at hj
    have hseg := Option.some.inj hj
    obtain ⟨c1, c2, c3, c4⟩ :=
      segment_of_path_lengths m s.thickness false (pending_path s) (j + 1)
    rw [hseg] at c1 c2 c3 c4
    rw [c1, c2, c3, c4, hlen]
    refine ⟨rfl, ?_, ?_, ?_⟩
    · by_cases h : j = 0 <;> simp [h]
    · by_cases h : j = 0 <;> simp [h]
    · by_cases h : j + 2 = s.pending_npoints
      · have : j + 1 = s.pending_npoints - 1 := by omega
        simp [h, this]
      · have : ¬ j + 1 = s.pending_npoints - 1 := by omega
        simp [h, this]
  · rw [(appended_frame a1).2.2.2.2.2, List.length_map, all_calls_length m _ _ (by omega), hlen]
    omega

/-- The tessellation of a closed path, group by group. -/
theorem end_draw_closed (m : Libm R) (s : vector_display R) (hs : buffers_ok s)
    (hn2 : 2 ≤ s.pending_npoints) (hc : path_closed (pending_path s) = true) :
    ∃ s1, vector_display_end_draw m s = .ok (0, { s1 with pending_npoints := 0 }) ∧
      appended s s1
        ((all_calls (tessellation m s.thickness (pending_path s))).map (vertex_of s)) ∧
      (tessellation m s.thickness (pending_path s)).length = s.pending_npoints - 1 ∧
      (∀ (j : Nat) (seg : segment_calls R),
        (tessellation m s.thickness (pending_path s))[j]? = some seg →
        seg.corner.length = 12 ∧ seg.line.length = 6 ∧ seg.endcap = [] ∧ seg.startcap = []) ∧
      s1.npoints = s.npoints + 3 * (4 * (s.pending_npoints - 1) + 2 * (s.pending_npoints - 1)) := by
  obtain ⟨s1, a1, e1⟩ := end_draw_spec m s hs hn2
  have hlen : (pending_path s).length = s.pending_npoints := by
    have := hs.2.2.2.1
    have := hs.2.2.2.2.1
    simp only [pending_path, List.length_take]
    omega
  refine ⟨s1, e1, a1, ?_, ?_, ?_⟩
  · rw [tessellation_length, hlen]
  · intro j seg hj
    have hjlt : j < (pending_path s).length - 1 := by
      have := (List.getElem?_eq_some.mp hj).1
      rwa [tessellation_length] at this
    rw [tessellation_get m _ _ j hjlt, hc] at hj
    have hseg := Option.some.inj hj
    obtain ⟨c1, c2, c3, c4⟩ :=
      segment_of_path_lengths m s.thickness true (pending_path s) (j + 1)
    rw [hseg] at c1 c2 c3 c4
    refine ⟨by simpa using c1, c2, ?_, ?_⟩
    · exact List.length_eq_zero.mp (by simpa using c3)
    · exact List.length_eq_zero.mp (by simpa using c4)
  · rw [(appended_frame a1).2.2.2.2.2, List.length_map, all_calls_length m _ _ (by omega), hlen]
    omega

/-- What `vector_display_draw` does: it returns 0 and appends the vertices of its 24 calls. -/
theorem draw_spec (m : Libm R) (s : vector_display R) (x0 y0 x1 y1 : R) (hs : buffers_ok s) :
    ∃ s1, vector_display_draw m s x0 y0 x1 y1 = .ok (0, s1) ∧
      appended s s1 ((draw_calls m s.thickness x0 y0 x1 y1).map (vertex_of s)) ∧
      (draw_calls m s.thickness x0 y0 x1 y1).length = 24 := by
  obtain ⟨h1, h2, h3, -⟩ := hs
  obtain ⟨s1, e1, a1⟩ :=
    append_texpoints_spec (draw_calls m s.thickness x0 y0 x1 y1) s h1 h2 (by omega)
  refine ⟨s1, ?_, a1, ?_⟩
  · simp only [vector_display_draw, e1]
  · simp [draw_calls, startcap_calls, endcap_calls]


theorem pending_path_of_empty (s : vector_display R) (h0 : s.pending_npoints = 0) :
    pending_path s = [] := by
  simp [pending_path, h0]

/-- What `begin; draw_to ...; end` does for a path of at least two points that fits the
pending block: the pending path is the submitted one and its tessellation is appended. -/
theorem draw_path_spec (m : Libm R) (s : vector_display R) (p : pending_point_t R)
    (ps : List (pending_point_t R)) (hs : buffers_ok s) (h0 : s.pending_npoints = 0)
    (hfit : ps.length + 1 ≤ s.pending_cpoints) (hps : 1 ≤ ps.length) :
    ∃ s1 s2, begin_draw_to s (p :: ps) = .ok s1 ∧ pended s s1 (p :: ps) ∧
      appended s1 s2 ((all_calls (tessellation m s.thickness (p :: ps))).map (vertex_of s)) ∧
      draw_path m s (p :: ps) = .ok { s2 with pending_npoints := 0 } := by
  obtain ⟨s1, e1, a1⟩ := begin_draw_to_room p ps s hs h0 hfit
  have hs1 : buffers_ok s1 := buffers_ok_of_pended hs a1 (by simp [h0]; omega)
  have f1 := pended_frame a1
  have hP : pending_path s1 = p :: ps := by
    rw [a1.2.2, pending_path_of_empty s h0]
    rfl
  have hn : 2 ≤ s1.pending_npoints := by
    rw [f1.2.2.2.2.2.2, h0]
    simp
    omega
  obtain ⟨s2, a2, e2⟩ := end_draw_spec m s1 hs1 hn
  rw [hP, f1.2.2.2.2.1, f1.2.2.2.2.2.1] at a2
  refine ⟨s1, s2, e1, a1, a2, ?_⟩
  simp only [draw_path, e1, e2]


theorem buffers_ok_of_appended {s1 s2 : vector_display R} {vs : List (point_t R)}
    (hs : buffers_ok s1) (h : appended s1 s2 vs) :
    buffers_ok s2 ∧ buffers_ok { s2 with pending_npoints := 0 } := by
  obtain ⟨h1, h2, h3, h4, h5, h6⟩ := hs
  obtain ⟨f1, f2, f3, -⟩ := appended_frame h
  obtain ⟨-, a1, a2, a3, -⟩ := h
  have a4 : 60 ≤ s2.cpoints := by omega
  refine ⟨⟨a1, a2, a4, by rw [f1, f3]; exact h4, by rw [f2, f3]; exact h5,
    by rw [f3]; exact h6⟩, ⟨a1, a2, a4, ?_, ?_, ?_⟩⟩
  · simp only []
    rw [f1, f3]
    exact h4
  · simp
  · simp only []
    rw [f3]
    exact h6

theorem tessellation_cons (m : Libm R) (t : R) (P : List (pending_point_t R))
    (hP : 2 ≤ P.length) :
    ∃ rest, tessellation m t P = segment_of_path m t (path_closed P) P 1 :: rest := by
  obtain ⟨k, hk⟩ : ∃ k, P.length - 1 = k + 1 := ⟨P.length - 2, by omega⟩
  refine ⟨(List.range' 2 k).map (segment_of_path m t (path_closed P) P), ?_⟩
  simp only [tessellation, hk, List.range'_succ, List.map_cons]

/-- The raw texture row `v` of the first call made for a segment: the fan centre when the
segment starts at a joint, the body edge otherwise. -/
theorem segment_geometry_head_v (m : Libm R) (t : R) (hp hn : Bool)
    (pp p0 p1 pn : pending_point_t R) :
    ((segment_geometry m t hp hn pp p0 p1 pn).all.head?).map texpoint.v =
      some (if hp then HALF_TEXTURE_SIZE - ((1 * 8 + 3 / 2) / t * HALF_TEXTURE_SIZE)
        else TEXTURE_SIZE) := by
  cases hp <;> cases hn <;>
    simp [segment_geometry, segment_calls.all, corner_calls, line_calls]

theorem all_calls_head_v (m : Libm R) (t : R) (P : List (pending_point_t R))
    (hP : 2 ≤ P.length) :
    ((all_calls (tessellation m t P)).head?).map texpoint.v =
      some (if path_closed P then HALF_TEXTURE_SIZE - ((1 * 8 + 3 / 2) / t * HALF_TEXTURE_SIZE)
        else TEXTURE_SIZE) := by
  obtain ⟨rest, hr⟩ := tessellation_cons m t P hP
  have hne : (segment_of_path m t (path_closed P) P 1).all ≠ [] := by
    intro h
    have := segment_of_path_all_length m t (path_closed P) P 1
    rw [h] at this
    simp only [List.length_nil] at this
    split_ifs at this
  rw [hr]
  simp only [all_calls, List.map_cons, List.flatten_cons]
  rw [List.head?_append_of_ne_nil _ hne]
  unfold segment_of_path
  simp only []
  rw [segment_geometry_head_v]
  cases path_closed P <;> simp


theorem buffers_ok_clear (s : vector_display R) (hs : buffers_ok s) :
    buffers_ok (vector_display_clear s).2 := by
  obtain ⟨h1, -, h3, h4, h5, h6⟩ := hs
  exact ⟨h1, Nat.zero_le _, h3, h4, h5, h6⟩

/-- The texture row of the first vertex appended to an empty committed buffer. -/
theorem appended_head_v (m : Libm R) (t : R) (P : List (pending_point_t R))
    (s0 s1 s2 : vector_display R) (hP : 2 ≤ P.length) (h0 : s1.npoints = 0)
    (h : appended s1 s2 ((all_calls (tessellation m t P)).map (vertex_of s0))) :
    ((committed s2).head?).map point_t.v =
      some (1 - (if path_closed P then
        HALF_TEXTURE_SIZE - ((1 * 8 + 3 / 2) / t * HALF_TEXTURE_SIZE)
        else TEXTURE_SIZE) / TEXTURE_SIZE) := by
  have hc : committed s1 = [] := by simp [committed, h0]
  rw [h.2.2.2.2, hc, List.nil_append, List.head?_map, Option.map_map]
  have hv := all_calls_head_v m t P hP
  cases hh : (all_calls (tessellation m t P)).head? with
  | none => simp [hh] at hv
  | some c =>
    rw [hh] at hv
    simp only [Option.map_some', Option.some.injEq] at hv
    simp [vertex_of, hv]


theorem clear_draw_path_eq (m : Libm R) (s sA s1 : vector_display R)
    (ps : List (pending_point_t R)) (rc : Int)
    (h1 : begin_draw_to (vector_display_clear s).2 ps = .ok sA)
    (h2 : vector_display_end_draw m sA = .ok (rc, s1)) :
    clear_draw_path m s ps = .ok s1 := by
  simp only [clear_draw_path, draw_path, h1, h2]


/-- The calls of `vector_display_draw`: twelve body calls, then the start cap, then the end
cap. -/
theorem draw_calls_split (m : Libm R) (t x0 y0 x1 y1 : R) :
    ∃ body, body.length = 12 ∧
      draw_calls m t x0 y0 x1 y1 = body ++
        segment_startcap m t x0 y0 x1 y1 ++
        segment_endcap m t x0 y0 x1 y1 :=
  ⟨_, by simp, rfl⟩

/-- The calls of `vector_display_end_draw` for an open path of two points: six body calls,
then the end cap, then the start cap. -/
theorem open_pair_calls_split (m : Libm R) (t x0 y0 x1 y1 : R)
    (ho : path_closed [(⟨x0, y0⟩ : pending_point_t R), ⟨x1, y1⟩] = false) :
    ∃ body, body.length = 6 ∧
      all_calls (tessellation m t [(⟨x0, y0⟩ : pending_point_t R), ⟨x1, y1⟩]) = body ++
        segment_endcap m t x0 y0 x1 y1 ++
        segment_startcap m t x0 y0 x1 y1 := by
  refine ⟨line_calls (x0 + t * m.sin (m.atan2 (y1 - y0) (x1 - x0)))
    (y0 - t * m.cos (m.atan2 (y1 - y0) (x1 - x0)))
    (x0 - t * m.sin (m.atan2 (y1 - y0) (x1 - x0)))
    (y0 + t * m.cos (m.atan2 (y1 - y0) (x1 - x0)))
    (x1 + t * m.sin (m.atan2 (y1 - y0) (x1 - x0)))
    (y1 - t * m.cos (m.atan2 (y1 - y0) (x1 - x0)))
    (x1 - t * m.sin (m.atan2 (y1 - y0) (x1 - x0)))
    (y1 + t * m.cos (m.atan2 (y1 - y0) (x1 - x0))), by simp [line_calls], ?_⟩
  unfold tessellation
  rw [ho]
  simp [all_calls, segment_of_path, segment_geometry, segment_calls.all, segment_endcap,
    segment_startcap]

/-- How `draw(x0,y0,x1,y1)` and `begin(x0,y0); draw_to(x1,y1); end()` compare on an open
two-point path: the same two caps in swapped order after bodies of 12 and 6 vertices. -/
theorem draw_vs_path (m : Libm R) (s : vector_display R) (x0 y0 x1 y1 : R)
    (hs : buffers_ok s) (h0 : s.pending_npoints = 0)
    (ho : path_closed [(⟨x0, y0⟩ : pending_point_t R), ⟨x1, y1⟩] = false) :
    ∃ (sd se : vector_display R) (body_d body_e cap0 cap1 : List (point_t R)),
      vector_display_draw m s x0 y0 x1 y1 = .ok (0, sd) ∧
      draw_path m s [⟨x0, y0⟩, ⟨x1, y1⟩] = .ok se ∧
      committed sd = committed s ++ (body_d ++ cap0 ++ cap1) ∧
      committed se = committed s ++ (body_e ++ cap1 ++ cap0) ∧
      body_d.length = 12 ∧ body_e.length = 6 ∧ cap0.length = 6 ∧ cap1.length = 6 := by
  obtain ⟨sd, ed, ad, -⟩ := draw_spec m s x0 y0 x1 y1 hs
  obtain ⟨s1, s2, e1, a1, a2, e2⟩ := draw_path_spec m s ⟨x0, y0⟩ [⟨x1, y1⟩] hs h0
    (by
      have := hs.2.2.2.2.2
      simp only [List.length_cons, List.length_nil]
      omega)
    (by simp)
  obtain ⟨bd, hbd, hd⟩ := draw_calls_split m s.thickness x0 y0 x1 y1
  obtain ⟨be, hbe, he⟩ := open_pair_calls_split m s.thickness x0 y0 x1 y1 ho
  have f1 := pended_frame a1
  have hc1 : committed s1 = committed s := by
    simp only [committed, f1.1, f1.2.1]
  refine ⟨sd, { s2 with pending_npoints := 0 }, bd.map (vertex_of s), be.map (vertex_of s),
    (segment_startcap m s.thickness x0 y0 x1 y1).map (vertex_of s),
    (segment_endcap m s.thickness x0 y0 x1 y1).map (vertex_of s),
    ed, e2, ?_, ?_, by simpa using hbd, by simpa using hbe, ?_, ?_⟩
  · rw [ad.2.2.2.2, hd, List.map_append, List.map_append]
  · have : committed { s2 with pending_npoints := 0 } = committed s2 := rfl
    rw [this, a2.2.2.2.2, hc1, he, List.map_append, List.map_append]
  · simp [segment_startcap, startcap_calls]
  · simp [segment_endcap, endcap_calls]

theorem update_draw_loop_spec (s : vector_display R) (hlen : s.buffernpoints.length = s.steps)
    (hpos : 0 < s.steps) (ls : List Nat) :
    update_draw_loop s ls = .ok (ls.filterMap (fun loopvar =>
      if s.buffernpoints.getD ((s.step + s.steps - (s.steps - loopvar - 1)) % s.steps) 0 = 0
      then none
      else some ⟨(s.step + s.steps - (s.steps - loopvar - 1)) % s.steps,
        update_alpha s (s.steps - loopvar - 1),
        s.buffernpoints.getD ((s.step + s.steps - (s.steps - loopvar - 1)) % s.steps) 0⟩)) := by
  induction ls with
  | nil => rfl
  | cons l ls ih =>
    have hi : (s.step + s.steps - (s.steps - l - 1)) % s.steps < s.buffernpoints.length := by
      rw [hlen]
      exact Nat.mod_lt _ hpos
    have hr : rd s.buffernpoints ((s.step + s.steps - (s.steps - l - 1)) % s.steps) =
        .ok (s.buffernpoints.getD ((s.step + s.steps - (s.steps - l - 1)) % s.steps) 0) := by
      simp [rd, List.getElem?_eq_getElem hi]
    simp only [update_draw_loop, hr, ih, List.filterMap_cons]
    split_ifs <;> rfl


theorem pending_of_floats_length (n : Nat) (src : List R) (h : 2 * n ≤ src.length) :
    (pending_of_floats n src).length = n := by
  induction n generalizing src with
  | zero => simp [pending_of_floats]
  | succ n ih =>
    match src, h with
    | x :: y :: rest, h =>
      simp only [pending_of_floats, List.length_cons]
      rw [ih rest (by simp only [List.length_cons] at h; omega)]
    | [_], h => exact absurd h (by simp only [List.length_cons, List.length_nil]; omega)
    | [], h => exact absurd h (by simp only [List.length_nil]; omega)

/-- A `draw_to` that returns keeps the blocks consistent and returns 0. -/
theorem draw_to_buffers_ok (s s1 : vector_display R) (x y : R) (rc : Int) (hs : buffers_ok s)
    (h : vector_display_draw_to s x y = .ok (rc, s1)) : buffers_ok s1 ∧ rc = 0 := by
  obtain ⟨h1, h2, h3, h4, h5, h6⟩ := hs
  unfold vector_display_draw_to ensure_pending_points at h
  by_cases hg : s.pending_cpoints < s.pending_npoints + 1
  · simp only [hg, if_true] at h
    by_cases hb : 2 * s.pending_npoints ≤ (floats_of_points s.points).length ∧
        s.pending_npoints ≤ s.pending_cpoints * 2
    · simp only [hb, and_self, if_true] at h
      have hl : (pending_of_floats s.pending_npoints (floats_of_points s.points) ++
          List.replicate (s.pending_cpoints * 2 - s.pending_npoints)
            (pending_zero : pending_point_t R)).length = s.pending_cpoints * 2 := by
        rw [List.length_append, pending_of_floats_length _ _ hb.1, List.length_replicate]
        omega
      have hw : s.pending_npoints <
          (pending_of_floats s.pending_npoints (floats_of_points s.points) ++
            List.replicate (s.pending_cpoints * 2 - s.pending_npoints)
              (pending_zero : pending_point_t R)).length := by
        rw [hl]
        omega
      simp only [wr, hw, if_true, Except.ok.injEq, Prod.mk.injEq] at h
      obtain ⟨hrc, hs1⟩ := h
      subst hs1
      refine ⟨⟨h1, h2, h3, ?_, ?_, ?_⟩, hrc.symm⟩
      · simp only [List.length_set]
        exact hl
      · simp only []
        omega
      · simp only []
        omega
    · simp only [hb, if_false] at h
      exact absurd h (by simp)
  · simp only [hg, if_false] at h
    have hw : s.pending_npoints < s.pending_points.length := by omega
    simp only [wr, hw, if_true, Except.ok.injEq, Prod.mk.injEq] at h
    obtain ⟨hrc, hs1⟩ := h
    subst hs1
    refine ⟨⟨h1, h2, h3, ?_, ?_, h6⟩, hrc.symm⟩
    · simp only [List.length_set]
      exact h4
    · simp only []
      omega

theorem draw_to_all_buffers_ok (ps : List (pending_point_t R)) (s s1 : vector_display R)
    (hs : buffers_ok s) (h : draw_to_all s ps = .ok s1) : buffers_ok s1 := by
  induction ps generalizing s with
  | nil =>
    simp only [draw_to_all, Except.ok.injEq] at h
    rw [← h]
    exact hs
  | cons p ps ih =>
    simp only [draw_to_all] at h
    cases hd : vector_display_draw_to s p.x p.y with
    | error e =>
      rw [hd] at h
      exact absurd h (by simp)
    | ok r =>
      obtain ⟨rc, s2⟩ := r
      rw [hd] at h
      exact ih s2 (draw_to_buffers_ok s s2 p.x p.y rc hs hd).1 h

/-- From any consistent state `end()` returns 0 and leaves a consistent state with an empty
pending path. -/
theorem end_draw_total (m : Libm R) (s : vector_display R) (hs : buffers_ok s) :
    ∃ s1, vector_display_end_draw m s = .ok (0, s1) ∧ buffers_ok s1 ∧ s1.pending_npoints = 0 := by
  by_cases hn : s.pending_npoints < 2
  · refine ⟨{ s with pending_npoints := 0 }, by simp [vector_display_end_draw, hn], ?_, rfl⟩
    obtain ⟨h1, h2, h3, h4, h5, h6⟩ := hs
    exact ⟨h1, h2, h3, h4, Nat.zero_le _, h6⟩
  · obtain ⟨s1, a1, e1⟩ := end_draw_spec m s hs (by omega)
    exact ⟨_, e1, (buffers_ok_of_appended hs a1).2, rfl⟩

/-- What `vector_display_end_draw` does on any consistent state: it returns 0, empties the
pending path and appends the vertices of `end_calls`. -/
theorem end_draw_appended (m : Libm R) (s : vector_display R) (hs : buffers_ok s) :
    ∃ s1, appended s s1 ((end_calls m s).map (vertex_of s)) ∧
      vector_display_end_draw m s = .ok (0, { s1 with pending_npoints := 0 }) := by
  by_cases hn : s.pending_npoints < 2
  · refine ⟨s, ?_, by simp [vector_display_end_draw, hn]⟩
    simp only [end_calls, hn, if_true, List.map_nil]
    exact appended_refl s hs.1 hs.2.1
  · obtain ⟨s1, a1, e1⟩ := end_draw_spec m s hs (by omega)
    refine ⟨s1, ?_, e1⟩
    simp only [end_calls, hn, if_false]
    exact a1

theorem committed_pending_reset (s : vector_display R) :
    committed { s with pending_npoints := 0 } = committed s := rfl

/-- Reads in a block whose first `n + 1` entries are `l.take n ++ [v]`. -/
theorem getElem?_of_take_succ {α : Type} (l l2 : List α) (n : Nat) (v : α)
    (h : l2.take (n + 1) = l.take n ++ [v]) (hn : n ≤ l.length) :
    l2[n]? = some v ∧ ∀ i, i < n → l2[i]? = l[i]? := by
  have hlen : (l.take n).length = n := by simp [hn]
  constructor
  · have h1 : (l2.take (n + 1))[n]? = l2[n]? := by
      rw [List.getElem?_take]
      simp
    rw [← h1, h, List.getElem?_append_right (by omega), hlen]
    simp
  · intro i hi
    have h1 : (l2.take (n + 1))[i]? = l2[i]? := by
      rw [List.getElem?_take]
      simp [Nat.lt_succ_of_lt hi]
    rw [← h1, h, List.getElem?_append_left (by omega), List.getElem?_take]
    simp [hi]

theorem append_texpoint_cpoints (s s2 : vector_display R) (x y u v : R)
    (h1 : s.points.length = s.cpoints) (h2 : s.npoints ≤ s.cpoints) (h3 : 0 < s.cpoints)
    (h : append_texpoint s x y u v = .ok s2) :
    s2.cpoints = if s.npoints = s.cpoints then s.cpoints * 2 else s.cpoints := by
  unfold append_texpoint ensure_points at h
  by_cases hg : s.cpoints < s.npoints + 1
  · have hn : s.npoints = s.cpoints := by omega
    have hlen : s.npoints ≤ s.points.length ∧ s.npoints ≤ s.cpoints * 2 := by omega
    simp only [hg, hlen, and_self, if_true] at h
    have hw : s.npoints <
        (List.take s.npoints s.points ++
          List.replicate (s.cpoints * 2 - s.npoints) (point_zero : point_t R)).length := by
      simp
      omega
    simp only [wr, hw, if_true, Except.ok.injEq] at h
    rw [← h, if_pos hn]
  · have hn : ¬ s.npoints = s.cpoints := by omega
    have hw : s.npoints < s.points.length := by omega
    simp only [hg, if_false, wr, hw, if_true, Except.ok.injEq] at h
    rw [← h, if_neg hn]

theorem vertex_of_colour (s : vector_display R) (cs : List (texpoint R)) :
    ∀ p ∈ cs.map (vertex_of s), p.r = s.r ∧ p.g = s.g ∧ p.b = s.b ∧ p.a = s.a := by
  intro p hp
  obtain ⟨c, -, rfl⟩ := List.mem_map.mp hp
  exact ⟨rfl, rfl, rfl, rfl⟩

theorem buffers_ok_set_color (s : vector_display R) (r g b : R) (hs : buffers_ok s) :
    buffers_ok (vector_display_set_color s r g b).2 := hs

/-- What one `vector_display_update` does on a ring of at least one slot. -/
theorem update_spec (s : vector_display R) (hpos : 1 ≤ s.steps)
    (hlen : s.buffernpoints.length = s.steps) :
    ∃ calls, vector_display_update s =
        .ok (0, { s with step := (s.step + 1) % s.steps,
                         buffernpoints :=
                           s.buffernpoints.set ((s.step + 1) % s.steps) s.npoints }, calls) ∧
      update_draw_loop { s with step := (s.step + 1) % s.steps,
                                buffernpoints :=
                                  s.buffernpoints.set ((s.step + 1) % s.steps) s.npoints }
        (List.range s.steps) = .ok calls := by
  have hne : ¬ s.steps = 0 := by omega
  have hw : (s.step + 1) % s.steps < s.buffernpoints.length := by
    rw [hlen]
    exact Nat.mod_lt _ (by omega)
  have hl := update_draw_loop_spec
    { s with step := (s.step + 1) % s.steps,
             buffernpoints := s.buffernpoints.set ((s.step + 1) % s.steps) s.npoints }
    (by simpa using hlen) (by simpa using hpos) (List.range s.steps)
  refine ⟨_, ?_, hl⟩
  simp only [vector_display_update, hne, if_false, wr, hw, if_true]
  rw [hl]

theorem slot_of_age_inj (c n k1 k2 : Nat) (h1 : k1 < n) (h2 : k2 < n)
    (h : (c + n - k1) % n = (c + n - k2) % n) : k1 = k2 := by
  rcases Nat.le_total k1 k2 with hle | hle
  · have hd := Nat.sub_mod_eq_zero_of_mod_eq h
    have he : c + n - k1 - (c + n - k2) = k2 - k1 := by omega
    rw [he, Nat.mod_eq_of_lt (by omega)] at hd
    omega
  · have hd := Nat.sub_mod_eq_zero_of_mod_eq h.symm
    have he : c + n - k2 - (c + n - k1) = k1 - k2 := by omega
    rw [he, Nat.mod_eq_of_lt (by omega)] at hd
    omega

theorem slot_of_age_int (c n k : Nat) (hk : k < n) :
    (((c + n - k) % n : Nat) : Int) = ((c : Int) - (k : Int)) % (n : Int) := by
  have h1 : ((c + n - k : Nat) : Int) = (c : Int) - (k : Int) + (n : Int) := by omega
  rw [Int.natCast_mod, h1, Int.add_emod_self]

theorem add_mod_eq_iff_dvd (a j n : Nat) : (a + j) % n = a % n ↔ n ∣ j := by
  constructor
  · intro h
    have hd := Nat.sub_mod_eq_zero_of_mod_eq h
    rw [Nat.add_sub_cancel_left] at hd
    exact Nat.dvd_of_mod_eq_zero hd
  · rintro ⟨q, rfl⟩
    exact Nat.add_mul_mod_self_left a n q

theorem update_ticks_spec (k : Nat) (s : vector_display R) (hs : ring_ok s) :
    ∃ sk, update_ticks k s = .ok sk ∧ sk.step = (s.step + k) % s.steps ∧
      sk.steps = s.steps ∧ ring_ok sk := by
  induction k generalizing s with
  | zero =>
    exact ⟨s, rfl, by rw [Nat.add_zero, Nat.mod_eq_of_lt hs.2.2], rfl, hs⟩
  | succ k ih =>
    obtain ⟨hpos, hlen, hlt⟩ := hs
    obtain ⟨calls, e1, -⟩ := update_spec s hpos hlen
    have hs1 : ring_ok
        { s with step := (s.step + 1) % s.steps,
                 buffernpoints := s.buffernpoints.set ((s.step + 1) % s.steps) s.npoints } :=
      ⟨hpos, by simpa using hlen, Nat.mod_lt _ (by omega)⟩
    obtain ⟨sk, ek, hk1, hk2, hk3⟩ := ih _ hs1
    refine ⟨sk, ?_, ?_, hk2, hk3⟩
    · simp only [update_ticks, e1]
      exact ek
    · rw [hk1]
      simp only []
      rw [Nat.mod_add_mod]
      congr 1
      omega

theorem ages_oldest_first (n : Nat) :
    (List.range n).reverse = (List.range n).map (fun l => n - l - 1) := by
  have h := List.reverse_range' 0 n
  rw [← List.range_eq_range'] at h
  rw [h]
  apply List.map_congr_left
  intro l hl
  have := List.mem_range.mp hl
  omega

/-- The slots visited by the draw pass, oldest first, are all the slots, each one once. -/
theorem slots_of_ages_perm (c n : Nat) :
    (((List.range n).reverse).map (fun k => (c + n - k) % n)).Perm (List.range n) := by
  by_cases hn : n = 0
  · subst hn
    simp
  have hnd : (((List.range n).reverse).map (fun k => (c + n - k) % n)).Nodup := by
    apply List.Nodup.map_on
    · intro x hx y hy hxy
      have hx1 := List.mem_range.mp (List.mem_reverse.mp hx)
      have hy1 := List.mem_range.mp (List.mem_reverse.mp hy)
      exact slot_of_age_inj c n x y hx1 hy1 hxy
    · exact List.nodup_reverse.mpr (List.nodup_range n)
  have hsub : ((List.range n).reverse).map (fun k => (c + n - k) % n) ⊆ List.range n := by
    intro x hx
    obtain ⟨k, -, rfl⟩ := List.mem_map.mp hx
    exact List.mem_range.mpr (Nat.mod_lt _ (by omega))
  exact (List.subperm_of_subset hnd hsub).perm_of_length_le (by simp)

/-- The draw calls of `update`, read by age: the ages `steps - 1, ..., 0` in that order. -/
theorem update_draw_loop_by_age (s : vector_display R)
    (hlen : s.buffernpoints.length = s.steps) (hpos : 0 < s.steps) :
    update_draw_loop s (List.range s.steps) = .ok (((List.range s.steps).reverse).filterMap
      (fun k =>
        if s.buffernpoints.getD ((s.step + s.steps - k) % s.steps) 0 = 0 then none
        else some ⟨(s.step + s.steps - k) % s.steps, update_alpha s k,
          s.buffernpoints.getD ((s.step + s.steps - k) % s.steps) 0⟩)) := by
  rw [update_draw_loop_spec s hlen hpos, ages_oldest_first, List.filterMap_map]
  rfl

/-- The raw texture coordinates of every call made for a segment. -/
theorem segment_geometry_texcoords (m : Libm R) (t : R) (hp hn : Bool)
    (pp p0 p1 pn : pending_point_t R) :
    ∀ c ∈ (segment_geometry m t hp hn pp p0 p1 pn).all,
      (c.u = 0 ∨ c.u = 64 ∨ c.u = 128) ∧
        (c.v = 0 ∨ c.v = 64 ∨ c.v = 128 ∨ c.v = 64 - ((1 * 8 + 3 / 2) / t * 64)) := by
  cases hp <;> cases hn <;>
    simp [segment_geometry, segment_calls.all, corner_calls, line_calls, endcap_calls,
      startcap_calls, TEXTURE_SIZE, HALF_TEXTURE_SIZE]

theorem end_calls_texcoords (m : Libm R) (s : vector_display R) :
    ∀ c ∈ end_calls m s,
      (c.u = 0 ∨ c.u = 64 ∨ c.u = 128) ∧
        (c.v = 0 ∨ c.v = 64 ∨ c.v = 128 ∨
          c.v = 64 - ((1 * 8 + 3 / 2) / s.thickness * 64)) := by
  intro c hc
  unfold end_calls at hc
  split_ifs at hc
  · simp at hc
  · simp only [all_calls, tessellation, List.map_map, List.mem_flatten, List.mem_map] at hc
    obtain ⟨l, ⟨i, -, rfl⟩, hcl⟩ := hc
    exact segment_geometry_texcoords m s.thickness _ _ _ _ _ _ c hcl

theorem draw_calls_texcoords (m : Libm R) (t x0 y0 x1 y1 : R) :
    ∀ c ∈ draw_calls m t x0 y0 x1 y1,
      (c.u = 0 ∨ c.u = 64 ∨ c.u = 128) ∧ (c.v = 0 ∨ c.v = 64) := by
  simp [draw_calls, endcap_calls, startcap_calls, TEXTURE_SIZE, HALF_TEXTURE_SIZE]

theorem vertex_of_u (s : vector_display R) (c : texpoint R)
    (hu : c.u = 0 ∨ c.u = 64 ∨ c.u = 128) :
    0 ≤ (vertex_of s c).u ∧ (vertex_of s c).u ≤ 1 := by
  simp only [vertex_of, TEXTURE_SIZE]
  rcases hu with h | h | h <;> rw [h] <;> norm_num

theorem vertex_of_v (s : vector_display R) (c : texpoint R)
    (hv : c.v = 0 ∨ c.v = 64 ∨ c.v = 128) :
    0 ≤ (vertex_of s c).v ∧ (vertex_of s c).v ≤ 1 := by
  simp only [vertex_of, TEXTURE_SIZE]
  rcases hv with h | h | h <;> rw [h] <;> norm_num

theorem vertex_of_v_centre (s : vector_display R) (c : texpoint R) (t : R) (ht : 0 < t)
    (hv : c.v = 64 - ((1 * 8 + 3 / 2) / t * 64)) :
    (vertex_of s c).v = 1 / 2 + 19 / 4 / t ∧ 0 ≤ (vertex_of s c).v ∧
      ((vertex_of s c).v ≤ 1 ↔ 19 / 2 ≤ t) := by
  have hne : t ≠ 0 := ne_of_gt ht
  have e : (vertex_of s c).v = 1 / 2 + 19 / 4 / t := by
    simp only [vertex_of, TEXTURE_SIZE, hv]
    field_simp
    ring
  have hpos : 0 < 19 / 4 / t := div_pos (by norm_num) ht
  refine ⟨e, by rw [e]; linarith, ?_⟩
  rw [e]
  constructor
  · intro h
    have h1 : 19 / 4 / t ≤ 1 / 2 := by linarith
    rw [div_le_iff₀ ht] at h1
    linarith
  · intro h
    have h1 : 19 / 4 / t ≤ 1 / 2 := by
      rw [div_le_iff₀ ht]
      linarith
    linarith

theorem exists_real_libm : ∃ m : Libm ℝ, is_real_libm m :=
  ⟨⟨Real.pi, Real.pi_pos, fun y x => Complex.arg ⟨x, y⟩, Real.sin, Real.cos⟩,
    rfl, fun _ _ => rfl, fun _ => rfl, fun _ => rfl⟩

/-- Cross product of an offset `e (dx, dy) ± t (sin a, -cos a)` with `(dx, dy)` when
`(cos a, sin a)` is the unit direction of `(dx, dy)`, of length `L`. -/
theorem abs_cross_offset (L c sn t dx dy e σ : ℝ) (hL : 0 < L) (ht : 0 < t)
    (hc : L * c = dx) (hs : L * sn = dy) (h1 : sn ^ 2 + c ^ 2 = 1) (hσ : σ = 1 ∨ σ = -1) :
    |(e * dx + σ * (t * sn)) * dy - (e * dy - σ * (t * c)) * dx| = t * L := by
  have e1 : (e * dx + σ * (t * sn)) * dy - (e * dy - σ * (t * c)) * dx = σ * (t * L) := by
    rw [← hc, ← hs]
    have : (e * (L * c) + σ * (t * sn)) * (L * sn) - (e * (L * sn) - σ * (t * c)) * (L * c) =
        σ * (t * L) * (sn ^ 2 + c ^ 2) := by ring
    rw [this, h1, mul_one]
  have hpos : 0 < t * L := mul_pos ht hL
  rw [e1]
  rcases hσ with h | h
  · rw [h, one_mul, abs_of_pos hpos]
  · rw [h, neg_one_mul, abs_neg, abs_of_pos hpos]

/-- Under the real `<math.h>` the direction `(cos a, sin a)` of `a = atan2(dy, dx)` is the
unit vector of `(dx, dy)`. -/
theorem real_libm_direction (m : Libm ℝ) (hm : is_real_libm m) (dx dy : ℝ)
    (hne : ¬ (dx = 0 ∧ dy = 0)) :
    0 < Real.sqrt (dx * dx + dy * dy) ∧
      Real.sqrt (dx * dx + dy * dy) * m.cos (m.atan2 dy dx) = dx ∧
      Real.sqrt (dx * dx + dy * dy) * m.sin (m.atan2 dy dx) = dy ∧
      m.sin (m.atan2 dy dx) ^ 2 + m.cos (m.atan2 dy dx) ^ 2 = 1 := by
  obtain ⟨-, hat, hsin, hcos⟩ := hm
  have habs : Complex.abs ⟨dx, dy⟩ = Real.sqrt (dx * dx + dy * dy) := by
    rw [Complex.abs_apply, Complex.normSq_mk]
  have hz : (⟨dx, dy⟩ : ℂ) ≠ 0 := by
    intro h
    apply hne
    have h1 := congrArg Complex.re h
    have h2 := congrArg Complex.im h
    simp only [Complex.zero_re, Complex.zero_im] at h1 h2
    exact ⟨h1, h2⟩
  rw [hsin, hcos, hat, ← habs]
  refine ⟨Complex.abs.pos hz, ?_, ?_, Real.sin_sq_add_cos_sq _⟩
  · exact Complex.abs_mul_cos_arg ⟨dx, dy⟩
  · exact Complex.abs_mul_sin_arg ⟨dx, dy⟩

/-- A vertex emitted at the offset `±t` perpendicular to the direction `a = atan2(dy, dx)`
from a point `(x0, y0) + e (dx, dy)` of the centre line is at distance `t` from that line. -/
theorem offset_vertex_at_distance (m : Libm ℝ) (hm : is_real_libm m) (s : vector_display ℝ)
    (t x0 y0 x1 y1 u v u0 v0 u1 v1 e σ : ℝ) (ht : 0 < t)
    (hne : ¬ (x1 - x0 = 0 ∧ y1 - y0 = 0)) (hσ : σ = 1 ∨ σ = -1) :
    at_distance
      (vertex_of s ⟨x0 + e * (x1 - x0) + σ * (t * m.sin (m.atan2 (y1 - y0) (x1 - x0))),
        y0 + e * (y1 - y0) - σ * (t * m.cos (m.atan2 (y1 - y0) (x1 - x0))), u, v⟩)
      (vertex_of s ⟨x0, y0, u0, v0⟩) (vertex_of s ⟨x1, y1, u1, v1⟩) t := by
  obtain ⟨hL, hc, hsn, h1⟩ := real_libm_direction m hm (x1 - x0) (y1 - y0) hne
  have hsq : (x1 + 1 / 2 - (x0 + 1 / 2)) ^ 2 + (y1 + 1 / 2 - (y0 + 1 / 2)) ^ 2 =
      (x1 - x0) * (x1 - x0) + (y1 - y0) * (y1 - y0) := by ring
  have hcr : (x0 + e * (x1 - x0) + σ * (t * m.sin (m.atan2 (y1 - y0) (x1 - x0))) + 1 / 2 -
        (x0 + 1 / 2)) * (y1 + 1 / 2 - (y0 + 1 / 2)) -
      (y0 + e * (y1 - y0) - σ * (t * m.cos (m.atan2 (y1 - y0) (x1 - x0))) + 1 / 2 -
        (y0 + 1 / 2)) * (x1 + 1 / 2 - (x0 + 1 / 2)) =
      (e * (x1 - x0) + σ * (t * m.sin (m.atan2 (y1 - y0) (x1 - x0)))) * (y1 - y0) -
        (e * (y1 - y0) - σ * (t * m.cos (m.atan2 (y1 - y0) (x1 - x0)))) * (x1 - x0) := by
    ring
  simp only [at_distance, vertex_of]
  rw [hsq, hcr, abs_cross_offset _ _ _ t (x1 - x0) (y1 - y0) e σ hL ht hc hsn h1 hσ]
  field_simp

/-- The integer `abs` of a floating value is the integer part of its absolute value. -/
theorem c_abs_eq_floor (d : R) : c_abs d = ⌊|d|⌋ := by
  unfold c_abs c_int
  by_cases h : 0 ≤ d
  · rw [if_pos h, abs_of_nonneg h, abs_of_nonneg (Int.floor_nonneg.mpr h)]
  · rw [if_neg h]
    push_neg at h
    have hc : ⌈d⌉ ≤ 0 := Int.ceil_le.mpr (by exact_mod_cast le_of_lt h)
    rw [abs_of_neg h, Int.floor_neg, abs_of_nonpos hc]

/-- The test `abs(d) > M_PI / 2` of the source holds exactly when `|d| ≥ 2`. -/
theorem c_abs_gt_half_pi_iff (m : Libm R) (h2 : 2 ≤ m.M_PI) (h4 : m.M_PI < 4) (d : R) :
    ((c_abs d : Int) : R) > m.M_PI / 2 ↔ 2 ≤ |d| := by
  rw [c_abs_eq_floor]
  constructor
  · intro h
    have h1 : (1 : R) < ((⌊|d|⌋ : Int) : R) := by linarith
    have h3 : (1 : Int) < ⌊|d|⌋ := by exact_mod_cast h1
    have h5 : (2 : Int) ≤ ⌊|d|⌋ := by omega
    have := Int.le_floor.mp h5
    exact_mod_cast this
  · intro h
    have h5 : (2 : Int) ≤ ⌊|d|⌋ := Int.le_floor.mpr (by exact_mod_cast h)
    have h6 : (2 : R) ≤ ((⌊|d|⌋ : Int) : R) := by exact_mod_cast h5
    show m.M_PI / 2 < ((⌊|d|⌋ : Int) : R)
    linarith

/-- The rule by which `fan_angles` adds `M_PI` to a midpoint: the truncated difference to the
neighbour exceeds `M_PI / 2`, that is the difference is at least 2 in absolute value. -/
theorem fan_angles_law (m : Libm R) (h2 : 2 ≤ m.M_PI) (h4 : m.M_PI < 4) (a pa : R) :
    (fan_angles m a pa).2.1 =
        (if 2 ≤ |(a + pa) / 2 - a| then (a + pa) / 2 + m.M_PI else (a + pa) / 2) ∧
      (fan_angles m a pa).1 =
        (if 2 ≤ |((fan_angles m a pa).2.1 + pa) / 2 - (fan_angles m a pa).2.1| then
          ((fan_angles m a pa).2.1 + pa) / 2 + m.M_PI
        else ((fan_angles m a pa).2.1 + pa) / 2) ∧
      (fan_angles m a pa).2.2 =
        (if 2 ≤ |((fan_angles m a pa).2.1 + a) / 2 - (fan_angles m a pa).2.1| then
          ((fan_angles m a pa).2.1 + a) / 2 + m.M_PI
        else ((fan_angles m a pa).2.1 + a) / 2) := by
  simp only [fan_angles, c_abs_gt_half_pi_iff m h2 h4]
  exact ⟨trivial, trivial, trivial⟩

theorem real_libm_pi_bounds (m : Libm ℝ) (hm : is_real_libm m) :
    2 ≤ m.M_PI ∧ m.M_PI < 4 := by
  rw [hm.1]
  exact ⟨by linarith [Real.pi_gt_three], by linarith [Real.pi_lt_d2]⟩

theorem arg_neg_diag : Complex.arg ⟨-10, -10⟩ = -(3 * Real.pi / 4) := by
  have hs2 : Real.sqrt 2 * Real.sqrt 2 = 2 := Real.mul_self_sqrt (by norm_num)
  have h2pos : 0 < Real.sqrt 2 := Real.sqrt_pos.mpr (by norm_num)
  have habs : Complex.abs ⟨-10, -10⟩ = 10 * Real.sqrt 2 := by
    rw [Complex.abs_apply, Complex.normSq_mk, Real.sqrt_eq_iff_mul_self_eq (by norm_num)
      (by positivity)]
    nlinarith
  have hratio : (-10 : ℝ) / (10 * Real.sqrt 2) = -(Real.sqrt 2 / 2) := by
    field_simp
    nlinarith
  rw [Complex.arg_of_im_neg (by norm_num : (⟨-10, -10⟩ : ℂ).im < 0), habs]
  simp only []
  rw [hratio, Real.arccos_neg, ← Real.cos_pi_div_four,
    Real.arccos_cos (by positivity) (by linarith [Real.pi_pos])]
  ring

/-- The angles of the joint at `(0,0)` of the path `(10,10), (0,0), (10,0)`. -/
theorem joint_angles_diag (m : Libm ℝ) (hm : is_real_libm m) :
    joint_angles m ⟨10, 10⟩ ⟨0, 0⟩ ⟨10, 0⟩ = (5 * Real.pi / 4, 0) := by
  obtain ⟨hpi, hat, -, -⟩ := hm
  have e1 : ((0 : ℝ) - 10) = -10 := by norm_num
  have e2 : ((10 : ℝ) - 0) = 10 := by norm_num
  have e3 : ((0 : ℝ) - 0) = 0 := by norm_num
  have ha : Complex.arg ⟨10, 0⟩ = 0 := Complex.arg_eq_zero_iff.mpr ⟨by norm_num, rfl⟩
  have hneg : -(3 * Real.pi / 4) < 0 := by linarith [Real.pi_pos]
  simp only [joint_angles, hat, hpi, e1, e2, e3, arg_neg_diag, ha, hneg, if_true]
  congr 1
  ring

/-- The angles of the joint at `(10,0)` of the path `(0,0), (10,0), (5,0)`, which reverses
on itself. -/
theorem joint_angles_reversal (m : Libm ℝ) (hm : is_real_libm m) :
    joint_angles m ⟨0, 0⟩ ⟨10, 0⟩ ⟨5, 0⟩ = (0, Real.pi) := by
  obtain ⟨hpi, hat, -, -⟩ := hm
  have e1 : ((5 : ℝ) - 10) = -5 := by norm_num
  have e2 : ((10 : ℝ) - 0) = 10 := by norm_num
  have e3 : ((0 : ℝ) - 0) = 0 := by norm_num
  have ha : Complex.arg ⟨10, 0⟩ = 0 := Complex.arg_eq_zero_iff.mpr ⟨by norm_num, rfl⟩
  have hb : Complex.arg ⟨-5, 0⟩ = Real.pi := Complex.arg_eq_pi_iff.mpr ⟨by norm_num, rfl⟩
  have hn : ¬ ((0 : ℝ) < 0) := lt_irrefl 0
  simp only [joint_angles, hat, e1, e2, e3, ha, hb, hn, if_false]

/-- The decay law for decay rates in `[0, 1)`: every alpha lies in `[0, 1]` and the alpha of
age `k + 1` is at most that of age `k`. -/
theorem update_alpha_bounds (s : vector_display R) (hd0 : 0 ≤ s.decay) (hd1 : s.decay < 1)
    (hi0 : 0 ≤ s.initial_decay) (hi1 : s.initial_decay < 1) (k : Nat) :
    0 ≤ update_alpha s k ∧ update_alpha s k ≤ 1 ∧ update_alpha s (k + 1) ≤ update_alpha s k := by
  have hpow : ∀ j : Nat, 0 ≤ s.decay ^ j ∧ s.decay ^ j ≤ 1 := fun j =>
    ⟨pow_nonneg hd0 j, pow_le_one₀ hd0 (le_of_lt hd1)⟩
  match k with
  | 0 =>
    simp only [update_alpha, if_true, Nat.zero_add]
    exact ⟨zero_le_one, le_refl _, le_of_lt hi1⟩
  | 1 =>
    have h1 : ¬ (1 : Nat) = 0 := by decide
    have h2 : ¬ (1 + 1 : Nat) = 0 := by decide
    have h3 : ¬ (1 + 1 : Nat) = 1 := by decide
    simp only [update_alpha, h1, h2, h3, if_false, if_true, Nat.add_sub_cancel, pow_one]
    refine ⟨hi0, le_of_lt hi1, ?_⟩
    nlinarith
  | n + 2 =>
    have h1 : ¬ (n + 2 : Nat) = 0 := by omega
    have h2 : ¬ (n + 2 : Nat) = 1 := by omega
    have h3 : ¬ (n + 2 + 1 : Nat) = 0 := by omega
    have h4 : ¬ (n + 2 + 1 : Nat) = 1 := by omega
    have e1 : n + 2 - 1 = n + 1 := by omega
    have e2 : n + 2 + 1 - 1 = n + 1 + 1 := by omega
    simp only [update_alpha, h1, h2, h3, h4, if_false, e1, e2]
    obtain ⟨p0, p1⟩ := hpow (n + 1)
    have hm : 0 ≤ s.decay ^ (n + 1) * s.initial_decay := mul_nonneg p0 hi0
    refine ⟨hm, ?_, ?_⟩
    · nlinarith
    · rw [pow_succ' s.decay (n + 1), mul_assoc]
      nlinarith

/-- The corner fan of a segment that starts at a joint is built from the two angles of
`joint_angles`: `a - pa` enters the shortening and `fan_angles m a pa` gives the midpoints. -/
theorem segment_geometry_corner (m : Libm R) (t : R) (hn : Bool)
    (pp p0 p1 pn : pending_point_t R) :
    (segment_geometry m t true hn pp p0 p1 pn).corner =
      corner_calls m t 8
        (p0.x + shorten_of m 8 ((joint_angles m pp p0 p1).2 - (joint_angles m pp p0 p1).1) *
            m.cos (joint_angles m pp p0 p1).2 - 8 * m.sin (joint_angles m pp p0 p1).2)
        (p0.y + shorten_of m 8 ((joint_angles m pp p0 p1).2 - (joint_angles m pp p0 p1).1) *
            m.sin (joint_angles m pp p0 p1).2 + 8 * m.cos (joint_angles m pp p0 p1).2)
        (t + 8) (joint_angles m pp p0 p1).1
        (fan_angles m (joint_angles m pp p0 p1).2 (joint_angles m pp p0 p1).1).1
        (fan_angles m (joint_angles m pp p0 p1).2 (joint_angles m pp p0 p1).1).2.1
        (fan_angles m (joint_angles m pp p0 p1).2 (joint_angles m pp p0 p1).1).2.2
        (joint_angles m pp p0 p1).2 := by
  simp only [segment_geometry, joint_angles, if_true]

/-- The angles of the joint at `(10,0)` of the path `(0,0), (10,0), (10,-10)`: the current
segment points down and its angle is left at `-π/2`. -/
theorem joint_angles_down (m : Libm ℝ) (hm : is_real_libm m) :
    joint_angles m ⟨0, 0⟩ ⟨10, 0⟩ ⟨10, -10⟩ = (0, -(Real.pi / 2)) := by
  obtain ⟨hpi, hat, -, -⟩ := hm
  have e1 : ((10 : ℝ) - 10) = 0 := by norm_num
  have e2 : ((10 : ℝ) - 0) = 10 := by norm_num
  have e3 : ((0 : ℝ) - 0) = 0 := by norm_num
  have e4 : ((-10 : ℝ) - 0) = -10 := by norm_num
  have ha : Complex.arg ⟨10, 0⟩ = 0 := Complex.arg_eq_zero_iff.mpr ⟨by norm_num, rfl⟩
  have hb : Complex.arg ⟨0, -10⟩ = -(Real.pi / 2) :=
    Complex.arg_eq_neg_pi_div_two_iff.mpr ⟨rfl, by norm_num⟩
  have hn : ¬ ((0 : ℝ) < 0) := lt_irrefl 0
  simp only [joint_angles, hat, e1, e2, e3, e4, ha, hb, hn, if_false]

/-- The angles of the joint at `(10,-10)` of the path `(10,0), (10,-10), (20,-10)`: the same
downward segment, now the previous one, has its angle moved to `3π/2`. -/
theorem joint_angles_after_down (m : Libm ℝ) (hm : is_real_libm m) :
    joint_angles m ⟨10, 0⟩ ⟨10, -10⟩ ⟨20, -10⟩ = (3 * Real.pi / 2, 0) := by
  obtain ⟨hpi, hat, -, -⟩ := hm
  have e1 : ((10 : ℝ) - 10) = 0 := by norm_num
  have e2 : ((20 : ℝ) - 10) = 10 := by norm_num
  have e3 : ((-10 : ℝ) - -10) = 0 := by norm_num
  have e4 : ((-10 : ℝ) - 0) = -10 := by norm_num
  have ha : Complex.arg ⟨10, 0⟩ = 0 := Complex.arg_eq_zero_iff.mpr ⟨by norm_num, rfl⟩
  have hb : Complex.arg ⟨0, -10⟩ = -(Real.pi / 2) :=
    Complex.arg_eq_neg_pi_div_two_iff.mpr ⟨rfl, by norm_num⟩
  have hneg : -(Real.pi / 2) < 0 := by linarith [Real.pi_pos]
  simp only [joint_angles, hat, hpi, e1, e2, e3, e4, ha, hb, hneg, if_true]
  congr 1
  ring

/-- On a ring of at least one slot `update` returns, and the slot it writes and every slot it
draws lie below `steps`. -/
theorem update_slots_in_range (s : vector_display R) (hpos : 1 ≤ s.steps)
    (hlen : s.buffernpoints.length = s.steps) :
    ∃ (s1 : vector_display R) (calls : List (draw_call R)),
      vector_display_update s = .ok (0, s1, calls) ∧ s1.step = (s.step + 1) % s.steps ∧
        s1.step < s.steps ∧ ∀ c ∈ calls, c.slot < s.steps := by
  obtain ⟨calls, e1, hl⟩ := update_spec s hpos hlen
  have hl2 := update_draw_loop_spec
    { s with step := (s.step + 1) % s.steps,
             buffernpoints := s.buffernpoints.set ((s.step + 1) % s.steps) s.npoints }
    (by simpa using hlen) (by simpa using hpos) (List.range s.steps)
  rw [hl] at hl2
  have hc : calls = _ := Except.ok.inj hl2
  refine ⟨_, calls, e1, rfl, Nat.mod_lt _ (by omega), ?_⟩
  intro c hcm
  rw [hc, List.mem_filterMap] at hcm
  obtain ⟨l, -, hl3⟩ := hcm
  split_ifs at hl3
  have h4 := Option.some.inj hl3
  rw [← h4]
  exact Nat.mod_lt _ (show 0 < s.steps from hpos)

/-- A ring size between 0 and `MAX_STEPS` is accepted by `set_steps`. -/
theorem set_steps_accepts (s : vector_display R) (n : Int) (h0 : 0 ≤ n) (h1 : n ≤ 300) :
    vector_display_set_steps s n =
      (0, { s with step := 0, steps := n.toNat,
                   buffernpoints := List.replicate n.toNat 0 }) := by
  have hM : ((MAX_STEPS : Nat) : Int) = 300 := rfl
  have h : ¬ (n < 0 ∨ n > 300) := by omega
  simp only [vector_display_set_steps, hM, h, if_false]

theorem pending_path_length (s : vector_display R) (hs : buffers_ok s) :
    (pending_path s).length = s.pending_npoints := by
  obtain ⟨-, -, -, h4, h5, -⟩ := hs
  simp only [pending_path, List.length_take]
  omega

/-- The number of calls `end()` makes: none for a pending path of fewer than two points,
18 per segment otherwise. -/
theorem end_calls_length (m : Libm R) (s : vector_display R) (hs : buffers_ok s) :
    (end_calls m s).length =
      if s.pending_npoints < 2 then 0 else 18 * (s.pending_npoints - 1) := by
  have hlen := pending_path_length s hs
  by_cases hn : s.pending_npoints < 2
  · simp only [end_calls, hn, if_true, List.length_nil]
  · simp only [end_calls, hn, if_false]
    rw [all_calls_length m _ _ (by omega), hlen]

theorem draw_to_npoints (s s1 : vector_display R) (x y : R) (rc : Int)
    (h : vector_display_draw_to s x y = .ok (rc, s1)) : s1.npoints = s.npoints := by
  unfold vector_display_draw_to at h
  cases he : ensure_pending_points s (s.pending_npoints + 1) with
  | error e =>
    rw [he] at h
    exact absurd h (by simp)
  | ok s2 =>
    have hn2 : s2.npoints = s.npoints := by
      unfold ensure_pending_points at he
      by_cases hg : s.pending_cpoints < s.pending_npoints + 1
      · simp only [hg, if_true] at he
        by_cases hb : 2 * s.pending_npoints ≤ (floats_of_points s.points).length ∧
            s.pending_npoints ≤ s.pending_cpoints * 2
        · simp only [hb, and_self, if_true, Except.ok.injEq] at he
          rw [← he]
        · simp only [hb, if_false] at he
          exact absurd he (by simp)
      · simp only [hg, if_false, Except.ok.injEq] at he
        rw [← he]
    rw [he] at h
    simp only [] at h
    cases hw : wr s2.pending_points s2.pending_npoints (⟨x, y⟩ : pending_point_t R) with
    | error e =>
      rw [hw] at h
      exact absurd h (by simp)
    | ok pts =>
      rw [hw] at h
      simp only [Except.ok.injEq, Prod.mk.injEq] at h
      obtain ⟨-, hs1⟩ := h
      rw [← hs1]
      exact hn2

theorem begin_draw_frame (s s1 : vector_display R) (x y : R) (rc : Int) (hs : buffers_ok s)
    (h : vector_display_begin_draw s x y = .ok (rc, s1)) :
    buffers_ok s1 ∧ s1.npoints = s.npoints := by
  by_cases h0 : s.pending_npoints = 0
  · rw [begin_draw_empty s x y hs h0] at h
    simp only [Except.ok.injEq, Prod.mk.injEq] at h
    obtain ⟨-, hs1⟩ := h
    obtain ⟨h1, h2, h3, h4, h5, h6⟩ := hs
    rw [← hs1]
    refine ⟨⟨h1, h2, h3, ?_, ?_, h6⟩, rfl⟩
    · simp only [List.length_set]
      exact h4
    · show 1 ≤ s.pending_cpoints
      omega
  · simp only [vector_display_begin_draw, ne_eq, h0, not_false_eq_true, if_true] at h
    exact absurd h (by simp)

theorem update_frame (s s1 : vector_display R) (rc : Int) (calls : List (draw_call R))
    (h : vector_display_update s = .ok (rc, s1, calls)) :
    s1.npoints = s.npoints ∧ (buffers_ok s → buffers_ok s1) := by
  unfold vector_display_update at h
  split_ifs at h
  simp only [] at h
  cases hw : wr s.buffernpoints ((s.step + 1) % s.steps) s.npoints with
  | error e =>
    rw [hw] at h
    exact absurd h (by simp)
  | ok bn =>
    rw [hw] at h
    simp only [] at h
    cases hl : update_draw_loop { s with step := (s.step + 1) % s.steps, buffernpoints := bn }
        (List.range s.steps) with
    | error e =>
      rw [hl] at h
      exact absurd h (by simp)
    | ok cs =>
      rw [hl] at h
      simp only [Except.ok.injEq, Prod.mk.injEq] at h
      obtain ⟨-, hs1, -⟩ := h
      rw [← hs1]
      exact ⟨rfl, fun hs => hs⟩

/-- The setters leave the two growable blocks, their counts and capacities as they are. -/
theorem setters_frame (s : vector_display R) (d : R) (n : Int) (hs : buffers_ok s) :
    (buffers_ok (vector_display_set_initial_decay s d).2 ∧
        (vector_display_set_initial_decay s d).2.npoints = s.npoints) ∧
      (buffers_ok (vector_display_set_thickness s d).2 ∧
        (vector_display_set_thickness s d).2.npoints = s.npoints) ∧
      (buffers_ok (vector_display_set_decay s d).2 ∧
        (vector_display_set_decay s d).2.npoints = s.npoints) ∧
      (buffers_ok (vector_display_set_steps s n).2 ∧
        (vector_display_set_steps s n).2.npoints = s.npoints) := by
  refine ⟨?_, ?_, ?_, ?_⟩
  · unfold vector_display_set_initial_decay
    split_ifs
    · exact ⟨hs, rfl⟩
    · exact ⟨hs, rfl⟩
  · unfold vector_display_set_thickness
    split_ifs
    · exact ⟨hs, rfl⟩
    · exact ⟨hs, rfl⟩
  · unfold vector_display_set_decay
    split_ifs
    · exact ⟨hs, rfl⟩
    · exact ⟨hs, rfl⟩
  · unfold vector_display_set_steps
    split_ifs
    · exact ⟨hs, rfl⟩
    · exact ⟨hs, rfl⟩

/-- What one public call that returns does to a consistent state: the state stays
consistent and the committed vertex count becomes `npoints_after`. -/
theorem run_call_frame (m : Libm R) (s s1 : vector_display R) (c : public_call R)
    (hs : buffers_ok s) (h : run_call m s c = .ok s1) :
    buffers_ok s1 ∧ s1.npoints = npoints_after s c := by
  cases c with
  | set_initial_decay d =>
    simp only [run_call, Except.ok.injEq] at h
    rw [← h]
    exact (setters_frame s d 0 hs).1
  | set_thickness t =>
    simp only [run_call, Except.ok.injEq] at h
    rw [← h]
    exact (setters_frame s t 0 hs).2.1
  | set_color r g b =>
    simp only [run_call, Except.ok.injEq] at h
    rw [← h]
    exact ⟨buffers_ok_set_color s r g b hs, rfl⟩
  | set_steps n =>
    simp only [run_call, Except.ok.injEq] at h
    rw [← h]
    exact (setters_frame s 0 n hs).2.2.2
  | set_decay d =>
    simp only [run_call, Except.ok.injEq] at h
    rw [← h]
    exact (setters_frame s d 0 hs).2.2.1
  | clear =>
    simp only [run_call, Except.ok.injEq] at h
    rw [← h]
    exact ⟨buffers_ok_clear s hs, rfl⟩
  | begin_draw x y =>
    simp only [run_call] at h
    cases hb : vector_display_begin_draw s x y with
    | error e =>
      rw [hb] at h
      exact absurd h (by simp)
    | ok r =>
      obtain ⟨rc, s2⟩ := r
      rw [hb] at h
      simp only [Except.ok.injEq] at h
      rw [← h]
      exact begin_draw_frame s s2 x y rc hs hb
  | draw_to x y =>
    simp only [run_call] at h
    cases hb : vector_display_draw_to s x y with
    | error e =>
      rw [hb] at h
      exact absurd h (by simp)
    | ok r =>
      obtain ⟨rc, s2⟩ := r
      rw [hb] at h
      simp only [Except.ok.injEq] at h
      rw [← h]
      exact ⟨(draw_to_buffers_ok s s2 x y rc hs hb).1, draw_to_npoints s s2 x y rc hb⟩
  | end_draw =>
    obtain ⟨s2, a2, e2⟩ := end_draw_appended m s hs
    simp only [run_call, e2, Except.ok.injEq] at h
    rw [← h]
    refine ⟨(buffers_ok_of_appended hs a2).2, ?_⟩
    have hl := end_calls_length m s hs
    have hn := (appended_frame a2).2.2.2.2.2
    rw [List.length_map, hl] at hn
    show s2.npoints = npoints_after s public_call.end_draw
    rw [hn]
    simp only [npoints_after]
    split_ifs <;> rfl
  | draw x0 y0 x1 y1 =>
    obtain ⟨s2, e2, a2, l2⟩ := draw_spec m s x0 y0 x1 y1 hs
    simp only [run_call, e2, Except.ok.injEq] at h
    rw [← h]
    refine ⟨(buffers_ok_of_appended hs a2).1, ?_⟩
    have hn := (appended_frame a2).2.2.2.2.2
    rw [List.length_map, l2] at hn
    exact hn
  | update =>
    simp only [run_call] at h
    cases hb : vector_display_update s with
    | error e =>
      rw [hb] at h
      exact absurd h (by simp)
    | ok r =>
      obtain ⟨rc, s2, calls⟩ := r
      rw [hb] at h
      simp only [Except.ok.injEq] at h
      rw [← h]
      have hf := update_frame s s2 rc calls hb
      exact ⟨hf.2 hs, hf.1⟩

theorem npoints_after_dvd (s : vector_display R) (c : public_call R) (h3 : 3 ∣ s.npoints) :
    3 ∣ npoints_after s c := by
  cases c <;> simp only [npoints_after] <;> try exact h3
  · exact Nat.dvd_zero 3
  · split_ifs
    · exact h3
    · omega
  · omega

/-- Consistency of the blocks and divisibility of the committed count by 3 are kept by every
sequence of public calls that returns. -/
theorem run_calls_inv (m : Libm R) (cs : List (public_call R)) (s s1 : vector_display R)
    (hs : buffers_ok s) (h3 : 3 ∣ s.npoints) (h : run_calls m s cs = .ok s1) :
    buffers_ok s1 ∧ 3 ∣ s1.npoints := by
  induction cs generalizing s with
  | nil =>
    simp only [run_calls, Except.ok.injEq] at h
    rw [← h]
    exact ⟨hs, h3⟩
  | cons c cs ih =>
    simp only [run_calls] at h
    cases hc : run_call m s c with
    | error e =>
      rw [hc] at h
      exact absurd h (by simp)
    | ok s2 =>
      rw [hc] at h
      obtain ⟨hb, hn⟩ := run_call_frame m s s2 c hs hc
      exact ih s2 hb (by rw [hn]; exact npoints_after_dvd s c h3) h

theorem buffers_ok_new (w h : R) : buffers_ok (vector_display_new w h) := by
  simp [buffers_ok, vector_display_new]

theorem run_calls_append (m : Libm R) (cs ds : List (public_call R)) (s s1 : vector_display R)
    (h : run_calls m s cs = .ok s1) : run_calls m s (cs ++ ds) = run_calls m s1 ds := by
  induction cs generalizing s with
  | nil =>
    simp only [run_calls, Except.ok.injEq] at h
    rw [← h]
    rfl
  | cons c cs ih =>
    simp only [run_calls, List.cons_append] at h ⊢
    cases hc : run_call m s c with
    | error e =>
      rw [hc] at h
      exact absurd h (by simp)
    | ok s2 =>
      rw [hc] at h
      exact ih s2 h

end Lemmas

section Claims

set_option linter.unusedSectionVars false

set_option maxRecDepth 100000

variable {R : Type} [LinearOrderedField R] [FloorRing R]

/-- C1 (defect in the code): the pending path read back after `begin` and 60 `draw_to` on a
new display should be the 61 submitted points.  The first growth of the pending block copies
from `self->points` (the committed vertex block, all zero on a new display) instead of
`self->pending_points`, so the 60 points submitted before the growth read back as `(0,0)`. -/
theorem pending_growth_loses_points :
    begin_draw_to display_new path_61 = .ok display_grown ∧
      pending_path display_grown = List.replicate 60 ⟨0, 0⟩ ++ [⟨61, 7⟩] ∧
      pending_path display_grown ≠ path_61 := by
  refine ⟨by rfl, by rfl, by decide⟩

/-- C2 (defect in the code): `clear(); begin; draw_to ...; end()` run twice on a new display
with the same closed path of 61 points commits different vertex data.  In the first run the
pending block grows and the path read by `end()` starts at `(0,0)`, so it is tessellated as
an open path and the first vertex is a body vertex (texture row `v = 0`); in the second run
the block is large enough, the path is seen closed and the first vertex is the centre of the
wrap-around fan (`v = 179/320`). -/
theorem redraw_after_growth_differs (m : Libm ℚ) :
    ∃ s1 s2 : vector_display ℚ, clear_draw_path m display_new path_loop_61 = .ok s1 ∧
      clear_draw_path m s1 path_loop_61 = .ok s2 ∧
      ((committed s1).head?).map point_t.v = some 0 ∧
      ((committed s2).head?).map point_t.v = some (179 / 320) ∧
      committed s1 ≠ committed s2 := by
  have hA : begin_draw_to (vector_display_clear display_new).2 path_loop_61 =
      .ok display_loop_grown := by rfl
  have hsA : buffers_ok display_loop_grown := by decide
  obtain ⟨s1, a1, e1⟩ := end_draw_spec m display_loop_grown hsA (by decide)
  have f1 := appended_frame a1
  have hPA : pending_path display_loop_grown =
      List.replicate 60 pending_zero ++ [(⟨5, 5⟩ : pending_point_t ℚ)] := by rfl
  have hoA : path_closed (pending_path display_loop_grown) = false := by
    rw [hPA]
    apply first_last_same_false
    left
    have h0 : (List.replicate 60 (pending_zero : pending_point_t ℚ) ++
        [(⟨5, 5⟩ : pending_point_t ℚ)]).getD 0 pending_zero = ⟨0, 0⟩ := by rfl
    have hl : (List.replicate 60 (pending_zero : pending_point_t ℚ) ++
        [(⟨5, 5⟩ : pending_point_t ℚ)]).getD
        ((List.replicate 60 (pending_zero : pending_point_t ℚ) ++
          [(⟨5, 5⟩ : pending_point_t ℚ)]).length - 1)
        pending_zero = ⟨5, 5⟩ := by rfl
    rw [h0, hl]
    norm_num
  have hv1 := appended_head_v m display_loop_grown.thickness (pending_path display_loop_grown)
    display_loop_grown display_loop_grown s1 (by rw [hPA]; decide) rfl a1
  rw [hoA] at hv1
  have hs1 := (buffers_ok_of_appended hsA a1).2
  have hs1c := buffers_ok_clear _ hs1
  obtain ⟨sB, s2, eB, aB, a2, e2⟩ := draw_path_spec m
    (vector_display_clear { s1 with pending_npoints := 0 }).2 (⟨5, 5⟩ : pending_point_t ℚ)
    (List.replicate 59 (⟨15, 5⟩ : pending_point_t ℚ) ++ [(⟨5, 5⟩ : pending_point_t ℚ)]) hs1c rfl
    (by
      have : s1.pending_cpoints = 120 := f1.2.2.1
      simp only [vector_display_clear]
      rw [this]
      decide)
    (by decide)
  have hc2 : path_closed path_loop_61 = true := by
    apply first_last_same_true
    · have h0 : path_loop_61.getD 0 pending_zero = ⟨5, 5⟩ := by rfl
      have hl : path_loop_61.getD (path_loop_61.length - 1) pending_zero = ⟨5, 5⟩ := by rfl
      rw [h0, hl]
      norm_num
    · have h0 : path_loop_61.getD 0 pending_zero = ⟨5, 5⟩ := by rfl
      have hl : path_loop_61.getD (path_loop_61.length - 1) pending_zero = ⟨5, 5⟩ := by rfl
      rw [h0, hl]
      norm_num
  have hv2 := appended_head_v m _ path_loop_61 _ sB s2 (by decide) (pended_frame aB).2.1 a2
  rw [hc2] at hv2
  have ht : (vector_display_clear { s1 with pending_npoints := 0 }).2.thickness = 80 := by
    simp only [vector_display_clear]
    rw [f1.2.2.2.1]
    rfl
  rw [ht] at hv2
  have hr1 : ((committed { s1 with pending_npoints := 0 }).head?).map point_t.v = some 0 := by
    have : committed { s1 with pending_npoints := 0 } = committed s1 := rfl
    rw [this, hv1]
    norm_num [TEXTURE_SIZE]
  have hr2 : ((committed { s2 with pending_npoints := 0 }).head?).map point_t.v =
      some (179 / 320) := by
    have : committed { s2 with pending_npoints := 0 } = committed s2 := rfl
    rw [this, hv2]
    norm_num [TEXTURE_SIZE, HALF_TEXTURE_SIZE]
  refine ⟨{ s1 with pending_npoints := 0 }, { s2 with pending_npoints := 0 }, ?_, ?_,
    hr1, hr2, ?_⟩
  · exact clear_draw_path_eq m _ _ _ _ _ hA e1
  · have hpath : path_loop_61 = (⟨5, 5⟩ : pending_point_t ℚ) ::
        (List.replicate 59 (⟨15, 5⟩ : pending_point_t ℚ) ++ [(⟨5, 5⟩ : pending_point_t ℚ)]) :=
      rfl
    unfold clear_draw_path
    rw [hpath]
    exact e2
  · intro h
    rw [h, hr2] at hr1
    norm_num at hr1

/-- C3: for a pending path of `n ≥ 2` points that `end()` does not detect as closed, `end()`
returns 0 and appends, segment by segment, 2 body triangles per segment, one 4-triangle fan
at the start of every segment but the first, a 2-triangle start cap on the first segment and
a 2-triangle end cap on the last one: `3 * (2(n-1) + 4(n-2) + 4)` vertices in all.  In
particular `begin(0,0); draw_to(10,0); draw_to(10,10); end()` on a new display (default
thickness) leaves exactly 36 committed vertices, that is 12 triangles. -/
theorem end_draw_open_path_triangles (m : Libm R) :
    (∀ s : vector_display R, buffers_ok s → 2 ≤ s.pending_npoints →
      path_closed (pending_path s) = false →
      ∃ s1, vector_display_end_draw m s = .ok (0, { s1 with pending_npoints := 0 }) ∧
        appended s s1
          ((all_calls (tessellation m s.thickness (pending_path s))).map (vertex_of s)) ∧
        (tessellation m s.thickness (pending_path s)).length = s.pending_npoints - 1 ∧
        (∀ (j : Nat) (seg : segment_calls R),
          (tessellation m s.thickness (pending_path s))[j]? = some seg →
          seg.line.length = 6 ∧ seg.corner.length = (if j = 0 then 0 else 12) ∧
          seg.startcap.length = (if j = 0 then 6 else 0) ∧
          seg.endcap.length = (if j + 2 = s.pending_npoints then 6 else 0)) ∧
        s1.npoints = s.npoints +
          3 * (2 * (s.pending_npoints - 1) + 4 * (s.pending_npoints - 2) + 4)) ∧
    (∀ w h : R, ∃ s1,
      draw_path m (vector_display_new w h) [⟨0, 0⟩, ⟨10, 0⟩, ⟨10, 10⟩] = .ok s1 ∧
        s1.npoints = 36 ∧ (committed s1).length = 36) := by
  refine ⟨fun s hs hn ho => end_draw_open m s hs hn ho, ?_⟩
  intro w h
  have hs : buffers_ok (vector_display_new w h) := by
    simp [buffers_ok, vector_display_new]
  obtain ⟨s1, e1, a1⟩ := begin_draw_to_room (⟨0, 0⟩ : pending_point_t R)
    [⟨10, 0⟩, ⟨10, 10⟩] (vector_display_new w h) hs rfl (by simp [vector_display_new])
  have hs1 : buffers_ok s1 := buffers_ok_of_pended hs a1 (by simp [vector_display_new])
  have f1 := pended_frame a1
  have hP : pending_path s1 = [⟨0, 0⟩, ⟨10, 0⟩, ⟨10, 10⟩] := by
    rw [a1.2.2, pending_path_of_empty _ rfl]
    rfl
  have hn : s1.pending_npoints = 3 := by
    rw [f1.2.2.2.2.2.2]
    rfl
  have ho : path_closed (pending_path s1) = false := by
    rw [hP]
    apply first_last_same_false
    left
    simp only [List.getD_eq_getElem?_getD, List.length_cons, List.length_nil]
    norm_num
  obtain ⟨s2, e2, a2, -, -, n2⟩ := end_draw_open m s1 hs1 (by omega) ho
  refine ⟨{ s2 with pending_npoints := 0 }, ?_, ?_, ?_⟩
  · simp only [draw_path, e1, e2]
  · rw [n2, hn, f1.2.1]
    rfl
  · have hle := a2.2.2.1
    simp only [committed, List.length_take]
    rw [a2.2.1, n2, hn, f1.2.1] at *
    have : (vector_display_new w h).npoints = 0 := rfl
    omega

/-- Witness for C3: the hypotheses hold for the display holding the pending path
`(0,0), (10,0), (10,10)`, and `end()` leaves 36 committed vertices there. -/
theorem end_draw_open_path_triangles_witness :
    begin_draw_to display_new [⟨0, 0⟩, ⟨10, 0⟩, ⟨10, 10⟩] = .ok display_corner ∧
      buffers_ok display_corner ∧ 2 ≤ display_corner.pending_npoints ∧
      path_closed (pending_path display_corner) = false ∧
      ∃ s1 : vector_display ℚ, vector_display_end_draw libm_x_axis display_corner =
          .ok (0, { s1 with pending_npoints := 0 }) ∧ s1.npoints = 36 := by
  have hs : buffers_ok display_corner := by decide
  have ho : path_closed (pending_path display_corner) = false := by
    apply first_last_same_false
    left
    simp [pending_path, display_corner, display_new, vector_display_new]
  refine ⟨by rfl, hs, by decide, ho, ?_⟩
  obtain ⟨s1, e1, -, -, -, n1⟩ :=
    (end_draw_open_path_triangles libm_x_axis).1 display_corner hs (by decide) ho
  exact ⟨s1, e1, n1⟩


/-- C4: for a pending path of `n ≥ 2` points whose first and last points differ by less
than 0.1 in both coordinates, `end()` returns 0 and appends for every one of the `n - 1`
segments one 4-triangle corner fan (12 vertices) and 2 body triangles (6 vertices) and no
cap at all; the fan of the first segment is the wrap-around joint, built with the segment
`P[n-2] → P[n-1]` as the previous one. -/
theorem end_draw_closed_path_fans (m : Libm R) (s : vector_display R) (hs : buffers_ok s)
    (hn2 : 2 ≤ s.pending_npoints)
    (hx : |((pending_path s).getD 0 pending_zero).x -
        ((pending_path s).getD (s.pending_npoints - 1) pending_zero).x| < 1 / 10)
    (hy : |((pending_path s).getD 0 pending_zero).y -
        ((pending_path s).getD (s.pending_npoints - 1) pending_zero).y| < 1 / 10) :
    ∃ s1, vector_display_end_draw m s = .ok (0, { s1 with pending_npoints := 0 }) ∧
      appended s s1
        ((all_calls (tessellation m s.thickness (pending_path s))).map (vertex_of s)) ∧
      (tessellation m s.thickness (pending_path s)).length = s.pending_npoints - 1 ∧
      (∀ (j : Nat) (seg : segment_calls R),
        (tessellation m s.thickness (pending_path s))[j]? = some seg →
        seg.corner.length = 12 ∧ seg.line.length = 6 ∧ seg.endcap = [] ∧ seg.startcap = []) ∧
      (tessellation m s.thickness (pending_path s))[0]? =
        some (segment_geometry m s.thickness true true
          ((pending_path s).getD (s.pending_npoints - 2) pending_zero)
          ((pending_path s).getD 0 pending_zero) ((pending_path s).getD 1 pending_zero)
          ((pending_path s).getD (if 2 ≠ s.pending_npoints then 2 else 1) pending_zero)) ∧
      s1.npoints = s.npoints + 3 * (4 * (s.pending_npoints - 1) + 2 * (s.pending_npoints - 1)) := by
  have hlen : (pending_path s).length = s.pending_npoints := by
    have := hs.2.2.2.1
    have := hs.2.2.2.2.1
    simp only [pending_path, List.length_take]
    omega
  have hc : path_closed (pending_path s) = true := by
    unfold path_closed
    rw [hlen]
    exact first_last_same_true _ _ hx hy
  obtain ⟨s1, e1, a1, l1, g1, n1⟩ := end_draw_closed m s hs hn2 hc
  refine ⟨s1, e1, a1, l1, g1, ?_, n1⟩
  rw [tessellation_get m _ _ 0 (by omega), hc]
  simp [segment_of_path, hlen]

/-- Witness for C4: the closed triangle `(0,0), (10,0), (10,10), (0,0)` gets three fans, three
bodies and no cap: 54 vertices. -/
theorem end_draw_closed_path_fans_witness :
    begin_draw_to display_new [⟨0, 0⟩, ⟨10, 0⟩, ⟨10, 10⟩, ⟨0, 0⟩] = .ok display_triangle ∧
      buffers_ok display_triangle ∧ 2 ≤ display_triangle.pending_npoints ∧
      ∃ s1 : vector_display ℚ, vector_display_end_draw libm_x_axis display_triangle =
          .ok (0, { s1 with pending_npoints := 0 }) ∧ s1.npoints = 54 := by
  have hs : buffers_ok display_triangle := by decide
  refine ⟨by rfl, hs, by decide, ?_⟩
  obtain ⟨s1, e1, -, -, -, -, n1⟩ :=
    end_draw_closed_path_fans libm_x_axis display_triangle hs (by decide)
      (by simp [pending_path, display_triangle, display_new, vector_display_new])
      (by simp [pending_path, display_triangle, display_new, vector_display_new])
  exact ⟨s1, e1, n1⟩

/-- C5: for every display state (whatever its thickness, in particular every thickness
`t > 0`) and all endpoint coordinates, `draw(x0,y0,x1,y1)` returns 0, appends exactly 24
vertices (8 triangles) to the committed buffer and leaves the vertices already in it, and
every other field of the display, unchanged. -/
theorem draw_appends_eight_triangles (m : Libm R) (s : vector_display R) (x0 y0 x1 y1 : R)
    (hs : buffers_ok s) :
    ∃ s1 vs, vector_display_draw m s x0 y0 x1 y1 = .ok (0, s1) ∧ appended s s1 vs ∧
      vs.length = 3 * 8 ∧ s1.npoints = s.npoints + 24 ∧ committed s1 = committed s ++ vs ∧
      (committed s1).length = (committed s).length + 24 ∧
      (committed s1).take (committed s).length = committed s := by
  obtain ⟨s1, e1, a1, l1⟩ := draw_spec m s x0 y0 x1 y1 hs
  have hl : ((draw_calls m s.thickness x0 y0 x1 y1).map (vertex_of s)).length = 24 := by
    rw [List.length_map, l1]
  refine ⟨s1, _, e1, a1, hl, ?_, a1.2.2.2.2, ?_, ?_⟩
  · rw [(appended_frame a1).2.2.2.2.2, hl]
  · rw [a1.2.2.2.2, List.length_append, hl]
  · rw [a1.2.2.2.2, List.take_left]

/-- Witness for C5: a segment from `(0,0)` to `(10,0)` drawn on a new display. -/
theorem draw_appends_eight_triangles_witness :
    buffers_ok display_new ∧
      ∃ s1 : vector_display ℚ, vector_display_draw libm_x_axis display_new 0 0 10 0 = .ok (0, s1) ∧
        s1.npoints = 24 := by
  have hs : buffers_ok display_new := by decide
  obtain ⟨s1, vs, e1, -, -, n1, -⟩ :=
    draw_appends_eight_triangles libm_x_axis display_new 0 0 10 0 hs
  exact ⟨hs, s1, e1, n1⟩


/-- C6, counterexample: on a new display the open two-point path `(0,0), (10,0)` gets 24
committed vertices from `draw(0,0,10,0)` and 18 from `begin(0,0); draw_to(10,0); end()`, so
the two do not append the same vertex data. -/
theorem draw_differs_from_open_path :
    display_new.pending_npoints = 0 ∧
      path_closed [(⟨0, 0⟩ : pending_point_t ℚ), ⟨10, 0⟩] = false ∧
      ∃ sd se : vector_display ℚ,
        vector_display_draw libm_x_axis display_new 0 0 10 0 = .ok (0, sd) ∧
        draw_path libm_x_axis display_new [⟨0, 0⟩, ⟨10, 0⟩] = .ok se ∧
        (committed sd).length = 24 ∧ (committed se).length = 18 ∧
        committed sd ≠ committed se := by
  have ho : path_closed [(⟨0, 0⟩ : pending_point_t ℚ), ⟨10, 0⟩] = false := by
    apply first_last_same_false
    left
    simp
  obtain ⟨sd, se, bd, be, c0, c1, ed, ee, hd, he, lbd, lbe, l0, l1⟩ :=
    draw_vs_path libm_x_axis display_new 0 0 10 0 (by decide) rfl ho
  have hc : committed display_new = [] := rfl
  have hld : (committed sd).length = 24 := by
    rw [hd, hc]
    simp [lbd, l0, l1]
  have hle : (committed se).length = 18 := by
    rw [he, hc]
    simp [lbe, l0, l1]
  refine ⟨rfl, ho, sd, se, ed, ee, hld, hle, ?_⟩
  intro h
  rw [h, hle] at hld
  exact absurd hld (by decide)

/-- C6, amended: from a display state with no pending path and for endpoints that differ by
at least 1 in `x` or in `y` (so that the closed test of `end()` fails),
`draw(x0,y0,x1,y1)` appends 24 vertices and `begin(x0,y0); draw_to(x1,y1); end()` appends 18.
`draw` appends a body of 12 vertices, then the start cap, then the end cap; `end` appends a
body of 6 vertices, then the end cap, then the start cap.  The two caps (6 vertices each)
are given by the same expressions in both, `segment_startcap` and `segment_endcap`; in the
exact arithmetic of this embedding they are the same vertex data (the source evaluates them
in `float` in `draw` and in `double` in `end`). -/
theorem draw_and_open_path_share_caps (m : Libm R) (s : vector_display R) (x0 y0 x1 y1 : R)
    (hs : buffers_ok s) (h0 : s.pending_npoints = 0)
    (ho : 1 ≤ |x0 - x1| ∨ 1 ≤ |y0 - y1|) :
    path_closed [(⟨x0, y0⟩ : pending_point_t R), ⟨x1, y1⟩] = false ∧
    ∃ (sd se : vector_display R) (body_d body_e : List (point_t R)),
      vector_display_draw m s x0 y0 x1 y1 = .ok (0, sd) ∧
      draw_path m s [⟨x0, y0⟩, ⟨x1, y1⟩] = .ok se ∧
      committed sd = committed s ++ (body_d ++
        (segment_startcap m s.thickness x0 y0 x1 y1).map (vertex_of s) ++
        (segment_endcap m s.thickness x0 y0 x1 y1).map (vertex_of s)) ∧
      committed se = committed s ++ (body_e ++
        (segment_endcap m s.thickness x0 y0 x1 y1).map (vertex_of s) ++
        (segment_startcap m s.thickness x0 y0 x1 y1).map (vertex_of s)) ∧
      body_d.length = 12 ∧ body_e.length = 6 ∧
      ((segment_startcap m s.thickness x0 y0 x1 y1).map (vertex_of s)).length = 6 ∧
      ((segment_endcap m s.thickness x0 y0 x1 y1).map (vertex_of s)).length = 6 ∧
      (committed sd).length = (committed s).length + 24 ∧
      (committed se).length = (committed s).length + 18 := by
  have hc : path_closed [(⟨x0, y0⟩ : pending_point_t R), ⟨x1, y1⟩] = false :=
    first_last_same_false ⟨x0, y0⟩ ⟨x1, y1⟩ ho
  obtain ⟨sd, ed, ad, -⟩ := draw_spec m s x0 y0 x1 y1 hs
  obtain ⟨s1, s2, e1, a1, a2, e2⟩ := draw_path_spec m s ⟨x0, y0⟩ [⟨x1, y1⟩] hs h0
    (by
      have := hs.2.2.2.2.2
      simp only [List.length_cons, List.length_nil]
      omega)
    (by simp)
  obtain ⟨bd, hbd, hd⟩ := draw_calls_split m s.thickness x0 y0 x1 y1
  obtain ⟨be, hbe, he⟩ := open_pair_calls_split m s.thickness x0 y0 x1 y1 hc
  have f1 := pended_frame a1
  have hc1 : committed s1 = committed s := by
    simp only [committed, f1.1, f1.2.1]
  have l0 : ((segment_startcap m s.thickness x0 y0 x1 y1).map (vertex_of s)).length = 6 := by
    simp [segment_startcap, startcap_calls]
  have l1 : ((segment_endcap m s.thickness x0 y0 x1 y1).map (vertex_of s)).length = 6 := by
    simp [segment_endcap, endcap_calls]
  have hcd : committed sd = committed s ++ (bd.map (vertex_of s) ++
      (segment_startcap m s.thickness x0 y0 x1 y1).map (vertex_of s) ++
      (segment_endcap m s.thickness x0 y0 x1 y1).map (vertex_of s)) := by
    rw [ad.2.2.2.2, hd, List.map_append, List.map_append]
  have hce : committed { s2 with pending_npoints := 0 } = committed s ++
      (be.map (vertex_of s) ++
        (segment_endcap m s.thickness x0 y0 x1 y1).map (vertex_of s) ++
        (segment_startcap m s.thickness x0 y0 x1 y1).map (vertex_of s)) := by
    have : committed { s2 with pending_npoints := 0 } = committed s2 := rfl
    rw [this, a2.2.2.2.2, hc1, he, List.map_append, List.map_append]
  have lbd : (bd.map (vertex_of s)).length = 12 := by simpa using hbd
  have lbe : (be.map (vertex_of s)).length = 6 := by simpa using hbe
  refine ⟨hc, sd, { s2 with pending_npoints := 0 }, bd.map (vertex_of s),
    be.map (vertex_of s), ed, e2, hcd, hce, lbd, lbe, l0, l1, ?_, ?_⟩
  · rw [hcd, List.length_append, List.length_append, List.length_append, lbd, l0, l1]
  · rw [hce, List.length_append, List.length_append, List.length_append, lbe, l0, l1]

/-- Witness for the amended C6: the segment `(0,0), (10,0)` on a new display. -/
theorem draw_and_open_path_share_caps_witness :
    buffers_ok display_new ∧ display_new.pending_npoints = 0 ∧
      ((1 : ℚ) ≤ |0 - 10| ∨ (1 : ℚ) ≤ |0 - 0|) ∧
      ∃ (sd se : vector_display ℚ) (body_d body_e : List (point_t ℚ)),
        vector_display_draw libm_x_axis display_new 0 0 10 0 = .ok (0, sd) ∧
        draw_path libm_x_axis display_new [⟨0, 0⟩, ⟨10, 0⟩] = .ok se ∧
        committed sd = committed display_new ++ (body_d ++
          (segment_startcap libm_x_axis display_new.thickness 0 0 10 0).map
            (vertex_of display_new) ++
          (segment_endcap libm_x_axis display_new.thickness 0 0 10 0).map
            (vertex_of display_new)) ∧
        committed se = committed display_new ++ (body_e ++
          (segment_endcap libm_x_axis display_new.thickness 0 0 10 0).map
            (vertex_of display_new) ++
          (segment_startcap libm_x_axis display_new.thickness 0 0 10 0).map
            (vertex_of display_new)) ∧
        (committed sd).length = 24 ∧ (committed se).length = 18 := by
  have ho : (1 : ℚ) ≤ |0 - 10| ∨ (1 : ℚ) ≤ |0 - 0| := by
    left
    norm_num
  obtain ⟨-, sd, se, bd, be, ed, ee, hd, he, -, -, -, -, ld, le⟩ :=
    draw_and_open_path_share_caps libm_x_axis display_new 0 0 10 0 (by decide) rfl ho
  have hc : (committed display_new).length = 0 := rfl
  rw [hc] at ld le
  exact ⟨by decide, rfl, ho, sd, se, bd, be, ed, ee, hd, he, by simpa using ld,
    by simpa using le⟩

/-- C7: one `update` on a ring of `steps ≥ 1` slots returns 0 and issues its draw calls in
the order of `loopvar = 0, ..., steps - 1`; the slot of age `k = steps - loopvar - 1` behind
the new write cursor is drawn exactly when its recorded count is non-zero, and then with
alpha `1` if `k = 0`, `initial_decay` if `k = 1` and `decay^(k-1) * initial_decay` otherwise.
With `decay = 4/5` and `initial_decay = 1/25` the ages 0, 1, 2, 3 give 1, 0.04, 0.032 and
0.0256. -/
theorem update_alpha_by_age (s : vector_display R) :
    (1 ≤ s.steps → s.buffernpoints.length = s.steps →
      ∃ (s1 : vector_display R) (calls : List (draw_call R)),
        vector_display_update s = .ok (0, s1, calls) ∧
        s1.step = (s.step + 1) % s.steps ∧ s1.steps = s.steps ∧
        s1.decay = s.decay ∧ s1.initial_decay = s.initial_decay ∧
        calls = (List.range s.steps).filterMap (fun loopvar =>
          if s1.buffernpoints.getD ((s1.step + s.steps - (s.steps - loopvar - 1)) % s.steps) 0 = 0
          then none
          else some
            ⟨(s1.step + s.steps - (s.steps - loopvar - 1)) % s.steps,
              if s.steps - loopvar - 1 = 0 then 1
              else if s.steps - loopvar - 1 = 1 then s.initial_decay
              else s.decay ^ (s.steps - loopvar - 1 - 1) * s.initial_decay,
              s1.buffernpoints.getD
                ((s1.step + s.steps - (s.steps - loopvar - 1)) % s.steps) 0⟩)) ∧
    (s.decay = 4 / 5 → s.initial_decay = 1 / 25 →
      update_alpha s 0 = 1 ∧ update_alpha s 1 = 4 / 100 ∧ update_alpha s 2 = 32 / 1000 ∧
        update_alpha s 3 = 256 / 10000) := by
  constructor
  · intro hpos hlen
    have hne : ¬ s.steps = 0 := by omega
    have hw : (s.step + 1) % s.steps < s.buffernpoints.length := by
      rw [hlen]
      exact Nat.mod_lt _ (by omega)
    have hl := update_draw_loop_spec
      { s with step := (s.step + 1) % s.steps,
               buffernpoints := s.buffernpoints.set ((s.step + 1) % s.steps) s.npoints }
      (by simpa using hlen) (by simpa using hpos) (List.range s.steps)
    refine ⟨{ s with step := (s.step + 1) % s.steps,
                     buffernpoints := s.buffernpoints.set ((s.step + 1) % s.steps) s.npoints },
      _, ?_, rfl, rfl, rfl, rfl, rfl⟩
    simp only [vector_display_update, hne, if_false, wr, hw, if_true]
    rw [hl]
    rfl
  · intro hd hi
    simp only [update_alpha, hd, hi]
    norm_num

/-- Witness for C7: the first `update` of a new display, for which both hypotheses of each
part hold (10 slots, decay 0.8, initial decay 0.04). -/
theorem update_alpha_by_age_witness :
    1 ≤ display_new.steps ∧ display_new.buffernpoints.length = display_new.steps ∧
      display_new.decay = 4 / 5 ∧ display_new.initial_decay = 1 / 25 ∧
      (∃ (s1 : vector_display ℚ) (calls : List (draw_call ℚ)),
        vector_display_update display_new = .ok (0, s1, calls) ∧ s1.step = 1) ∧
      update_alpha display_new 2 = 32 / 1000 ∧ update_alpha display_new 3 = 256 / 10000 := by
  have hd : display_new.decay = 4 / 5 := by
    simp only [display_new, vector_display_new, DEFAULT_DECAY]
    norm_num
  have hi : display_new.initial_decay = 1 / 25 := by
    simp only [display_new, vector_display_new, DEFAULT_INITIAL_DECAY]
    norm_num
  obtain ⟨s1, calls, e1, hstep, -⟩ :=
    (update_alpha_by_age display_new).1 (by decide) (by decide)
  obtain ⟨-, -, h2, h3⟩ := (update_alpha_by_age display_new).2 hd hi
  exact ⟨by decide, by decide, hd, hi, ⟨s1, calls, e1, hstep⟩, h2, h3⟩


/-- C8: `set_decay(d)` and `set_initial_decay(d)` return -1 exactly when `d < 0` or `d ≥ 1`
and `set_thickness(d)` exactly when `d ≤ 0`; a failing call leaves the whole display
unchanged, a successful one returns 0 and changes only the named field, to `d`.  In
particular `set_decay(1.5)` after `set_decay(0.8)` fails and leaves the decay at 0.8. -/
theorem setters_validate (s : vector_display R) (d : R) :
    (((vector_display_set_decay s d).1 = -1 ↔ (d < 0 ∨ d ≥ 1)) ∧
      ((d < 0 ∨ d ≥ 1) → vector_display_set_decay s d = (-1, s)) ∧
      (¬ (d < 0 ∨ d ≥ 1) → vector_display_set_decay s d = (0, { s with decay := d }))) ∧
    (((vector_display_set_initial_decay s d).1 = -1 ↔ (d < 0 ∨ d ≥ 1)) ∧
      ((d < 0 ∨ d ≥ 1) → vector_display_set_initial_decay s d = (-1, s)) ∧
      (¬ (d < 0 ∨ d ≥ 1) →
        vector_display_set_initial_decay s d = (0, { s with initial_decay := d }))) ∧
    (((vector_display_set_thickness s d).1 = -1 ↔ d ≤ 0) ∧
      (d ≤ 0 → vector_display_set_thickness s d = (-1, s)) ∧
      (¬ d ≤ 0 → vector_display_set_thickness s d = (0, { s with thickness := d }))) ∧
    vector_display_set_decay (vector_display_set_decay s (8 / 10)).2 (15 / 10) =
      (-1, { s with decay := 8 / 10 }) := by
  refine ⟨⟨?_, ?_, ?_⟩, ⟨?_, ?_, ?_⟩, ⟨?_, ?_, ?_⟩, ?_⟩
  · by_cases h : d < 0 ∨ d ≥ 1 <;> simp [vector_display_set_decay, h]
  · intro h
    simp [vector_display_set_decay, h]
  · intro h
    simp only [vector_display_set_decay, h, if_false]
  · by_cases h : d < 0 ∨ d ≥ 1 <;> simp [vector_display_set_initial_decay, h]
  · intro h
    simp [vector_display_set_initial_decay, h]
  · intro h
    simp only [vector_display_set_initial_decay, h, if_false]
  · by_cases h : d ≤ 0 <;> simp [vector_display_set_thickness, h]
  · intro h
    simp [vector_display_set_thickness, h]
  · intro h
    simp only [vector_display_set_thickness, h, if_false]
  · have h1 : ¬ ((8 / 10 : R) < 0 ∨ (8 / 10 : R) ≥ 1) := by norm_num
    have h2 : (15 / 10 : R) < 0 ∨ (15 / 10 : R) ≥ 1 := by
      right
      norm_num
    simp only [vector_display_set_decay, h1, h2, if_false, if_true]

/-- Witness for C8: on a new display `set_decay(3/2)` is rejected and `set_thickness(2)` is
accepted. -/
theorem setters_validate_witness :
    ((3 / 2 : ℚ) < 0 ∨ (3 / 2 : ℚ) ≥ 1) ∧
      vector_display_set_decay display_new (3 / 2) = (-1, display_new) ∧
      ¬ ((3 / 2 : ℚ) ≤ 0) ∧
      vector_display_set_thickness display_new (3 / 2) =
        (0, { display_new with thickness := 3 / 2 }) := by
  have h1 : (3 / 2 : ℚ) < 0 ∨ (3 / 2 : ℚ) ≥ 1 := by
    right
    norm_num
  have h2 : ¬ ((3 / 2 : ℚ) ≤ 0) := by norm_num
  exact ⟨h1, (setters_validate display_new (3 / 2)).1.2.1 h1, h2,
    (setters_validate display_new (3 / 2)).2.2.1.2.2 h2⟩

/-- C9: `set_steps(n)` returns -1 exactly when `n < 0` or `n > 300` and then leaves the
display (ring size, cursor, slot counts) unchanged; otherwise it returns 0, the ring has
exactly `n` slots, every slot's recorded vertex count is 0, the write cursor is 0, and no
other field changes, whatever the ring held before. -/
theorem set_steps_resets_ring (s : vector_display R) (n : Int) :
    ((vector_display_set_steps s n).1 = -1 ↔ (n < 0 ∨ n > 300)) ∧
      ((n < 0 ∨ n > 300) → vector_display_set_steps s n = (-1, s)) ∧
      (¬ (n < 0 ∨ n > 300) →
        (vector_display_set_steps s n).1 = 0 ∧
        ((vector_display_set_steps s n).2.steps : Int) = n ∧
        ((vector_display_set_steps s n).2.buffernpoints.length : Int) = n ∧
        (∀ c ∈ (vector_display_set_steps s n).2.buffernpoints, c = 0) ∧
        (vector_display_set_steps s n).2.step = 0 ∧
        (vector_display_set_steps s n).2 =
          { s with step := 0, steps := (vector_display_set_steps s n).2.steps,
                   buffernpoints := (vector_display_set_steps s n).2.buffernpoints }) := by
  have hM : ((MAX_STEPS : Nat) : Int) = 300 := rfl
  refine ⟨?_, ?_, ?_⟩
  · by_cases h : n < 0 ∨ n > 300 <;> simp [vector_display_set_steps, hM, h]
  · intro h
    simp [vector_display_set_steps, hM, h]
  · intro h
    have hn : 0 ≤ n := by
      push_neg at h
      exact h.1
    have he : vector_display_set_steps s n =
        (0, { s with step := 0, steps := n.toNat,
                     buffernpoints := List.replicate n.toNat 0 }) := by
      simp only [vector_display_set_steps, hM, h, if_false]
    rw [he]
    refine ⟨rfl, Int.toNat_of_nonneg hn, ?_, ?_, rfl, rfl⟩
    · simp only [List.length_replicate]
      exact Int.toNat_of_nonneg hn
    · intro c hc
      exact (List.mem_replicate.mp hc).2

/-- Witness for C9: on a new display `set_steps(301)` is rejected and `set_steps(3)` leaves
a ring of three empty slots. -/
theorem set_steps_resets_ring_witness :
    ((301 : Int) < 0 ∨ (301 : Int) > 300) ∧
      vector_display_set_steps display_new 301 = (-1, display_new) ∧
      ¬ ((3 : Int) < 0 ∨ (3 : Int) > 300) ∧
      ((vector_display_set_steps display_new 3).2.buffernpoints.length : Int) = 3 := by
  have h1 : (301 : Int) < 0 ∨ (301 : Int) > 300 := by decide
  have h2 : ¬ ((3 : Int) < 0 ∨ (3 : Int) > 300) := by decide
  exact ⟨h1, (set_steps_resets_ring display_new 301).2.1 h1, h2,
    ((set_steps_resets_ring display_new 3).2.2 h2).2.2.1⟩

/-- C10: on a consistent display `begin(x,y)` aborts if and only if the pending path is
non-empty; when it is empty, `begin` returns 0, the pending path becomes exactly `[(x,y)]`
and only the pending block and its count change.  `end()` always returns with an empty
pending path, so a `begin` that follows any `begin; draw_to ...; end` cycle returns 0. -/
theorem begin_draw_aborts_iff_pending (m : Libm R) (s : vector_display R) (x y : R)
    (hs : buffers_ok s) :
    (vector_display_begin_draw s x y = .error Fault.abort ↔ s.pending_npoints ≠ 0) ∧
    (s.pending_npoints = 0 →
      ∃ pts, vector_display_begin_draw s x y =
          .ok (0, { s with pending_points := pts, pending_npoints := 1 }) ∧
        pts.length = s.pending_points.length ∧
        pending_path { s with pending_points := pts, pending_npoints := 1 } = [⟨x, y⟩]) ∧
    (∃ s1, vector_display_end_draw m s = .ok (0, s1) ∧ s1.pending_npoints = 0 ∧
      ∃ s2, vector_display_begin_draw s1 x y = .ok (0, s2)) ∧
    (∀ (ps : List (pending_point_t R)) (s1 : vector_display R), draw_path m s ps = .ok s1 →
      ∃ s2, vector_display_begin_draw s1 x y = .ok (0, s2)) := by
  refine ⟨?_, ?_, ?_, ?_⟩
  · constructor
    · intro h h0
      rw [begin_draw_empty s x y hs h0] at h
      exact absurd h (by simp)
    · intro h
      simp [vector_display_begin_draw, h]
  · intro h0
    have hw : 0 < s.pending_points.length := by
      have := hs.2.2.2.1
      have := hs.2.2.2.2.2
      omega
    refine ⟨s.pending_points.set 0 ⟨x, y⟩, begin_draw_empty s x y hs h0, by simp, ?_⟩
    simp only [pending_path]
    have := take_succ_set s.pending_points 0 (⟨x, y⟩ : pending_point_t R) hw
    simpa using this
  · obtain ⟨s1, e1, hs1, h1⟩ := end_draw_total m s hs
    exact ⟨s1, e1, h1, _, begin_draw_empty s1 x y hs1 h1⟩
  · intro ps s1 h
    unfold draw_path at h
    cases hb : begin_draw_to s ps with
    | error e =>
      rw [hb] at h
      exact absurd h (by simp)
    | ok sb =>
      rw [hb] at h
      simp only [] at h
      have hsb : buffers_ok sb := by
        cases ps with
        | nil =>
          simp only [begin_draw_to, Except.ok.injEq] at hb
          rw [← hb]
          exact hs
        | cons p ps =>
          simp only [begin_draw_to] at hb
          cases hbd : vector_display_begin_draw s p.x p.y with
          | error e =>
            rw [hbd] at hb
            exact absurd hb (by simp)
          | ok r =>
            obtain ⟨rc, s0⟩ := r
            rw [hbd] at hb
            simp only [] at hb
            have h0 : s.pending_npoints = 0 := by
              by_contra hne
              simp [vector_display_begin_draw, hne] at hbd
            rw [begin_draw_empty s p.x p.y hs h0] at hbd
            simp only [Except.ok.injEq, Prod.mk.injEq] at hbd
            have hs0 : buffers_ok s0 := by
              rw [← hbd.2]
              obtain ⟨h1, h2, h3, h4, h5, h6⟩ := hs
              refine ⟨h1, h2, h3, ?_, ?_, h6⟩
              · simp only [List.length_set]
                exact h4
              · simp only []
                omega
            exact draw_to_all_buffers_ok ps s0 sb hs0 hb
      obtain ⟨se, ee, hse, he0⟩ := end_draw_total m sb hsb
      rw [ee] at h
      simp only [Except.ok.injEq] at h
      rw [← h]
      exact ⟨_, begin_draw_empty se x y hse he0⟩

/-- Witness for C10: a new display (empty pending path) and the display holding the pending
path `(0,0), (10,0), (10,10)`. -/
theorem begin_draw_aborts_iff_pending_witness :
    buffers_ok display_new ∧ buffers_ok display_corner ∧
      vector_display_begin_draw display_corner 1 2 = .error Fault.abort ∧
      ∃ s2 : vector_display ℚ, vector_display_begin_draw display_new 1 2 = .ok (0, s2) ∧
        pending_path s2 = [⟨1, 2⟩] := by
  have h1 : buffers_ok display_new := by decide
  have h2 : buffers_ok display_corner := by decide
  obtain ⟨pts, e, -, hp⟩ :=
    (begin_draw_aborts_iff_pending libm_x_axis display_new 1 2 h1).2.1 rfl
  exact ⟨h1, h2,
    (begin_draw_aborts_iff_pending libm_x_axis display_corner 1 2 h2).1.mpr (by decide),
    _, e, hp⟩

/-- C11: on every consistent display state `end()` returns 0 and leaves the pending count
at zero; when the pending path has fewer than 2 points (0 or 1) it changes nothing but that
count, so the committed vertex buffer keeps its count and its contents. -/
theorem end_draw_resets_pending (m : Libm R) (s : vector_display R) :
    (buffers_ok s →
      ∃ s1, vector_display_end_draw m s = .ok (0, s1) ∧ s1.pending_npoints = 0) ∧
    (s.pending_npoints < 2 →
      vector_display_end_draw m s = .ok (0, { s with pending_npoints := 0 }) ∧
        ({ s with pending_npoints := 0 } : vector_display R).npoints = s.npoints ∧
        ({ s with pending_npoints := 0 } : vector_display R).points = s.points ∧
        committed ({ s with pending_npoints := 0 } : vector_display R) = committed s) := by
  constructor
  · intro hs
    obtain ⟨s1, e1, -, h1⟩ := end_draw_total m s hs
    exact ⟨s1, e1, h1⟩
  · intro hn
    refine ⟨by simp [vector_display_end_draw, hn], rfl, rfl, rfl⟩

/-- Witness for C11: `end()` on a new display (empty pending path) and on the display
holding the pending path `(0,0), (10,0), (10,10)`. -/
theorem end_draw_resets_pending_witness :
    buffers_ok display_corner ∧ display_new.pending_npoints < 2 ∧
      (∃ s1 : vector_display ℚ,
        vector_display_end_draw libm_x_axis display_corner = .ok (0, s1) ∧
          s1.pending_npoints = 0) ∧
      vector_display_end_draw libm_x_axis display_new =
        .ok (0, { display_new with pending_npoints := 0 }) := by
  have h1 : buffers_ok display_corner := by decide
  have h2 : display_new.pending_npoints < 2 := by decide
  exact ⟨h1, h2, (end_draw_resets_pending libm_x_axis display_corner).1 h1,
    ((end_draw_resets_pending libm_x_axis display_new).2 h2).1⟩

/-- C14: on a consistent display `append_texpoint(x, y, u, v)` increases the committed vertex
count by exactly 1, stores at the old end the vertex
`(x + 0.5, y + 0.5, 10000, r, g, b, a, u/128, 1 - v/128)` built from the current colour and
alpha, keeps every previously committed vertex, doubles the capacity exactly when the block
was full, and keeps the count within the capacity. -/
theorem append_texpoint_appends_one (s : vector_display R) (x y u v : R) (hs : buffers_ok s) :
    ∃ s2, append_texpoint s x y u v = .ok s2 ∧ s2.npoints = s.npoints + 1 ∧
      s2.points[s.npoints]? =
        some ⟨x + 1 / 2, y + 1 / 2, 10000, s.r, s.g, s.b, s.a, u / 128, 1 - v / 128⟩ ∧
      (∀ i, i < s.npoints → s2.points[i]? = s.points[i]?) ∧
      committed s2 = committed s ++
        [⟨x + 1 / 2, y + 1 / 2, 10000, s.r, s.g, s.b, s.a, u / 128, 1 - v / 128⟩] ∧
      s2.cpoints = (if s.npoints = s.cpoints then s.cpoints * 2 else s.cpoints) ∧
      s2.npoints ≤ s2.cpoints ∧ s2.points.length = s2.cpoints ∧
      s2 = { s with cpoints := s2.cpoints, points := s2.points, npoints := s.npoints + 1 } := by
  obtain ⟨h1, h2, h3, -⟩ := hs
  obtain ⟨s2, e2, a2⟩ := append_texpoint_spec s x y u v h1 h2 (by omega)
  have hc := append_texpoint_cpoints s s2 x y u v h1 h2 (by omega) e2
  have hn : s2.npoints = s.npoints + 1 := (appended_frame a2).2.2.2.2.2
  have hv : vertex_of s ⟨x, y, u, v⟩ =
      ⟨x + 1 / 2, y + 1 / 2, 10000, s.r, s.g, s.b, s.a, u / 128, 1 - v / 128⟩ := rfl
  have hcm := a2.2.2.2.2
  rw [hv] at hcm
  have htk : s2.points.take (s.npoints + 1) = s.points.take s.npoints ++
      [⟨x + 1 / 2, y + 1 / 2, 10000, s.r, s.g, s.b, s.a, u / 128, 1 - v / 128⟩] := by
    have := hcm
    simp only [committed, hn] at this
    exact this
  obtain ⟨g1, g2⟩ := getElem?_of_take_succ s.points s2.points s.npoints _ htk (by omega)
  exact ⟨s2, e2, hn, g1, g2, hcm, hc, a2.2.2.1, a2.2.1, a2.1⟩

/-- Witness for C14: one vertex appended to a new display, and one appended when the
committed block of 60 entries is full. -/
theorem append_texpoint_appends_one_witness :
    buffers_ok display_new ∧ buffers_ok { display_new with npoints := 60 } ∧
      (∃ s2 : vector_display ℚ, append_texpoint display_new 1 2 64 128 = .ok s2 ∧
        s2.npoints = 1 ∧ s2.cpoints = 60) ∧
      ∃ s2 : vector_display ℚ,
        append_texpoint { display_new with npoints := 60 } 1 2 64 128 = .ok s2 ∧
          s2.npoints = 61 ∧ s2.cpoints = 120 := by
  have h1 : buffers_ok display_new := by decide
  have h2 : buffers_ok { display_new with npoints := 60 } := by decide
  obtain ⟨s2, e2, n2, -, -, -, c2, -⟩ := append_texpoint_appends_one display_new 1 2 64 128 h1
  obtain ⟨s3, e3, n3, -, -, -, c3, -⟩ :=
    append_texpoint_appends_one { display_new with npoints := 60 } 1 2 64 128 h2
  exact ⟨h1, h2, ⟨s2, e2, n2, c2⟩, ⟨s3, e3, n3, c3⟩⟩

/-- C16: `set_color(r, g, b)` returns 0 and changes only the three colour fields, so the
committed vertex count and every committed vertex stay as they were; every vertex that
`draw()` or `end()` appends afterwards carries the new `(r, g, b)` and the current alpha. -/
theorem set_color_affects_later_vertices (m : Libm R) (s : vector_display R) (r g b : R)
    (hs : buffers_ok s) :
    vector_display_set_color s r g b = (0, { s with r := r, g := g, b := b }) ∧
      (vector_display_set_color s r g b).2.npoints = s.npoints ∧
      (vector_display_set_color s r g b).2.points = s.points ∧
      committed (vector_display_set_color s r g b).2 = committed s ∧
      (∀ x0 y0 x1 y1 : R, ∃ (s1 : vector_display R) (vs : List (point_t R)),
        vector_display_draw m (vector_display_set_color s r g b).2 x0 y0 x1 y1 = .ok (0, s1) ∧
          committed s1 = committed s ++ vs ∧ vs.length = 24 ∧
          ∀ p ∈ vs, p.r = r ∧ p.g = g ∧ p.b = b ∧ p.a = s.a) ∧
      ∃ (s1 : vector_display R) (vs : List (point_t R)),
        vector_display_end_draw m (vector_display_set_color s r g b).2 = .ok (0, s1) ∧
          committed s1 = committed s ++ vs ∧
          vs.length = (end_calls m s).length ∧
          ∀ p ∈ vs, p.r = r ∧ p.g = g ∧ p.b = b ∧ p.a = s.a := by
  have hs2 := buffers_ok_set_color s r g b hs
  refine ⟨rfl, rfl, rfl, rfl, ?_, ?_⟩
  · intro x0 y0 x1 y1
    obtain ⟨s1, e1, a1, l1⟩ := draw_spec m (vector_display_set_color s r g b).2 x0 y0 x1 y1 hs2
    refine ⟨s1, _, e1, a1.2.2.2.2, by rw [List.length_map, l1], ?_⟩
    exact vertex_of_colour _ _
  · obtain ⟨s1, a1, e1⟩ := end_draw_appended m (vector_display_set_color s r g b).2 hs2
    refine ⟨{ s1 with pending_npoints := 0 }, _, e1, a1.2.2.2.2, ?_, ?_⟩
    · rw [List.length_map]
      rfl
    · exact vertex_of_colour _ _

/-- Witness for C16: the colour is set to `(1/2, 1/4, 0)` on the display holding the pending
path `(0,0), (10,0), (10,10)`; the 36 vertices of `end()` carry it. -/
theorem set_color_affects_later_vertices_witness :
    buffers_ok display_corner ∧
      ∃ (s1 : vector_display ℚ) (vs : List (point_t ℚ)),
        vector_display_end_draw libm_x_axis
            (vector_display_set_color display_corner (1 / 2) (1 / 4) 0).2 = .ok (0, s1) ∧
          committed s1 = committed display_corner ++ vs ∧
          ∀ p ∈ vs, p.r = 1 / 2 ∧ p.g = 1 / 4 ∧ p.b = 0 ∧ p.a = display_corner.a := by
  have h1 : buffers_ok display_corner := by decide
  obtain ⟨s1, vs, e1, c1, -, hp⟩ :=
    (set_color_affects_later_vertices libm_x_axis display_corner (1 / 2) (1 / 4) 0 h1).2.2.2.2.2
  exact ⟨h1, s1, vs, e1, c1, hp⟩

/-- C12: on a ring of `steps ≥ 1` slots with the cursor `c < steps`, one `update` returns 0,
sets the cursor to `(c + 1) mod steps`, records the committed vertex count in the slot at
the new cursor and leaves every other slot's count, and every other field, unchanged; the
cursor stays below `steps`.  After `k` ticks the cursor is `(c + k) mod steps`, so the slot
written at tick `t` is written again at tick `t + j` exactly when `steps` divides `j`: it is
next overwritten `steps` ticks later. -/
theorem update_advances_cursor (s : vector_display R) (hs : ring_ok s) :
    (∃ (s1 : vector_display R) (calls : List (draw_call R)),
      vector_display_update s = .ok (0, s1, calls) ∧
        s1.step = (s.step + 1) % s.steps ∧
        s1.buffernpoints[s1.step]? = some s.npoints ∧
        (∀ i, i ≠ s1.step → s1.buffernpoints[i]? = s.buffernpoints[i]?) ∧
        s1.steps = s.steps ∧ s1.buffernpoints.length = s.steps ∧ s1.step < s1.steps ∧
        s1 = { s with step := s1.step, buffernpoints := s1.buffernpoints }) ∧
    (∀ k, ∃ sk, update_ticks k s = .ok sk ∧ sk.step = (s.step + k) % s.steps ∧
      sk.step < sk.steps ∧ sk.steps = s.steps) ∧
    (∀ (t j : Nat) (st stj : vector_display R), update_ticks t s = .ok st →
      update_ticks (t + j) s = .ok stj → (stj.step = st.step ↔ s.steps ∣ j)) := by
  obtain ⟨hpos, hlen, hlt⟩ := hs
  have hw : (s.step + 1) % s.steps < s.buffernpoints.length := by
    rw [hlen]
    exact Nat.mod_lt _ (by omega)
  refine ⟨?_, ?_, ?_⟩
  · obtain ⟨calls, e1, -⟩ := update_spec s hpos hlen
    refine ⟨_, calls, e1, rfl, ?_, ?_, rfl, by simpa using hlen, Nat.mod_lt _ (by omega), rfl⟩
    · simp [hw]
    · intro i hi
      simp only []
      rw [List.getElem?_set_ne (Ne.symm hi)]
  · intro k
    obtain ⟨sk, ek, h1, h2, h3⟩ := update_ticks_spec k s ⟨hpos, hlen, hlt⟩
    exact ⟨sk, ek, h1, h3.2.2, h2⟩
  · intro t j st stj ht htj
    obtain ⟨s2, e2, h2, -⟩ := update_ticks_spec t s ⟨hpos, hlen, hlt⟩
    obtain ⟨s3, e3, h3, -⟩ := update_ticks_spec (t + j) s ⟨hpos, hlen, hlt⟩
    rw [ht] at e2
    rw [htj] at e3
    simp only [Except.ok.injEq] at e2 e3
    subst e2 e3
    rw [h2, h3, ← Nat.add_assoc]
    exact add_mod_eq_iff_dvd (s.step + t) j s.steps

/-- Witness for C12: a new display has a ring of 10 slots with the cursor at 0; the first
`update` moves the cursor to 1. -/
theorem update_advances_cursor_witness :
    ring_ok display_new ∧
      ∃ (s1 : vector_display ℚ) (calls : List (draw_call ℚ)),
        vector_display_update display_new = .ok (0, s1, calls) ∧ s1.step = 1 := by
  have h : ring_ok display_new := by decide
  obtain ⟨s1, calls, e1, hstep, -⟩ := (update_advances_cursor display_new h).1
  exact ⟨h, s1, calls, e1, hstep⟩

/-- C13: on a ring of `steps ≥ 1` slots the draw pass of `update` goes through the ages
`steps - 1, steps - 2, ..., 0` in that order, the slot of age `k` being the one at index
`(cursor - k) mod steps` for the new cursor; these indices are all the slots, each exactly
once.  It issues a draw call, carrying the slot's recorded vertex count, for exactly the
slots whose recorded count is non-zero. -/
theorem update_draws_oldest_first (s : vector_display R) (hpos : 1 ≤ s.steps)
    (hlen : s.buffernpoints.length = s.steps) :
    ∃ (s1 : vector_display R) (calls : List (draw_call R)),
      vector_display_update s = .ok (0, s1, calls) ∧
        calls = ((List.range s.steps).reverse).filterMap (fun k =>
          if s1.buffernpoints.getD ((s1.step + s.steps - k) % s.steps) 0 = 0 then none
          else some ⟨(s1.step + s.steps - k) % s.steps, update_alpha s k,
            s1.buffernpoints.getD ((s1.step + s.steps - k) % s.steps) 0⟩) ∧
        (((List.range s.steps).reverse).map (fun k => (s1.step + s.steps - k) % s.steps)).Perm
          (List.range s.steps) ∧
        (∀ k, k < s.steps →
          (((s1.step + s.steps - k) % s.steps : Nat) : Int) =
            ((s1.step : Int) - (k : Int)) % (s.steps : Int)) ∧
        (∀ c ∈ calls, c.count ≠ 0 ∧ s1.buffernpoints[c.slot]? = some c.count) ∧
        (∀ k, k < s.steps →
          s1.buffernpoints.getD ((s1.step + s.steps - k) % s.steps) 0 = 0 →
          ∀ c ∈ calls, c.slot ≠ (s1.step + s.steps - k) % s.steps) := by
  obtain ⟨calls, e1, hl⟩ := update_spec s hpos hlen
  have hl2 := update_draw_loop_by_age
    { s with step := (s.step + 1) % s.steps,
             buffernpoints := s.buffernpoints.set ((s.step + 1) % s.steps) s.npoints }
    (by simpa using hlen) (by simpa using hpos)
  rw [hl] at hl2
  simp only [Except.ok.injEq] at hl2
  have hmem : ∀ c ∈ calls, ∃ k, k < s.steps ∧
      c.slot = ((s.step + 1) % s.steps + s.steps - k) % s.steps ∧
      c.count = (s.buffernpoints.set ((s.step + 1) % s.steps) s.npoints).getD c.slot 0 ∧
      c.count ≠ 0 := by
    intro c hc
    rw [hl2] at hc
    obtain ⟨k, hk, hf⟩ := List.mem_filterMap.mp hc
    have hk1 := List.mem_range.mp (List.mem_reverse.mp hk)
    by_cases hz : (s.buffernpoints.set ((s.step + 1) % s.steps) s.npoints).getD
        (((s.step + 1) % s.steps + s.steps - k) % s.steps) 0 = 0
    · simp only [hz, if_true] at hf
      exact absurd hf (by simp)
    · simp only [hz, if_false, Option.some.injEq] at hf
      subst hf
      exact ⟨k, hk1, rfl, rfl, hz⟩
  refine ⟨_, calls, e1, hl2, slots_of_ages_perm _ _,
    fun k hk => slot_of_age_int _ _ k hk, ?_, ?_⟩
  · intro c hc
    obtain ⟨k, hk, hslot, hcount, hne⟩ := hmem c hc
    refine ⟨hne, ?_⟩
    have hlt : c.slot < (s.buffernpoints.set ((s.step + 1) % s.steps) s.npoints).length := by
      rw [hslot, List.length_set, hlen]
      exact Nat.mod_lt _ (by omega)
    simp only []
    rw [hcount, List.getD_eq_getElem?_getD, List.getElem?_eq_getElem hlt]
    rfl
  · intro k hk hz c hc hslot
    obtain ⟨k2, hk2, hslot2, hcount, hne⟩ := hmem c hc
    apply hne
    rw [hcount, hslot]
    exact hz

/-- Witness for C13: one `update` on `display_ring` (three slots holding 0, 0, 18, cursor at
slot 0, 24 committed vertices).  The cursor moves to slot 1, which records 24; the ages
2, 1, 0 are the slots 2, 0, 1: slot 2 is drawn first with its 18 vertices and alpha
`4/125`, the empty slot 0 is skipped, slot 1 is drawn last with its 24 vertices and
alpha 1. -/
theorem update_draws_oldest_first_witness :
    1 ≤ display_ring.steps ∧ display_ring.buffernpoints.length = display_ring.steps ∧
      ∃ (s1 : vector_display ℚ) (calls : List (draw_call ℚ)),
        vector_display_update display_ring = .ok (0, s1, calls) ∧
          s1.step = 1 ∧ s1.buffernpoints = [0, 24, 18] ∧
          calls = [⟨2, 4 / 125, 18⟩, ⟨1, 1, 24⟩] ∧
          (∀ c ∈ calls, c.count ≠ 0 ∧ s1.buffernpoints[c.slot]? = some c.count) ∧
          (∀ c ∈ calls, c.slot ≠ 0) := by
  obtain ⟨s1, calls, e1, hc, -, -, hcount, hskip⟩ :=
    update_draws_oldest_first display_ring (by decide) (by decide)
  have e2 : vector_display_update display_ring =
      .ok (0, { display_ring with step := 1, buffernpoints := [0, 24, 18] },
        [⟨2, update_alpha display_ring 2, 18⟩, ⟨1, update_alpha display_ring 0, 24⟩]) := rfl
  have e3 := e1
  rw [e2] at e3
  simp only [Except.ok.injEq, Prod.mk.injEq] at e3
  obtain ⟨-, hs1, -⟩ := e3
  have hstep : s1.step = 1 := by rw [← hs1]
  have hbuf : s1.buffernpoints = [0, 24, 18] := by rw [← hs1]
  have hsteps : display_ring.steps = 3 := rfl
  have ha2 : update_alpha display_ring 2 = 4 / 125 := by
    simp only [update_alpha, display_ring, display_new, vector_display_new, DEFAULT_DECAY,
      DEFAULT_INITIAL_DECAY]
    norm_num
  have ha0 : update_alpha display_ring 0 = 1 := rfl
  have hcalls : calls = [⟨2, 4 / 125, 18⟩, ⟨1, 1, 24⟩] := by
    rw [hc, hstep, hbuf, hsteps, ← ha2, ← ha0]
    rfl
  refine ⟨by decide, by decide, s1, calls, e1, hstep, hbuf, hcalls, hcount, ?_⟩
  have h0 := hskip 1 (by decide) (by rw [hstep, hbuf, hsteps]; rfl)
  rw [hstep, hsteps] at h0
  exact h0

/-- C15, counterexample: with the valid thickness `t = 1` the closed triangle
`(0,0), (10,0), (10,10), (0,0)` makes `end()` append, as its first vertex, the centre of the
wrap-around fan with texture coordinate `v = 21/4`, outside `[0, 1]`. -/
theorem fan_centre_texcoord_out_of_range :
    0 < display_thin_triangle.thickness ∧
      ∃ s1 : vector_display ℚ, vector_display_end_draw libm_x_axis display_thin_triangle =
          .ok (0, s1) ∧
        ((committed s1).head?).map point_t.v = some (21 / 4) ∧ ¬ ((21 / 4 : ℚ) ≤ 1) := by
  have hs : buffers_ok display_thin_triangle := by decide
  have ht : display_thin_triangle.thickness = 1 := by
    have h : ¬ ((1 : ℚ) ≤ 0) := by norm_num
    simp only [display_thin_triangle, vector_display_set_thickness, h, if_false]
  obtain ⟨s1, a1, e1⟩ := end_draw_spec libm_x_axis display_thin_triangle hs (by decide)
  have hP : pending_path display_thin_triangle =
      [(⟨0, 0⟩ : pending_point_t ℚ), ⟨10, 0⟩, ⟨10, 10⟩, ⟨0, 0⟩] := by
    have h : ¬ ((1 : ℚ) ≤ 0) := by norm_num
    simp only [display_thin_triangle, vector_display_set_thickness, h, if_false]
    rfl
  have hc : path_closed (pending_path display_thin_triangle) = true := by
    rw [hP]
    apply first_last_same_true <;> simp
  have hv := appended_head_v libm_x_axis display_thin_triangle.thickness
    (pending_path display_thin_triangle) display_thin_triangle display_thin_triangle s1
    (by rw [hP]; decide) rfl a1
  rw [hc, ht] at hv
  refine ⟨by rw [ht]; norm_num, { s1 with pending_npoints := 0 }, e1, ?_, by norm_num⟩
  rw [committed_pending_reset, hv]
  norm_num [TEXTURE_SIZE, HALF_TEXTURE_SIZE]

/-- C15, amended: for every thickness `t > 0`, every vertex appended by `draw()` has `u` and
`v` in `[0, 1]`; every vertex appended by `end()` has `u` in `[0, 1]` and `v ≥ 0`, and its
`v` is at most 1 unless it is a fan centre, whose `v` is `1/2 + 4.75 / t`; so all of them
have `v` in `[0, 1]` when `t ≥ 9.5`. -/
theorem texcoords_in_unit_range (m : Libm R) (s : vector_display R) (hs : buffers_ok s)
    (ht : 0 < s.thickness) :
    (∀ x0 y0 x1 y1 : R, ∃ (s1 : vector_display R) (vs : List (point_t R)),
      vector_display_draw m s x0 y0 x1 y1 = .ok (0, s1) ∧ committed s1 = committed s ++ vs ∧
        ∀ p ∈ vs, 0 ≤ p.u ∧ p.u ≤ 1 ∧ 0 ≤ p.v ∧ p.v ≤ 1) ∧
    ∃ (s1 : vector_display R) (vs : List (point_t R)),
      vector_display_end_draw m s = .ok (0, s1) ∧ committed s1 = committed s ++ vs ∧
        ∀ p ∈ vs, 0 ≤ p.u ∧ p.u ≤ 1 ∧ 0 ≤ p.v ∧
          (p.v ≤ 1 ∨ p.v = 1 / 2 + 19 / 4 / s.thickness) ∧
          (19 / 2 ≤ s.thickness → p.v ≤ 1) := by
  constructor
  · intro x0 y0 x1 y1
    obtain ⟨s1, e1, a1, -⟩ := draw_spec m s x0 y0 x1 y1 hs
    refine ⟨s1, _, e1, a1.2.2.2.2, ?_⟩
    intro p hp
    obtain ⟨c, hc, rfl⟩ := List.mem_map.mp hp
    obtain ⟨hu, hv⟩ := draw_calls_texcoords m s.thickness x0 y0 x1 y1 c hc
    have h1 := vertex_of_u s c hu
    have h2 := vertex_of_v s c (by rcases hv with h | h <;> simp [h])
    exact ⟨h1.1, h1.2, h2.1, h2.2⟩
  · obtain ⟨s1, a1, e1⟩ := end_draw_appended m s hs
    refine ⟨{ s1 with pending_npoints := 0 }, _, e1, a1.2.2.2.2, ?_⟩
    intro p hp
    obtain ⟨c, hc, rfl⟩ := List.mem_map.mp hp
    obtain ⟨hu, hv⟩ := end_calls_texcoords m s c hc
    have h1 := vertex_of_u s c hu
    rcases hv with h | h | h | h
    · have h2 := vertex_of_v s c (Or.inl h)
      exact ⟨h1.1, h1.2, h2.1, Or.inl h2.2, fun _ => h2.2⟩
    · have h2 := vertex_of_v s c (Or.inr (Or.inl h))
      exact ⟨h1.1, h1.2, h2.1, Or.inl h2.2, fun _ => h2.2⟩
    · have h2 := vertex_of_v s c (Or.inr (Or.inr h))
      exact ⟨h1.1, h1.2, h2.1, Or.inl h2.2, fun _ => h2.2⟩
    · obtain ⟨e, h0, hiff⟩ := vertex_of_v_centre s c s.thickness ht h
      exact ⟨h1.1, h1.2, h0, Or.inr e, fun h9 => hiff.mpr h9⟩

/-- Witness for the amended C15: the display holding the path `(0,0), (10,0), (10,10)` with
the default thickness 80. -/
theorem texcoords_in_unit_range_witness :
    buffers_ok display_corner ∧ 0 < display_corner.thickness ∧
      ∃ (s1 : vector_display ℚ) (vs : List (point_t ℚ)),
        vector_display_end_draw libm_x_axis display_corner = .ok (0, s1) ∧
          committed s1 = committed display_corner ++ vs ∧
          ∀ p ∈ vs, 0 ≤ p.u ∧ p.u ≤ 1 ∧ 0 ≤ p.v ∧ p.v ≤ 1 := by
  have hs : buffers_ok display_corner := by decide
  have ht : display_corner.thickness = 80 := rfl
  have h0 : 0 < display_corner.thickness := by
    rw [ht]
    norm_num
  obtain ⟨s1, vs, e1, c1, hp⟩ := (texcoords_in_unit_range libm_x_axis display_corner hs h0).2
  refine ⟨hs, h0, s1, vs, e1, c1, ?_⟩
  intro p hpm
  obtain ⟨u0, u1, v0, -, v1⟩ := hp p hpm
  exact ⟨u0, u1, v0, v1 (by rw [ht]; norm_num)⟩

/-- C17 (defect in the code): `end()` should treat the path as closed exactly when the first
and last points differ by less than 0.1 in both coordinates.  The test of the source applies
the integer `abs` of `<stdlib.h>` to the floating differences, so it holds exactly when both
differences are below 1 in absolute value: the path `(0,0), (10,0), (10,10), (0.5,0)`, whose
ends are 0.5 apart, is tessellated as closed (a fan on every segment, no cap). -/
theorem closed_test_truncates (m : Libm ℚ) :
    (∀ f l : pending_point_t ℚ,
      first_last_same f l = true ↔ |f.x - l.x| < 1 ∧ |f.y - l.y| < 1) ∧
    begin_draw_to display_new [⟨0, 0⟩, ⟨10, 0⟩, ⟨10, 10⟩, ⟨1 / 2, 0⟩] =
      .ok display_near_closed ∧
    ¬ (|(0 : ℚ) - 1 / 2| < 1 / 10) ∧
    path_closed (pending_path display_near_closed) = true ∧
    ∃ s1 : vector_display ℚ, vector_display_end_draw m display_near_closed =
        .ok (0, { s1 with pending_npoints := 0 }) ∧
      appended display_near_closed s1
        ((all_calls (tessellation m display_near_closed.thickness
          (pending_path display_near_closed))).map (vertex_of display_near_closed)) ∧
      ∀ (j : Nat) (seg : segment_calls ℚ),
        (tessellation m display_near_closed.thickness
          (pending_path display_near_closed))[j]? = some seg →
        seg.corner.length = 12 ∧ seg.line.length = 6 ∧ seg.endcap = [] ∧ seg.startcap = [] := by
  have hs : buffers_ok display_near_closed := by decide
  have hP : pending_path display_near_closed =
      [(⟨0, 0⟩ : pending_point_t ℚ), ⟨10, 0⟩, ⟨10, 10⟩, ⟨1 / 2, 0⟩] := rfl
  have hc : path_closed (pending_path display_near_closed) = true := by
    rw [hP]
    unfold path_closed
    rw [first_last_same_iff]
    simp only [List.getD_eq_getElem?_getD, List.length_cons, List.length_nil]
    norm_num
    rw [abs_lt]
    constructor <;> norm_num
  obtain ⟨s1, e1, a1, -, g1, -⟩ := end_draw_closed m display_near_closed hs (by decide) hc
  refine ⟨first_last_same_iff, by rfl, ?_, hc, s1, e1, a1, g1⟩
  rw [abs_lt]
  norm_num

/-- C18: under the real `<math.h>`, for every thickness `t > 0` and every segment with
`(x0,y0) ≠ (x1,y1)`, `draw(x0,y0,x1,y1)` appends vertices of which the first two are the
centres `(x1,y1)` and `(x0,y0)` (moved by 0.5), and the body edge vertices, those at
positions 2, 3, 5, 8, 10 and 11 (the left and right offsets of both endpoints), each lie at
perpendicular distance exactly `t` from the line through the two centres. -/
theorem draw_edges_at_thickness (m : Libm ℝ) (hm : is_real_libm m) (s : vector_display ℝ)
    (x0 y0 x1 y1 : ℝ) (hs : buffers_ok s) (ht : 0 < s.thickness)
    (hne : (x0, y0) ≠ (x1, y1)) :
    ∃ (s1 : vector_display ℝ) (vs : List (point_t ℝ)) (c1 c0 : point_t ℝ),
      vector_display_draw m s x0 y0 x1 y1 = .ok (0, s1) ∧
        committed s1 = committed s ++ vs ∧
        vs[0]? = some c1 ∧ vs[1]? = some c0 ∧
        c0.x = x0 + 1 / 2 ∧ c0.y = y0 + 1 / 2 ∧ c1.x = x1 + 1 / 2 ∧ c1.y = y1 + 1 / 2 ∧
        ∀ i ∈ [2, 3, 5, 8, 10, 11], ∃ p, vs[i]? = some p ∧ at_distance p c0 c1 s.thickness := by
  obtain ⟨s1, e1, a1, -⟩ := draw_spec m s x0 y0 x1 y1 hs
  have hd : ¬ (x1 - x0 = 0 ∧ y1 - y0 = 0) := by
    rintro ⟨h1, h2⟩
    apply hne
    have e1 : x0 = x1 := by linarith
    have e2 : y0 = y1 := by linarith
    rw [e1, e2]
  have key := fun (u v e σ : ℝ) (hσ : σ = 1 ∨ σ = -1) =>
    offset_vertex_at_distance m hm s s.thickness x0 y0 x1 y1 u v HALF_TEXTURE_SIZE
      HALF_TEXTURE_SIZE HALF_TEXTURE_SIZE HALF_TEXTURE_SIZE e σ ht hd hσ
  refine ⟨s1, _, vertex_of s ⟨x1, y1, HALF_TEXTURE_SIZE, HALF_TEXTURE_SIZE⟩,
    vertex_of s ⟨x0, y0, HALF_TEXTURE_SIZE, HALF_TEXTURE_SIZE⟩, e1, a1.2.2.2.2, rfl, rfl,
    rfl, rfl, rfl, rfl, ?_⟩
  intro i hi
  simp only [List.mem_cons, List.mem_singleton, List.not_mem_nil, or_false] at hi
  rcases hi with rfl | rfl | rfl | rfl | rfl | rfl
  · refine ⟨_, rfl, ?_⟩
    have h := key 0 HALF_TEXTURE_SIZE 1 1 (Or.inl rfl)
    have ex : x0 + 1 * (x1 - x0) + 1 * (s.thickness * m.sin (m.atan2 (y1 - y0) (x1 - x0))) =
        x1 + s.thickness * m.sin (m.atan2 (y1 - y0) (x1 - x0)) := by ring
    have ey : y0 + 1 * (y1 - y0) - 1 * (s.thickness * m.cos (m.atan2 (y1 - y0) (x1 - x0))) =
        y1 - s.thickness * m.cos (m.atan2 (y1 - y0) (x1 - x0)) := by ring
    rw [ex, ey] at h
    exact h
  · refine ⟨_, rfl, ?_⟩
    have h := key 0 HALF_TEXTURE_SIZE 0 1 (Or.inl rfl)
    have ex : x0 + 0 * (x1 - x0) + 1 * (s.thickness * m.sin (m.atan2 (y1 - y0) (x1 - x0))) =
        x0 + s.thickness * m.sin (m.atan2 (y1 - y0) (x1 - x0)) := by ring
    have ey : y0 + 0 * (y1 - y0) - 1 * (s.thickness * m.cos (m.atan2 (y1 - y0) (x1 - x0))) =
        y0 - s.thickness * m.cos (m.atan2 (y1 - y0) (x1 - x0)) := by ring
    rw [ex, ey] at h
    exact h
  · refine ⟨_, rfl, ?_⟩
    have h := key 0 HALF_TEXTURE_SIZE 1 1 (Or.inl rfl)
    have ex : x0 + 1 * (x1 - x0) + 1 * (s.thickness * m.sin (m.atan2 (y1 - y0) (x1 - x0))) =
        x1 + s.thickness * m.sin (m.atan2 (y1 - y0) (x1 - x0)) := by ring
    have ey : y0 + 1 * (y1 - y0) - 1 * (s.thickness * m.cos (m.atan2 (y1 - y0) (x1 - x0))) =
        y1 - s.thickness * m.cos (m.atan2 (y1 - y0) (x1 - x0)) := by ring
    rw [ex, ey] at h
    exact h
  · refine ⟨_, rfl, ?_⟩
    have h := key TEXTURE_SIZE HALF_TEXTURE_SIZE 1 (-1) (Or.inr rfl)
    have ex : x0 + 1 * (x1 - x0) + -1 * (s.thickness * m.sin (m.atan2 (y1 - y0) (x1 - x0))) =
        x1 - s.thickness * m.sin (m.atan2 (y1 - y0) (x1 - x0)) := by ring
    have ey : y0 + 1 * (y1 - y0) - -1 * (s.thickness * m.cos (m.atan2 (y1 - y0) (x1 - x0))) =
        y1 + s.thickness * m.cos (m.atan2 (y1 - y0) (x1 - x0)) := by ring
    rw [ex, ey] at h
    exact h
  · refine ⟨_, rfl, ?_⟩
    have h := key TEXTURE_SIZE HALF_TEXTURE_SIZE 1 (-1) (Or.inr rfl)
    have ex : x0 + 1 * (x1 - x0) + -1 * (s.thickness * m.sin (m.atan2 (y1 - y0) (x1 - x0))) =
        x1 - s.thickness * m.sin (m.atan2 (y1 - y0) (x1 - x0)) := by ring
    have ey : y0 + 1 * (y1 - y0) - -1 * (s.thickness * m.cos (m.atan2 (y1 - y0) (x1 - x0))) =
        y1 + s.thickness * m.cos (m.atan2 (y1 - y0) (x1 - x0)) := by ring
    rw [ex, ey] at h
    exact h
  · refine ⟨_, rfl, ?_⟩
    have h := key TEXTURE_SIZE HALF_TEXTURE_SIZE 0 (-1) (Or.inr rfl)
    have ex : x0 + 0 * (x1 - x0) + -1 * (s.thickness * m.sin (m.atan2 (y1 - y0) (x1 - x0))) =
        x0 - s.thickness * m.sin (m.atan2 (y1 - y0) (x1 - x0)) := by ring
    have ey : y0 + 0 * (y1 - y0) - -1 * (s.thickness * m.cos (m.atan2 (y1 - y0) (x1 - x0))) =
        y0 + s.thickness * m.cos (m.atan2 (y1 - y0) (x1 - x0)) := by ring
    rw [ex, ey] at h
    exact h

/-- Witness for C18: the segment `(0,0) → (10,0)` drawn with the default thickness 80 on a
new display, under the real `<math.h>`. -/
theorem draw_edges_at_thickness_witness :
    ∃ m : Libm ℝ, is_real_libm m ∧ buffers_ok (vector_display_new (100 : ℝ) 100) ∧
      0 < (vector_display_new (100 : ℝ) 100).thickness ∧ ((0 : ℝ), (0 : ℝ)) ≠ (10, 0) ∧
      ∃ (s1 : vector_display ℝ) (vs : List (point_t ℝ)) (c1 c0 p : point_t ℝ),
        vector_display_draw m (vector_display_new (100 : ℝ) 100) 0 0 10 0 = .ok (0, s1) ∧
          vs[0]? = some c1 ∧ vs[1]? = some c0 ∧ vs[2]? = some p ∧
          at_distance p c0 c1 (vector_display_new (100 : ℝ) 100).thickness := by
  obtain ⟨m, hm⟩ := exists_real_libm
  have hs : buffers_ok (vector_display_new (100 : ℝ) 100) := by
    simp [buffers_ok, vector_display_new]
  have ht : 0 < (vector_display_new (100 : ℝ) 100).thickness := by
    simp only [vector_display_new, DEFAULT_THICKNESS]
    norm_num
  have hne : ((0 : ℝ), (0 : ℝ)) ≠ (10, 0) := by
    intro h
    have := congrArg Prod.fst h
    norm_num at this
  obtain ⟨s1, vs, c1, c0, e1, -, h0, h1, -, -, -, -, hall⟩ :=
    draw_edges_at_thickness m hm (vector_display_new (100 : ℝ) 100) 0 0 10 0 hs ht hne
  obtain ⟨p, hp, hd⟩ := hall 2 (by simp)
  exact ⟨m, hm, hs, ht, hne, s1, vs, c1, c0, p, e1, h0, h1, hp, hd⟩

/-- C20 (defect in the code): each fan midpoint should get `π` added exactly when it differs
from its neighbour by more than `π/2`.  The tests of the source apply the integer `abs` of
`<stdlib.h>` to the floating difference, so under the real `<math.h>` `π` is added exactly
when the difference is at least 2 in absolute value.  At the joint `(0,0)` of the path
`(10,10), (0,0), (10,0)` the angles are `pa = 5π/4` and `a = 0`; the midpoint `5π/8` differs
from `a` by more than `π/2` and is left without the `π`. -/
theorem fan_midpoint_test_truncates :
    ∃ m : Libm ℝ, is_real_libm m ∧
      (∀ a pa : ℝ,
        (fan_angles m a pa).2.1 =
          (if 2 ≤ |(a + pa) / 2 - a| then (a + pa) / 2 + Real.pi else (a + pa) / 2) ∧
        (fan_angles m a pa).1 =
          (if 2 ≤ |((fan_angles m a pa).2.1 + pa) / 2 - (fan_angles m a pa).2.1| then
            ((fan_angles m a pa).2.1 + pa) / 2 + Real.pi
          else ((fan_angles m a pa).2.1 + pa) / 2) ∧
        (fan_angles m a pa).2.2 =
          (if 2 ≤ |((fan_angles m a pa).2.1 + a) / 2 - (fan_angles m a pa).2.1| then
            ((fan_angles m a pa).2.1 + a) / 2 + Real.pi
          else ((fan_angles m a pa).2.1 + a) / 2)) ∧
      joint_angles m ⟨10, 10⟩ ⟨0, 0⟩ ⟨10, 0⟩ = (5 * Real.pi / 4, 0) ∧
      |(0 + 5 * Real.pi / 4) / 2 - 0| > Real.pi / 2 ∧
      (fan_angles m 0 (5 * Real.pi / 4)).2.1 = (0 + 5 * Real.pi / 4) / 2 := by
  obtain ⟨m, hm⟩ := exists_real_libm
  obtain ⟨h2, h4⟩ := real_libm_pi_bounds m hm
  have hlaw := fan_angles_law m h2 h4
  rw [hm.1] at hlaw
  have hpos : 0 < (0 + 5 * Real.pi / 4) / 2 - 0 := by linarith [Real.pi_pos]
  refine ⟨m, hm, hlaw, joint_angles_diag m hm, ?_, ?_⟩
  · rw [abs_of_pos hpos]
    linarith [Real.pi_pos]
  · rw [(hlaw 0 (5 * Real.pi / 4)).1]
    have hn : ¬ (2 ≤ |(0 + 5 * Real.pi / 4) / 2 - 0|) := by
      rw [abs_of_pos hpos]
      linarith [Real.pi_lt_d2]
    rw [if_neg hn]

/-- C25: `set_decay` and `set_initial_decay` accept exactly the values in `[0, 1)`; for a
display whose decay and initial decay lie in `[0, 1)` the alpha of the decay law lies in
`[0, 1]` at every age `k ≥ 0` and is non-increasing in `k`: `alpha(k + 1) ≤ alpha(k)`. -/
theorem decay_law_bounded_monotone (s : vector_display R) (d i : R) :
    ((vector_display_set_decay s d).1 = 0 ↔ (0 ≤ d ∧ d < 1)) ∧
    ((vector_display_set_initial_decay s i).1 = 0 ↔ (0 ≤ i ∧ i < 1)) ∧
    (0 ≤ s.decay → s.decay < 1 → 0 ≤ s.initial_decay → s.initial_decay < 1 →
      ∀ k : Nat, 0 ≤ update_alpha s k ∧ update_alpha s k ≤ 1 ∧
        update_alpha s (k + 1) ≤ update_alpha s k) := by
  refine ⟨?_, ?_, fun h1 h2 h3 h4 k => update_alpha_bounds s h1 h2 h3 h4 k⟩
  · by_cases h : d < 0 ∨ d ≥ 1
    · simp only [vector_display_set_decay, h, if_true]
      constructor
      · intro hc
        exact absurd hc (by decide)
      · rintro ⟨h0, h1⟩
        rcases h with h | h
        · exact absurd h0 (not_le.mpr h)
        · exact absurd h1 (not_lt.mpr h)
    · simp only [vector_display_set_decay, h, if_false, true_iff]
      push_neg at h
      exact h
  · by_cases h : i < 0 ∨ i ≥ 1
    · simp only [vector_display_set_initial_decay, h, if_true]
      constructor
      · intro hc
        exact absurd hc (by decide)
      · rintro ⟨h0, h1⟩
        rcases h with h | h
        · exact absurd h0 (not_le.mpr h)
        · exact absurd h1 (not_lt.mpr h)
    · simp only [vector_display_set_initial_decay, h, if_false, true_iff]
      push_neg at h
      exact h

/-- Witness for C25: a new display has decay 0.8 and initial decay 0.04; the alphas of the
ages 2 and 3 are in `[0, 1]` and do not increase. -/
theorem decay_law_bounded_monotone_witness :
    0 ≤ display_new.decay ∧ display_new.decay < 1 ∧ 0 ≤ display_new.initial_decay ∧
      display_new.initial_decay < 1 ∧ 0 ≤ update_alpha display_new 2 ∧
      update_alpha display_new 2 ≤ 1 ∧ update_alpha display_new 3 ≤ update_alpha display_new 2 := by
  have hd : display_new.decay = 8 / 10 := rfl
  have hi : display_new.initial_decay = 4 / 100 := rfl
  have h1 : 0 ≤ display_new.decay := by rw [hd]; norm_num
  have h2 : display_new.decay < 1 := by rw [hd]; norm_num
  have h3 : 0 ≤ display_new.initial_decay := by rw [hi]; norm_num
  have h4 : display_new.initial_decay < 1 := by rw [hi]; norm_num
  exact ⟨h1, h2, h3, h4, (decay_law_bounded_monotone display_new 0 0).2.2 h1 h2 h3 h4 2⟩

/-- C24: for a consistent display with a pending path of `n ≥ 2` points and every segment
index `i` with `1 ≤ i ≤ n - 1`, the four pending-point indices read by `end()` (the previous
segment's start `n - 2` when `i = 1` and `i - 2` otherwise, `i - 1`, `i`, and the next
segment's end `i + 1` when `i + 1 ≠ n` and `1` otherwise) are all below `n`; the four reads
succeed and return points of the pending path, and the iteration completes. -/
theorem end_draw_reads_in_bounds (m : Libm R) (t : R) (fls : Bool) (s : vector_display R)
    (i : Nat) (hs : buffers_ok s) (hn : 2 ≤ s.pending_npoints) (hi1 : 1 ≤ i)
    (hi2 : i < s.pending_npoints) :
    ((if i = 1 then s.pending_npoints - 2 else i - 2) < s.pending_npoints ∧
      i - 1 < s.pending_npoints ∧ i < s.pending_npoints ∧
      (if i + 1 ≠ s.pending_npoints then i + 1 else 1) < s.pending_npoints) ∧
    (rd s.pending_points (if i = 1 then s.pending_npoints - 2 else i - 2) =
        .ok ((pending_path s).getD (if i = 1 then s.pending_npoints - 2 else i - 2)
          pending_zero) ∧
      rd s.pending_points (i - 1) = .ok ((pending_path s).getD (i - 1) pending_zero) ∧
      rd s.pending_points i = .ok ((pending_path s).getD i pending_zero) ∧
      rd s.pending_points (if i + 1 ≠ s.pending_npoints then i + 1 else 1) =
        .ok ((pending_path s).getD (if i + 1 ≠ s.pending_npoints then i + 1 else 1)
          pending_zero)) ∧
    ∃ s1, end_draw_segment m t fls s i = .ok s1 := by
  obtain ⟨h1, h2, h3, h4, h5, -⟩ := hs
  have hlen : s.pending_npoints ≤ s.pending_points.length := by omega
  have b1 : (if i = 1 then s.pending_npoints - 2 else i - 2) < s.pending_npoints := by
    split <;> omega
  have b4 : (if i + 1 ≠ s.pending_npoints then i + 1 else 1) < s.pending_npoints := by
    split <;> omega
  refine ⟨⟨b1, by omega, hi2, b4⟩, ⟨?_, ?_, ?_, ?_⟩, ?_⟩
  · exact rd_take s.pending_points s.pending_npoints _ pending_zero b1 hlen
  · exact rd_take s.pending_points s.pending_npoints _ pending_zero (by omega) hlen
  · exact rd_take s.pending_points s.pending_npoints _ pending_zero hi2 hlen
  · exact rd_take s.pending_points s.pending_npoints _ pending_zero b4 hlen
  · rw [end_draw_segment_eq m t fls s i hlen hn hi1 hi2]
    obtain ⟨s1, e1, -⟩ := append_texpoints_spec
      (segment_of_path m t fls (pending_path s) i).all s h1 h2 (by omega)
    exact ⟨s1, e1⟩

/-- Witness for C24: segment 1 and segment 2 of the pending path `(0,0), (10,0), (10,10)`. -/
theorem end_draw_reads_in_bounds_witness :
    buffers_ok display_corner ∧ 2 ≤ display_corner.pending_npoints ∧
      rd display_corner.pending_points 1 = .ok ⟨10, 0⟩ ∧
      (∃ s1 : vector_display ℚ,
        end_draw_segment libm_x_axis 80 false display_corner 1 = .ok s1) ∧
      ∃ s1 : vector_display ℚ,
        end_draw_segment libm_x_axis 80 false display_corner 2 = .ok s1 := by
  have hs : buffers_ok display_corner := by decide
  exact ⟨hs, by decide, by rfl,
    (end_draw_reads_in_bounds libm_x_axis 80 false display_corner 1 hs (by decide)
      (by decide) (by decide)).2.2,
    (end_draw_reads_in_bounds libm_x_axis 80 false display_corner 2 hs (by decide)
      (by decide) (by decide)).2.2⟩

/-- C21, counterexample: the direction angle `a` of the current segment is not moved into
`[0, 2π)`.  For every libm the second component of `joint_angles` is the bare `atan2`, and
it is this value that enters the shortening and the fan of `segment_geometry`.  With the
exact `atan2`, at the joint `(10,0)` of the path `(0,0), (10,0), (10,-10)` the current
angle is `-π/2`, outside `[0, 2π)`; the joint difference is `-π/2` and the fan midpoint
`-π/4`.  One joint later, on `(10,0), (10,-10), (20,-10)`, the same downward segment is the
previous one and its angle is `3π/2`, inside `[0, 2π)`. -/
theorem current_angle_not_normalised :
    (∀ (m : Libm ℝ) (pp p0 p1 : pending_point_t ℝ),
        (joint_angles m pp p0 p1).2 = m.atan2 (p1.y - p0.y) (p1.x - p0.x)) ∧
      (∀ (m : Libm ℝ) (t : ℝ) (hn : Bool) (pp p0 p1 pn : pending_point_t ℝ),
        (segment_geometry m t true hn pp p0 p1 pn).corner =
          corner_calls m t 8
            (p0.x + shorten_of m 8
                ((joint_angles m pp p0 p1).2 - (joint_angles m pp p0 p1).1) *
                m.cos (joint_angles m pp p0 p1).2 - 8 * m.sin (joint_angles m pp p0 p1).2)
            (p0.y + shorten_of m 8
                ((joint_angles m pp p0 p1).2 - (joint_angles m pp p0 p1).1) *
                m.sin (joint_angles m pp p0 p1).2 + 8 * m.cos (joint_angles m pp p0 p1).2)
            (t + 8) (joint_angles m pp p0 p1).1
            (fan_angles m (joint_angles m pp p0 p1).2 (joint_angles m pp p0 p1).1).1
            (fan_angles m (joint_angles m pp p0 p1).2 (joint_angles m pp p0 p1).1).2.1
            (fan_angles m (joint_angles m pp p0 p1).2 (joint_angles m pp p0 p1).1).2.2
            (joint_angles m pp p0 p1).2) ∧
      ∃ m : Libm ℝ, is_real_libm m ∧
        joint_angles m ⟨0, 0⟩ ⟨10, 0⟩ ⟨10, -10⟩ = (0, -(Real.pi / 2)) ∧
        ¬ (0 ≤ (joint_angles m ⟨0, 0⟩ ⟨10, 0⟩ ⟨10, -10⟩).2) ∧
        (joint_angles m ⟨0, 0⟩ ⟨10, 0⟩ ⟨10, -10⟩).2 -
          (joint_angles m ⟨0, 0⟩ ⟨10, 0⟩ ⟨10, -10⟩).1 = -(Real.pi / 2) ∧
        (fan_angles m (joint_angles m ⟨0, 0⟩ ⟨10, 0⟩ ⟨10, -10⟩).2
          (joint_angles m ⟨0, 0⟩ ⟨10, 0⟩ ⟨10, -10⟩).1).2.1 = -(Real.pi / 4) ∧
        joint_angles m ⟨10, 0⟩ ⟨10, -10⟩ ⟨20, -10⟩ = (3 * Real.pi / 2, 0) ∧
        0 ≤ (joint_angles m ⟨10, 0⟩ ⟨10, -10⟩ ⟨20, -10⟩).1 ∧
        (joint_angles m ⟨10, 0⟩ ⟨10, -10⟩ ⟨20, -10⟩).1 < 2 * m.M_PI := by
  refine ⟨fun m pp p0 p1 => rfl, fun m t hn pp p0 p1 pn =>
    segment_geometry_corner m t hn pp p0 p1 pn, ?_⟩
  obtain ⟨m, hm⟩ := exists_real_libm
  have hj := joint_angles_down m hm
  have hk := joint_angles_after_down m hm
  have hb := real_libm_pi_bounds m hm
  have hpi : m.M_PI = Real.pi := hm.1
  have hp := Real.pi_pos
  have h3 := Real.pi_lt_d2
  refine ⟨m, hm, hj, ?_, ?_, ?_, hk, ?_, ?_⟩
  · rw [hj]
    show ¬ (0 ≤ -(Real.pi / 2))
    linarith
  · rw [hj]
    show -(Real.pi / 2) - 0 = -(Real.pi / 2)
    ring
  · rw [hj, (fan_angles_law m hb.1 hb.2 _ _).1]
    have e : (-(Real.pi / 2) + 0) / 2 - -(Real.pi / 2) = Real.pi / 4 := by ring
    have hlt : ¬ (2 ≤ |Real.pi / 4|) := by
      rw [abs_of_pos (by linarith)]
      linarith
    show (if 2 ≤ |(-(Real.pi / 2) + 0) / 2 - -(Real.pi / 2)| then _ else _) = _
    rw [e, if_neg hlt]
    ring
  · rw [hk]
    show 0 ≤ 3 * Real.pi / 2
    linarith
  · rw [hk, hpi]
    show 3 * Real.pi / 2 < 2 * Real.pi
    linarith

/-- C22: `set_steps` accepts the ring size 0 (it returns 0 and leaves a ring of no slots),
and the `update` that follows takes the cursor modulo 0: the tick is not defined.  For the
sizes `1 ≤ n ≤ 300` the tick after `set_steps(n)` returns 0, the cursor it writes at is
`1 mod n`, and the written slot and all drawn slots lie in `[0, n)`. -/
theorem update_after_set_steps (s : vector_display R) :
    (vector_display_set_steps s 0).1 = 0 ∧
      (vector_display_set_steps s 0).2.steps = 0 ∧
      (vector_display_set_steps s 0).2.buffernpoints = [] ∧
      vector_display_update (vector_display_set_steps s 0).2 = .error Fault.div_by_zero ∧
      (∀ n : Int, 1 ≤ n → n ≤ 300 →
        (vector_display_set_steps s n).1 = 0 ∧
        ((vector_display_set_steps s n).2.steps : Int) = n ∧
        ∃ (s1 : vector_display R) (calls : List (draw_call R)),
          vector_display_update (vector_display_set_steps s n).2 = .ok (0, s1, calls) ∧
            (s1.step : Int) = 1 % n ∧ (s1.step : Int) < n ∧
            ∀ c ∈ calls, (c.slot : Int) < n) := by
  refine ⟨rfl, rfl, rfl, rfl, ?_⟩
  intro n h1 h300
  rw [set_steps_accepts s n (by omega) h300]
  have hn : ((n.toNat : Nat) : Int) = n := Int.toNat_of_nonneg (by omega)
  obtain ⟨s1, calls, e1, hstep, hlt, hc⟩ := update_slots_in_range
    { s with step := 0, steps := n.toNat, buffernpoints := List.replicate n.toNat 0 }
    (by show 1 ≤ n.toNat; omega) (by simp)
  refine ⟨rfl, hn, s1, calls, e1, ?_, ?_, ?_⟩
  · rw [hstep]
    show (((0 + 1) % n.toNat : Nat) : Int) = 1 % n
    rw [Nat.zero_add, Int.natCast_mod, hn]
    rfl
  · have : s1.step < n.toNat := hlt
    omega
  · intro c hcm
    have : c.slot < n.toNat := hc c hcm
    omega

/-- C22, at concrete sizes: after `new(); set_steps(0)` the tick is undefined, and after
`new(); set_steps(3)` it returns with the cursor at slot 1. -/
theorem update_after_set_steps_witness :
    vector_display_update (vector_display_set_steps display_new 0).2 =
        .error Fault.div_by_zero ∧
      (1 : Int) ≤ 3 ∧ (3 : Int) ≤ 300 ∧
      ∃ (s1 : vector_display ℚ) (calls : List (draw_call ℚ)),
        vector_display_update (vector_display_set_steps display_new 3).2 = .ok (0, s1, calls) ∧
          (s1.step : Int) = 1 % 3 := by
  have h := update_after_set_steps display_new
  obtain ⟨-, -, s1, calls, e1, hstep, -⟩ := h.2.2.2.2 3 (by decide) (by decide)
  exact ⟨h.2.2.2.1, by decide, by decide, s1, calls, e1, hstep⟩

/-- C23: in every state reached from `new(w, h)` by a sequence of public calls (the setters,
`clear`, `begin_draw`, `draw_to`, `end_draw`, `draw`, `update`) that all return, the
committed vertex count is a multiple of 3 and the blocks are consistent.  From such a state
every call that returns leaves the count `npoints_after` gives, again a multiple of 3:
`clear` returns and leaves 0, `draw` returns and adds 24, `end_draw` returns and adds
nothing for a pending path of fewer than two points and `18 * (n - 1)` for one of `n ≥ 2`
points, closed or not; every other call leaves the count. -/
theorem committed_count_whole_triangles (m : Libm R) (w h : R) (cs : List (public_call R))
    (s : vector_display R) (hr : run_calls m (vector_display_new w h) cs = .ok s) :
    3 ∣ s.npoints ∧ buffers_ok s ∧
      (∀ (c : public_call R) (s1 : vector_display R), run_call m s c = .ok s1 →
        s1.npoints = npoints_after s c ∧ 3 ∣ s1.npoints) ∧
      (vector_display_clear s).1 = 0 ∧ (vector_display_clear s).2.npoints = 0 ∧
      (∀ x0 y0 x1 y1 : R, ∃ s1 : vector_display R,
        vector_display_draw m s x0 y0 x1 y1 = .ok (0, s1) ∧ s1.npoints = s.npoints + 24) ∧
      (∃ s1 : vector_display R, vector_display_end_draw m s = .ok (0, s1) ∧
        s1.npoints = s.npoints +
          (if s.pending_npoints < 2 then 0 else 18 * (s.pending_npoints - 1)) ∧
        (2 ≤ s.pending_npoints →
          s1.npoints = s.npoints + 18 * ((pending_path s).length - 1))) := by
  have h0 : (3 : Nat) ∣ (vector_display_new w h).npoints := Nat.dvd_zero 3
  obtain ⟨hs, h3⟩ := run_calls_inv m cs _ s (buffers_ok_new w h) h0 hr
  refine ⟨h3, hs, ?_, rfl, rfl, ?_, ?_⟩
  · intro c s1 hc
    have hn := (run_call_frame m s s1 c hs hc).2
    exact ⟨hn, by rw [hn]; exact npoints_after_dvd s c h3⟩
  · intro x0 y0 x1 y1
    obtain ⟨s2, e2, a2, l2⟩ := draw_spec m s x0 y0 x1 y1 hs
    have hn := (appended_frame a2).2.2.2.2.2
    rw [List.length_map, l2] at hn
    exact ⟨s2, e2, hn⟩
  · obtain ⟨s2, a2, e2⟩ := end_draw_appended m s hs
    have hn := (appended_frame a2).2.2.2.2.2
    rw [List.length_map, end_calls_length m s hs] at hn
    refine ⟨_, e2, hn, ?_⟩
    intro h2
    have hlt : ¬ s.pending_npoints < 2 := by omega
    rw [if_neg hlt] at hn
    rw [pending_path_length s hs]
    exact hn

/-- C23 on the run `new(100,100); begin(0,0); draw_to(10,0); draw_to(10,10); end()`: the run
returns and leaves 36 committed vertices. -/
theorem committed_count_whole_triangles_witness :
    ∃ s : vector_display ℚ,
      run_calls libm_x_axis (vector_display_new 100 100)
        [.begin_draw 0 0, .draw_to 10 0, .draw_to 10 10, .end_draw] = .ok s ∧
      3 ∣ s.npoints ∧ s.npoints = 36 := by
  have hs : buffers_ok display_corner := by decide
  obtain ⟨s2, a2, e2⟩ := end_draw_appended libm_x_axis display_corner hs
  have hn := (appended_frame a2).2.2.2.2.2
  rw [List.length_map, end_calls_length libm_x_axis display_corner hs] at hn
  have hrun : run_calls libm_x_axis (vector_display_new 100 100)
      [.begin_draw 0 0, .draw_to 10 0, .draw_to 10 10, .end_draw] =
      .ok { s2 with pending_npoints := 0 } := by
    have h3 : run_calls libm_x_axis (vector_display_new (100 : ℚ) 100)
        [.begin_draw 0 0, .draw_to 10 0, .draw_to 10 10] = .ok display_corner := rfl
    have h4 := run_calls_append libm_x_axis _ [public_call.end_draw] _ _ h3
    rw [List.cons_append, List.cons_append, List.cons_append, List.nil_append] at h4
    rw [h4]
    simp only [run_calls, run_call, e2]
  exact ⟨_, hrun,
    (committed_count_whole_triangles libm_x_axis 100 100 _ _ hrun).1, hn⟩

/-- C21, amended: for every segment `i` processed by `end()`, the direction angle `a` of the
current segment that enters the joint difference `a - pa` and the fan midpoint
`(a + pa) / 2` is `atan2(dy, dx)` as `atan2` returns it, in `[-π, π]` (under the real
`<math.h>` even in `(-π, π]`), without a move into `[0, 2π)`; only the previous segment's
angle `pa` is moved into `[0, 2π)`.  The calls of segment `i` are those of `segment_geometry` on the four points
read for it, and its corner fan is built from exactly these two angles. -/
theorem current_angle_as_atan2_returns (m : Libm ℝ) (hm : is_real_libm m) (t : ℝ)
    (fls hn : Bool) (P : List (pending_point_t ℝ)) (i : Nat) (pp p0 p1 pn : pending_point_t ℝ) :
    segment_of_path m t fls P i =
        segment_geometry m t (!(decide (i = 1)) || (decide (i = 1) && fls))
          (!(decide (i = P.length - 1)) || (decide (i = P.length - 1) && fls))
          (P.getD (if i = 1 then P.length - 2 else i - 2) pending_zero)
          (P.getD (i - 1) pending_zero) (P.getD i pending_zero)
          (P.getD (if i + 1 ≠ P.length then i + 1 else 1) pending_zero) ∧
      (joint_angles m pp p0 p1).2 = m.atan2 (p1.y - p0.y) (p1.x - p0.x) ∧
      -Real.pi < (joint_angles m pp p0 p1).2 ∧ (joint_angles m pp p0 p1).2 ≤ Real.pi ∧
      0 ≤ (joint_angles m pp p0 p1).1 ∧ (joint_angles m pp p0 p1).1 < 2 * Real.pi ∧
      ((joint_angles m pp p0 p1).1 = m.atan2 (p0.y - pp.y) (p0.x - pp.x) ∨
        (joint_angles m pp p0 p1).1 = m.atan2 (p0.y - pp.y) (p0.x - pp.x) + 2 * Real.pi) ∧
      (segment_geometry m t true hn pp p0 p1 pn).corner =
        corner_calls m t 8
          (p0.x + shorten_of m 8
              ((joint_angles m pp p0 p1).2 - (joint_angles m pp p0 p1).1) *
              m.cos (joint_angles m pp p0 p1).2 - 8 * m.sin (joint_angles m pp p0 p1).2)
          (p0.y + shorten_of m 8
              ((joint_angles m pp p0 p1).2 - (joint_angles m pp p0 p1).1) *
              m.sin (joint_angles m pp p0 p1).2 + 8 * m.cos (joint_angles m pp p0 p1).2)
          (t + 8) (joint_angles m pp p0 p1).1
          (fan_angles m (joint_angles m pp p0 p1).2 (joint_angles m pp p0 p1).1).1
          (fan_angles m (joint_angles m pp p0 p1).2 (joint_angles m pp p0 p1).1).2.1
          (fan_angles m (joint_angles m pp p0 p1).2 (joint_angles m pp p0 p1).1).2.2
          (joint_angles m pp p0 p1).2 := by
  obtain ⟨hpi, hat, -, -⟩ := hm
  have hp := Real.pi_pos
  have ha1 := Complex.neg_pi_lt_arg ⟨p1.x - p0.x, p1.y - p0.y⟩
  have ha2 := Complex.arg_le_pi ⟨p1.x - p0.x, p1.y - p0.y⟩
  have hb1 := Complex.neg_pi_lt_arg ⟨p0.x - pp.x, p0.y - pp.y⟩
  have hb2 := Complex.arg_le_pi ⟨p0.x - pp.x, p0.y - pp.y⟩
  have h2 : (joint_angles m pp p0 p1).2 = Complex.arg ⟨p1.x - p0.x, p1.y - p0.y⟩ := hat _ _
  have h1 : (joint_angles m pp p0 p1).1 =
      if Complex.arg ⟨p0.x - pp.x, p0.y - pp.y⟩ < 0 then
        Complex.arg ⟨p0.x - pp.x, p0.y - pp.y⟩ + 2 * Real.pi
      else Complex.arg ⟨p0.x - pp.x, p0.y - pp.y⟩ := by
    simp only [joint_angles, hat, hpi]
  refine ⟨rfl, rfl, by rw [h2]; exact ha1, by rw [h2]; exact ha2, ?_, ?_, ?_,
    segment_geometry_corner m t hn pp p0 p1 pn⟩
  · rw [h1]
    split_ifs with h
    · linarith
    · exact not_lt.mp h
  · rw [h1]
    split_ifs with h
    · linarith
    · linarith
  · rw [h1, hat]
    split_ifs with h
    · right
      rfl
    · left
      rfl

/-- Witness for the amended C21: segment 2 of the path `(0,0), (10,0), (10,-10)` under the
real `<math.h>`; the current angle is `atan2(-10, 0)`, which is `-π/2`. -/
theorem current_angle_as_atan2_returns_witness :
    ∃ m : Libm ℝ, is_real_libm m ∧
      (joint_angles m ⟨0, 0⟩ ⟨10, 0⟩ ⟨10, -10⟩).2 = m.atan2 (-10 - 0) (10 - 10) ∧
      -Real.pi < (joint_angles m ⟨0, 0⟩ ⟨10, 0⟩ ⟨10, -10⟩).2 ∧
      (joint_angles m ⟨0, 0⟩ ⟨10, 0⟩ ⟨10, -10⟩).2 ≤ Real.pi ∧
      0 ≤ (joint_angles m ⟨0, 0⟩ ⟨10, 0⟩ ⟨10, -10⟩).1 ∧
      (joint_angles m ⟨0, 0⟩ ⟨10, 0⟩ ⟨10, -10⟩).1 < 2 * Real.pi ∧
      (joint_angles m ⟨0, 0⟩ ⟨10, 0⟩ ⟨10, -10⟩).2 = -(Real.pi / 2) := by
  obtain ⟨m, hm⟩ := exists_real_libm
  obtain ⟨-, h2, h3, h4, h5, h6, -, -⟩ :=
    current_angle_as_atan2_returns m hm 80 false false
      [⟨0, 0⟩, ⟨10, 0⟩, ⟨10, -10⟩] 2 ⟨0, 0⟩ ⟨10, 0⟩ ⟨10, -10⟩ ⟨10, -10⟩
  have hj := joint_angles_down m hm
  exact ⟨m, hm, h2, h3, h4, h5, h6, by rw [hj]⟩

end Claims

end VectorDisplay
